import Mathlib

/-!
Verification development for the DPLL SAT solver in
`cdcl-solver/dpll_solver.py` (a DPLL solver with two watched literals,
chronological backtracking, and the ORDERED decision heuristic).

The Python solver object is embedded as the structure `SolverState`; each
method of `DPLLSolver` becomes a Lean function on `SolverState`.  Python
dictionaries (which preserve insertion order) are embedded as association
lists with `alookup` / `ainsert` / `asetdefault` / `adelete` mirroring
`d[k]`, `d[k] = v`, `d.setdefault(k, dflt)` and `del d[k]`.  Python
operations that can raise an exception (`list[i]` out of range,
`list.remove` on a missing element, `del d[k]` on a missing key) are
embedded as `Option`-returning functions where `none` models the raised
exception.  Python `while` loops whose iteration count is not structural
take an explicit fuel argument; exhausted fuel also yields `none`.
DIMACS literal tokens are embedded as the integers they parse to
(the tokenizer itself is out of scope; its contract is a stream of signed
integer tokens).  `print` calls and wall-clock statistics are omitted; the
counters `_num_decisions` / `_num_implications` and the result marker
`stats._result` are kept, since the solver's control flow reads `_result`.
-/

/-- Python truthiness of an optional boolean (`if x:` where `x` is
`True`/`False`/`None`): `None` is falsy. -/
def pyTruthy : Option Bool → Bool
  | some b => b
  | none => false

/-- Python `not x` on an optional boolean: `not None` is `True`. -/
def pyNot : Option Bool → Bool
  | some b => !b
  | none => true

/-- Association-list lookup, `d[k]` / `k in d` (first binding wins;
the insertion discipline below keeps keys unique). -/
def alookup {α β : Type} [DecidableEq α] : List (α × β) → α → Option β
  | [], _ => none
  | (k, v) :: rest, key => if k = key then some v else alookup rest key

/-- Python dict assignment `d[k] = v`: replace in place if the key is
present, otherwise append the new binding at the end (insertion order). -/
def ainsert {α β : Type} [DecidableEq α] : List (α × β) → α → β → List (α × β)
  | [], key, val => [(key, val)]
  | (k, v) :: rest, key, val =>
    if k = key then (k, val) :: rest else (k, v) :: ainsert rest key val

/-- Python `d.setdefault(k, dflt)`: returns the (possibly extended)
dictionary and the value now stored at `k`. -/
def asetdefault {α β : Type} [DecidableEq α] (d : List (α × β)) (key : α)
    (dflt : β) : List (α × β) × β :=
  match alookup d key with
  | some v => (d, v)
  | none => (d ++ [(key, dflt)], dflt)

/-- Python `del d[k]`: `none` models the `KeyError` on a missing key. -/
def adelete {α β : Type} [DecidableEq α] : List (α × β) → α →
    Option (List (α × β))
  | [], _ => none
  | (k, v) :: rest, key =>
    if k = key then some rest
    else (adelete rest key).map (fun r => (k, v) :: r)

/-- Python `list.remove(a)`: drops the first occurrence of `a`; `none`
models the `ValueError` raised when `a` is absent. -/
def removeFirst {α : Type} [DecidableEq α] (l : List α) (a : α) :
    Option (List α) :=
  if a ∈ l then some (l.erase a) else none

/-- Python `list(OrderedDict.fromkeys(l))`: deduplicate keeping the first
occurrence of each element. -/
def dedup_keep_first {α : Type} [DecidableEq α] (l : List α) : List α :=
  go [] l
where
  go : List α → List α → List α
  | _, [] => []
  | seen, x :: rest =>
    if x ∈ seen then go seen rest else x :: go (seen ++ [x]) rest

/-- The solver verdict recorded in `stats._result` (`""`, `"SAT"`,
`"UNSAT"`). -/
inductive Verdict where
  | vUnknown
  | vSat
  | vUnsat
deriving DecidableEq, Repr

/-- The `AssignedNode` class: one entry of the assignment stack.  `var`
and `value` are `none` exactly for the conflict sentinel node
`AssignedNode(None, None, level, clause)`. -/
structure AssignedNode where
  var : Option Int
  value : Option Bool
  level : Int
  clause : Option Nat
  index : Int
deriving DecidableEq, Repr

/-- The mutable state of a `DPLLSolver` object (plus the two statistics
counters and the result marker that the control flow reads). -/
structure SolverState where
  num_clauses : Nat
  num_vars : Int
  level : Int
  clauses : List (List Int)
  clauses_watched_by_l : List (Option Int × List Nat)
  literals_watching_c : List (Nat × List Int)
  variable_to_assignment_nodes : List (Option Int × AssignedNode)
  assignment_stack : List AssignedNode
  res : Verdict
  num_decisions : Nat
  num_implications : Nat
deriving DecidableEq, Repr

/-- `DPLLSolver.__init__` (with the decider fixed to `"ORDERED"` and no
restarter, as in the source). -/
def init_state : SolverState :=
  { num_clauses := 0
    num_vars := 0
    level := 0
    clauses := []
    clauses_watched_by_l := []
    literals_watching_c := []
    variable_to_assignment_nodes := []
    assignment_stack := []
    res := Verdict.vUnknown
    num_decisions := 0
    num_implications := 0 }

/-- `_is_negative_literal`: in the `1..2N` packing, literals above `N`
are negations. -/
def is_negative_literal (s : SolverState) (literal : Int) : Bool :=
  literal > s.num_vars

/-- `_get_var_from_literal`. -/
def get_var_from_literal (s : SolverState) (literal : Int) : Int :=
  if is_negative_literal s literal then literal - s.num_vars else literal

/-- `_add_clause`.  The argument is the token list of one clause line
(signed integers; the final `0` terminator still present).  Returns the
updated state and the Python return code (`0` = stop ingestion, `1` =
continue); `none` models an uncaught exception. -/
def add_clause (s : SolverState) (clause0 : List Int) : Option (SolverState × Nat) :=
  let clause1 := clause0.dropLast
  let clause := dedup_keep_first clause1
  if clause.length = 1 then
    match clause.get? 0 with
    | none => none
    | some lit =>
      let value_to_set : Bool := !(lit < 0)
      let var : Int := if lit < 0 then -lit else lit
      match alookup s.variable_to_assignment_nodes (some var) with
      | none =>
        let node : AssignedNode :=
          { var := some var, value := some value_to_set, level := 0,
            clause := none, index := (s.assignment_stack.length : Int) }
        some ({ s with
                  num_implications := s.num_implications + 1
                  variable_to_assignment_nodes :=
                    ainsert s.variable_to_assignment_nodes (some var) node
                  assignment_stack := s.assignment_stack ++ [node] }, 1)
      | some node =>
        if node.value ≠ some value_to_set then
          some ({ s with res := Verdict.vUnsat }, 0)
        else
          some (s, 1)
  else
    let clause_with_literals :=
      clause.map (fun lit => if lit < 0 then -lit + s.num_vars else lit)
    let clause_id := s.num_clauses
    match clause_with_literals.get? 0, clause_with_literals.get? 1 with
    | some watch_literal1, some watch_literal2 =>
      let lw := ainsert s.literals_watching_c clause_id
        [watch_literal1, watch_literal2]
      let d1p := asetdefault s.clauses_watched_by_l (some watch_literal1) []
      let d2 := ainsert d1p.1 (some watch_literal1) (d1p.2 ++ [clause_id])
      let d3p := asetdefault d2 (some watch_literal2) []
      let d4 := ainsert d3p.1 (some watch_literal2) (d3p.2 ++ [clause_id])
      some ({ s with
                clauses := s.clauses ++ [clause_with_literals]
                num_clauses := s.num_clauses + 1
                literals_watching_c := lw
                clauses_watched_by_l := d4 }, 1)
    | _, _ => none

/-- One line of a DIMACS file after `line.split()`, with numeric tokens
already parsed (tokenizing is out of scope). -/
inductive DimacsLine where
  | commentLine
  | headerLine (nv : Int) (nc : Int)
  | clauseLine (tokens : List Int)

/-- `_read_dimacs_cnf_file`, over the pre-split line stream: comments are
skipped, the header sets `_num_vars`, every other line is a clause; a `0`
return from `_add_clause` stops ingestion. -/
def read_dimacs_cnf_file (s : SolverState) : List DimacsLine → Option SolverState
  | [] => some s
  | DimacsLine.commentLine :: rest => read_dimacs_cnf_file s rest
  | DimacsLine.headerLine nv _ :: rest =>
    read_dimacs_cnf_file { s with num_vars := nv } rest
  | DimacsLine.clauseLine tokens :: rest =>
    match add_clause s tokens with
    | none => none
    | some (s1, 0) => some s1
    | some (s1, _) => read_dimacs_cnf_file s1 rest

/-- The variable scan of `_decide` under the ORDERED policy:
`for x in range(1, num_vars + 1): if x not in map: var = x; break`,
with `-1` when every variable is assigned. -/
def find_unassigned_var (s : SolverState) : Nat → Int → Int
  | 0, _ => -1
  | k + 1, x =>
    if (alookup s.variable_to_assignment_nodes (some x)).isNone then x
    else find_unassigned_var s k (x + 1)

/-- `_decide` (named `decide_next` because `decide` is taken in Lean):
pick the smallest unassigned variable, assign it `True` at a fresh
decision level; returns the state and the chosen variable (`-1` when all
variables are assigned, leaving the state untouched). -/
def decide_next (s : SolverState) : SolverState × Int :=
  let var := find_unassigned_var s s.num_vars.toNat 1
  if var = -1 then (s, -1)
  else
    let level := s.level + 1
    let new_node : AssignedNode :=
      { var := some var, value := some true, level := level,
        clause := none, index := (s.assignment_stack.length : Int) }
    ({ s with
         level := level
         variable_to_assignment_nodes :=
           ainsert s.variable_to_assignment_nodes (some var) new_node
         assignment_stack := s.assignment_stack ++ [new_node]
         num_decisions := s.num_decisions + 1 }, var)

/-- Whether literal `lit` is currently true: its variable is assigned and
the assigned value matches the literal's polarity (this is exactly the
satisfaction test `_boolean_constraint_propogation` performs, both for the
other watched literal and inside the replacement scan). -/
def lit_true_under (s : SolverState) (lit : Int) : Bool :=
  match alookup s.variable_to_assignment_nodes
      (some (get_var_from_literal s lit)) with
  | some node =>
    (is_negative_literal s lit && !(pyTruthy node.value)) ||
      (!(is_negative_literal s lit) && pyTruthy node.value)
  | none => false

/-- Whether the variable of literal `lit` is unassigned
(`var not in self._variable_to_assignment_nodes`). -/
def lit_unassigned (s : SolverState) (lit : Int) : Bool :=
  (alookup s.variable_to_assignment_nodes
    (some (get_var_from_literal s lit))).isNone

/-- Selection of the other watched literal: `other = wl[0]`, and if that
equals the falsified literal, `other = wl[1]`; `none` models the
`IndexError` on a malformed pair. -/
def other_watch_of (wl : List Int) (fal : Option Int) : Option Int :=
  match wl.get? 0 with
  | none => none
  | some w0 => if some w0 = fal then wl.get? 1 else some w0

/-- The replacement scan: the first literal of the clause that is not in
the current watched pair and is unassigned or true (`-1`/no result when
none exists). -/
def find_new_watch (s : SolverState) (wl : List Int) (clause : List Int) :
    Option Int :=
  clause.find? (fun lit =>
    !(wl.contains lit) && (lit_unassigned s lit || lit_true_under s lit))

/-- The watch move of BCP: remove the falsified literal from the clause's
watched pair and from its watch list, append the new literal to the pair
and insert the clause into the new literal's watch list (`none` models the
`ValueError` of either `remove`). -/
def apply_move (s : SolverState) (falv new_literal_to_watch : Int)
    (clause_id : Nat) (wl : List Int) : Option SolverState :=
  match removeFirst wl falv with
  | none => none
  | some wrest =>
    let lw := ainsert s.literals_watching_c clause_id
      (wrest ++ [new_literal_to_watch])
    let d1p := asetdefault s.clauses_watched_by_l (some falv) []
    match removeFirst d1p.2 clause_id with
    | none => none
    | some lst1 =>
      let d2 := ainsert d1p.1 (some falv) lst1
      let d3p := asetdefault d2 (some new_literal_to_watch) []
      let d4 := ainsert d3p.1 (some new_literal_to_watch)
        (d3p.2 ++ [clause_id])
      some { s with literals_watching_c := lw, clauses_watched_by_l := d4 }

/-- The unit case of BCP: push an implication node that makes the other
watched literal true, at the current decision level, with the clause as
reason. -/
def force_other_watch (s : SolverState) (other_watch_var : Int)
    (value_to_set : Bool) (clause_id : Nat) : SolverState :=
  let assign_var_node : AssignedNode :=
    { var := some other_watch_var, value := some value_to_set,
      level := s.level, clause := some clause_id,
      index := (s.assignment_stack.length : Int) }
  { s with
      variable_to_assignment_nodes :=
        ainsert s.variable_to_assignment_nodes (some other_watch_var)
          assign_var_node
      assignment_stack := s.assignment_stack ++ [assign_var_node]
      num_implications := s.num_implications + 1 }

/-- The conflict case of BCP: push the conflict sentinel node
`AssignedNode(None, None, level, clause_id)`. -/
def push_conflict (s : SolverState) (clause_id : Nat) : SolverState :=
  let conflict_node : AssignedNode :=
    { var := none, value := none, level := s.level,
      clause := some clause_id,
      index := (s.assignment_stack.length : Int) }
  { s with assignment_stack := s.assignment_stack ++ [conflict_node] }

/-- The body of BCP's inner loop for one clause watched by the falsified
literal.  The returned flag is `true` exactly when a conflict was pushed;
`none` models an uncaught exception (`KeyError` / `IndexError` /
`ValueError`). -/
def process_watched_clause (s : SolverState) (literal_that_is_falsed : Option Int)
    (clause_id : Nat) : Option (SolverState × Bool) :=
  match alookup s.literals_watching_c clause_id with
  | none => none
  | some watch_list_of_clause =>
    match other_watch_of watch_list_of_clause literal_that_is_falsed with
    | none => none
    | some other_watch_literal =>
      if lit_true_under s other_watch_literal then some (s, false)
      else
        match s.clauses.get? clause_id with
        | none => none
        | some clause =>
          match find_new_watch s watch_list_of_clause clause with
          | some new_literal_to_watch =>
            match literal_that_is_falsed with
            | none => none
            | some falv =>
              match apply_move s falv new_literal_to_watch clause_id
                  watch_list_of_clause with
              | none => none
              | some s1 => some (s1, false)
          | none =>
            let other_watch_var :=
              get_var_from_literal s other_watch_literal
            let is_negative_other :=
              is_negative_literal s other_watch_literal
            match alookup s.variable_to_assignment_nodes
                (some other_watch_var) with
            | none =>
              some (force_other_watch s other_watch_var
                (!is_negative_other) clause_id, false)
            | some _ =>
              some (push_conflict s clause_id, true)

/-- BCP's inner loop over the snapshot of the clauses watched by the
falsified literal (already in iteration order). -/
def process_watch_list (fal : Option Int) :
    SolverState → List Nat → Option (SolverState × Bool)
  | s, [] => some (s, false)
  | s, clause_id :: rest =>
    match process_watched_clause s fal clause_id with
    | none => none
    | some (s1, true) => some (s1, true)
    | some (s1, false) => process_watch_list fal s1 rest

/-- The literal made false by an assignment-stack node: `var + N` when the
node's value is truthy, the bare `var` otherwise.  `none` models the
`TypeError` of `None + num_vars` (truthy value but `var` is `None`);
a node with `var = None` and falsy value yields the valid dictionary key
`None`. -/
def falsified_literal_of (num_vars : Int) (node : AssignedNode) :
    Option (Option Int) :=
  if pyTruthy node.value then
    match node.var with
    | some v => some (some (v + num_vars))
    | none => none
  else some node.var

/-- The result of `_boolean_constraint_propogation`. -/
inductive BCPResult where
  | conflictR
  | noConflictR
deriving DecidableEq, Repr

/-- BCP's outer loop: advance the cursor along the assignment stack,
snapshotting and scanning the watch list of each node's falsified literal
(the snapshot is reversed before iteration, as in the source). -/
def bcp_loop : Nat → SolverState → Nat → Option (SolverState × BCPResult)
  | 0, _, _ => none
  | fuel + 1, s, last_assignment_pointer =>
    if h : last_assignment_pointer < s.assignment_stack.length then
      let last_assigned_node := s.assignment_stack.get ⟨last_assignment_pointer, h⟩
      match falsified_literal_of s.num_vars last_assigned_node with
      | none => none
      | some literal_that_is_falsed =>
        let dp := asetdefault s.clauses_watched_by_l literal_that_is_falsed []
        let s0 := { s with clauses_watched_by_l := dp.1 }
        match process_watch_list literal_that_is_falsed s0 dp.2.reverse with
        | none => none
        | some (s1, true) => some (s1, BCPResult.conflictR)
        | some (s1, false) => bcp_loop fuel s1 (last_assignment_pointer + 1)
    else some (s, BCPResult.noConflictR)

/-- `_boolean_constraint_propogation`: the cursor starts at index 0 on the
first call and at the last stack index otherwise (on an empty stack the
Python start index `-1` makes `stack[-1]` raise `IndexError`, modelled by
`none`). -/
def boolean_constraint_propogation (fuel : Nat) (is_first_time : Bool)
    (s : SolverState) : Option (SolverState × BCPResult) :=
  if is_first_time then bcp_loop fuel s 0
  else
    match s.assignment_stack.length with
    | 0 => none
    | n + 1 => bcp_loop fuel s n

/-- The backward scan of `_find_backtrack`, over the stack *below* the
conflict sentinel listed top-down: keep walking while the level equals the
conflict level, remembering the last such node (the bottommost node of the
top run at that level); stop at the first different level.  `none` models
`backtrack_node` staying `None` (the subsequent attribute access raises). -/
def scan_for_decision (conflict_level : Int) : List AssignedNode →
    Option AssignedNode
  | [] => none
  | node :: rest =>
    if node.level = conflict_level then
      match scan_for_decision conflict_level rest with
      | some m => some m
      | none => some node
    else none

/-- `_find_backtrack` (only the reachable chronological branch; the
clause-learning code after the unconditional `return` is dead).  Returns
the updated state, the backtrack level, and the flip node.  At conflict
level 0 it returns `(-1, None)` without touching the stack; otherwise it
builds the flip node from the bottommost node at the conflict level, pops
the conflict sentinel, and returns `(L - 1, flip)`. -/
def find_backtrack (s : SolverState) :
    Option (SolverState × Int × Option AssignedNode) :=
  match s.assignment_stack.getLast? with
  | none => none
  | some conflict_node =>
    let conflict_level := conflict_node.level
    if conflict_level = 0 then some (s, -1, none)
    else
      let backtrack_level := conflict_level - 1
      match scan_for_decision conflict_level s.assignment_stack.dropLast.reverse with
      | none => none
      | some backtrack_node =>
        let node_to_add : AssignedNode :=
          { var := backtrack_node.var,
            value := some (pyNot backtrack_node.value),
            level := backtrack_level, clause := none, index := -1 }
        some ({ s with assignment_stack := s.assignment_stack.dropLast },
          backtrack_level, some node_to_add)

/-- The popping loop of `_backtrack`, walking the stack top-down (the
argument is the reversed stack): pop every node with level above the
target, deleting its variable from the variable map (`none` models the
`KeyError` of that deletion). -/
def pops_above (backtrack_level : Int) : List AssignedNode →
    List (Option Int × AssignedNode) →
    Option (List AssignedNode × List (Option Int × AssignedNode))
  | [], m => some ([], m)
  | node :: restRev, m =>
    if node.level ≤ backtrack_level then some (node :: restRev, m)
    else
      match adelete m node.var with
      | none => none
      | some m1 => pops_above backtrack_level restRev m1

/-- `_backtrack`: set the level, pop every node above it (removing each
from the variable map), then push the flip node (if any) onto the trail
and into the map, counting it as an implication. -/
def backtrack (s : SolverState) (backtrack_level : Int)
    (node_to_add : Option AssignedNode) : Option SolverState :=
  match pops_above backtrack_level s.assignment_stack.reverse
      s.variable_to_assignment_nodes with
  | none => none
  | some (restRev, m1) =>
    let s1 := { s with
                  level := backtrack_level
                  assignment_stack := restRev.reverse
                  variable_to_assignment_nodes := m1 }
    match node_to_add with
    | none => some s1
    | some nd =>
      let nd1 := { nd with index := (s1.assignment_stack.length : Int) }
      some { s1 with
               variable_to_assignment_nodes :=
                 ainsert s1.variable_to_assignment_nodes nd.var nd1
               assignment_stack := s1.assignment_stack ++ [nd1]
               num_implications := s1.num_implications + 1 }

/-- The inner loop of `solve`: run BCP; on `NO_CONFLICT` stop; on a
conflict analyze it, and either mark UNSAT (backtrack level `-1`) or
backtrack and repeat.  `bcp_fuel` bounds each BCP call, the structural
fuel bounds the number of conflicts handled. -/
def inner_loop (bcp_fuel : Nat) : Nat → Bool → SolverState → Option SolverState
  | 0, _, _ => none
  | fuel + 1, is_first_time, s =>
    match boolean_constraint_propogation bcp_fuel is_first_time s with
    | none => none
    | some (s1, BCPResult.noConflictR) => some s1
    | some (s1, BCPResult.conflictR) =>
      match find_backtrack s1 with
      | none => none
      | some (s2, backtrack_level, node_to_add) =>
        if backtrack_level = -1 then some { s2 with res := Verdict.vUnsat }
        else
          match backtrack s2 backtrack_level node_to_add with
          | none => none
          | some s3 => inner_loop bcp_fuel fuel false s3

/-- The outer loop of `solve`: propagate to quiescence (or UNSAT), then
decide; `-1` from the decider means every variable is assigned and the
formula is SAT. -/
def outer_loop (bcp_fuel inner_fuel : Nat) : Nat → Bool → SolverState →
    Option SolverState
  | 0, _, _ => none
  | fuel + 1, is_first_time, s =>
    match inner_loop bcp_fuel inner_fuel is_first_time s with
    | none => none
    | some s1 =>
      if s1.res = Verdict.vUnsat then some s1
      else
        let dp := decide_next s1
        if dp.2 = -1 then some { dp.1 with res := Verdict.vSat }
        else outer_loop bcp_fuel inner_fuel fuel false dp.1

/-- `solve`: ingest the DIMACS line stream; if ingestion already
concluded UNSAT stop, otherwise run the propagate/decide loop (the first
BCP call is flagged as the first pass). -/
def solve (bcp_fuel inner_fuel outer_fuel : Nat) (s : SolverState)
    (lines : List DimacsLine) : Option SolverState :=
  match read_dimacs_cnf_file s lines with
  | none => none
  | some s1 =>
    if s1.res = Verdict.vUnsat then some s1
    else outer_loop bcp_fuel inner_fuel outer_fuel true s1

/-! ## Concrete runs used by the end-to-end claims -/

/-- The observable content of a trail node (ignoring the stack index). -/
def node_summary (n : AssignedNode) : Option Int × Option Bool × Int × Option Nat :=
  (n.var, n.value, n.level, n.clause)

/-- The spec's end-to-end scenario 3:
`p cnf 3 3 / 1 2 0 / -1 3 0 / -2 -3 0`. -/
def example_cnf_3 : List DimacsLine :=
  [DimacsLine.headerLine 3 3, DimacsLine.clauseLine [1, 2, 0],
   DimacsLine.clauseLine [-1, 3, 0], DimacsLine.clauseLine [-2, -3, 0]]

/-- The state after ingesting `example_cnf_3`. -/
def c2_ingested : SolverState :=
  (read_dimacs_cnf_file init_state example_cnf_3).getD init_state

/-- The state after the first (and only) decision on `example_cnf_3`. -/
def c2_decided : SolverState := (decide_next c2_ingested).1

/-- The state after propagating that decision. -/
def c2_propagated : SolverState :=
  ((boolean_constraint_propogation 20 false c2_decided).getD
    (init_state, BCPResult.conflictR)).1

/-- The final state of `solve` on `example_cnf_3`. -/
def c2_final : SolverState :=
  (solve 20 20 20 init_state example_cnf_3).getD init_state

/-- Claim C2 (counterexample): on `p cnf 3 3 / 1 2 0 / -1 3 0 / -2 -3 0`
the solver does *not* execute the trace the claim describes.  The full run
reports SAT after exactly one decision, and variable 2 ends assigned
`false` by an *implication* whose reason is clause 2 — so `2 = true` is
never chosen as a decision, and no conflict or backtrack ever occurs
(the claimed trace requires two decisions and a conflict). -/
theorem claim2_counterexample :
    solve 20 20 20 init_state example_cnf_3 = some c2_final ∧
    c2_final.res = Verdict.vSat ∧
    c2_final.num_decisions = 1 ∧
    (alookup c2_final.variable_to_assignment_nodes (some 2)).map node_summary =
      some (some 2, some false, 1, some 2) := by decide

/-- Claim C2 (amended): under ORDERED + true-first, the decision
`1 = true` forces `3 = true` from clause 2 (id 1) *and then* `2 = false`
from clause 3 (id 2) in the same BCP pass; no second decision is made and
no conflict arises; the final reported satisfying assignment is
`{1, ¬2, 3}`.  The conjunction below traces the actual execution:
ingestion stores three clauses and pushes nothing, the first BCP pass is a
no-op, the decision assigns `1 = true` at level 1, propagation appends the
two implications and quiesces, and the next call to the decider returns
the all-assigned sentinel `-1`, after which `solve` reports SAT. -/
theorem claim2_theorem :
    read_dimacs_cnf_file init_state example_cnf_3 = some c2_ingested ∧
    c2_ingested.assignment_stack = [] ∧
    c2_ingested.clauses = [[1, 2], [4, 3], [5, 6]] ∧
    boolean_constraint_propogation 20 true c2_ingested =
      some (c2_ingested, BCPResult.noConflictR) ∧
    decide_next c2_ingested = (c2_decided, 1) ∧
    c2_decided.assignment_stack.map node_summary =
      [(some 1, some true, 1, none)] ∧
    boolean_constraint_propogation 20 false c2_decided =
      some (c2_propagated, BCPResult.noConflictR) ∧
    c2_propagated.assignment_stack.map node_summary =
      [(some 1, some true, 1, none),
       (some 3, some true, 1, some 1),
       (some 2, some false, 1, some 2)] ∧
    decide_next c2_propagated = (c2_propagated, -1) ∧
    solve 20 20 20 init_state example_cnf_3 = some c2_final ∧
    c2_final.res = Verdict.vSat ∧
    c2_final.num_decisions = 1 ∧
    (alookup c2_final.variable_to_assignment_nodes (some 1)).map
      (fun n => n.value) = some (some true) ∧
    (alookup c2_final.variable_to_assignment_nodes (some 2)).map
      (fun n => n.value) = some (some false) ∧
    (alookup c2_final.variable_to_assignment_nodes (some 3)).map
      (fun n => n.value) = some (some true) :=
  ⟨by decide, by decide, by decide, by decide, by decide, by decide,
   by decide, by decide, by decide, by decide, by decide, by decide,
   by decide, by decide, by decide⟩

/-- Claim C3 (code bug): a clause that is empty after dropping the `0`
terminator and deduplicating does *not* make ingestion report UNSAT and
halt — `_add_clause` falls through to the two-watched-literal storage path
and raises `IndexError` on `clause_with_literals[0]` (embedded as `none`),
both directly and through `_read_dimacs_cnf_file`. -/
theorem claim3_theorem :
    add_clause { init_state with num_vars := 1 } [0] = none ∧
    read_dimacs_cnf_file init_state
      [DimacsLine.headerLine 1 1, DimacsLine.clauseLine [0]] = none := by decide

/-- Input whose first BCP pass produces a conflict at decision level 0:
`p cnf 2 3 / 1 0 / -1 2 0 / -1 -2 0`. -/
def c5_input : List DimacsLine :=
  [DimacsLine.headerLine 2 3, DimacsLine.clauseLine [1, 0],
   DimacsLine.clauseLine [-1, 2, 0], DimacsLine.clauseLine [-1, -2, 0]]

/-- The state after ingesting `c5_input`. -/
def c5_ingested : SolverState :=
  (read_dimacs_cnf_file init_state c5_input).getD init_state

/-- The state in which the first BCP pass has pushed a root-level conflict
sentinel. -/
def c5_conflicted : SolverState :=
  ((boolean_constraint_propogation 20 true c5_ingested).getD
    (init_state, BCPResult.conflictR)).1

/-- Claim C5 (counterexample): on a reachable root-level conflict the
conflict-analysis routine does *not* pop the conflict sentinel before
examining the conflict level.  After the first BCP pass on
`p cnf 2 3 / 1 0 / -1 2 0 / -1 -2 0` pushes a level-0 conflict sentinel,
`_find_backtrack` returns `(-1, None)` with the state completely
unchanged: the sentinel (`var = None`) is still the last trail entry of
the returned state. -/
theorem claim5_counterexample :
    boolean_constraint_propogation 20 true c5_ingested =
      some (c5_conflicted, BCPResult.conflictR) ∧
    c5_conflicted.assignment_stack.map node_summary =
      [(some 1, some true, 0, none),
       (some 2, some false, 0, some 1),
       (none, none, 0, some 0)] ∧
    find_backtrack c5_conflicted = some (c5_conflicted, -1, none) ∧
    (c5_conflicted.assignment_stack.getLast?).map (fun n => n.var) =
      some none := by decide

/-- The state after ingesting a clause whose literals reference variable
numbers above the declared count (`p cnf 1 1` with clause `2 3 0`). -/
def c7_state : SolverState :=
  (read_dimacs_cnf_file init_state
    [DimacsLine.headerLine 1 1, DimacsLine.clauseLine [2, 3, 0]]).getD
    init_state

/-- Claim C7 (counterexample): a literal referencing a variable greater
than the declared count `N` is *not* surfaced as an error at ingestion:
on `p cnf 1 1` with clause `2 3 0` ingestion completes normally (no
exception, result marker untouched), silently stores the out-of-range
clause with both watch indices, and the literal `2` is even misclassified
as negative by the literal decoder because `2 > N = 1`. -/
theorem claim7_counterexample :
    read_dimacs_cnf_file init_state
      [DimacsLine.headerLine 1 1, DimacsLine.clauseLine [2, 3, 0]] =
      some c7_state ∧
    c7_state.res = Verdict.vUnknown ∧
    c7_state.clauses = [[2, 3]] ∧
    c7_state.literals_watching_c = [(0, [2, 3])] ∧
    c7_state.clauses_watched_by_l = [(some 2, [0]), (some 3, [0])] ∧
    is_negative_literal c7_state 2 = true := by decide

/-- Claim C7 (amended): ingestion performs no range check on literals.
Any clause line whose token list still has at least two distinct literals
after dropping the terminator and deduplicating is stored by `_add_clause`
with return code 1, its literals encoded by the sign rule alone
(`v ↦ v`, `-v ↦ v + N`), whether or not each variable lies in `1..N`;
no error is surfaced (result marker and trail untouched). -/
theorem claim7_theorem (s : SolverState) (toks : List Int)
    (h : 2 ≤ (dedup_keep_first toks.dropLast).length) :
    (add_clause s toks).map
        (fun p => (p.1.clauses, p.1.res, p.1.assignment_stack, p.2)) =
      some (s.clauses ++
          [(dedup_keep_first toks.dropLast).map
            (fun lit => if lit < 0 then -lit + s.num_vars else lit)],
        s.res, s.assignment_stack, 1) := by
  rcases hd : dedup_keep_first toks.dropLast with _ | ⟨a, _ | ⟨b, t⟩⟩
  · rw [hd] at h; simp at h
  · rw [hd] at h; simp at h
  · simp only [add_clause, hd]
    simp

/-- Claim C7 (witness): the amended statement applied to the concrete
out-of-range ingestion `p cnf 1 1` with clause `2 3 0`. -/
theorem claim7_witness :
    2 ≤ (dedup_keep_first ([2, 3, 0] : List Int).dropLast).length ∧
    (add_clause { init_state with num_vars := 1 } [2, 3, 0]).map
        (fun p => (p.1.clauses, p.1.res, p.1.assignment_stack, p.2)) =
      some (({ init_state with num_vars := 1 } : SolverState).clauses ++
          [(dedup_keep_first ([2, 3, 0] : List Int).dropLast).map
            (fun lit => if lit < 0 then
              -lit + ({ init_state with num_vars := 1 } : SolverState).num_vars
            else lit)],
        ({ init_state with num_vars := 1 } : SolverState).res,
        ({ init_state with num_vars := 1 } : SolverState).assignment_stack,
        1) :=
  ⟨by decide, claim7_theorem { init_state with num_vars := 1 } [2, 3, 0]
    (by decide)⟩

/-! ## The backward scan of conflict analysis -/

lemma head?_dropWhile_false {α : Type} (p : α → Bool) :
    ∀ (l : List α) (x : α), (l.dropWhile p).head? = some x → p x = false := by
  intro l
  induction l with
  | nil => intro x hx; simp [List.dropWhile] at hx
  | cons a t ih =>
    intro x hx
    by_cases ha : p a
    · rw [List.dropWhile_cons_of_pos ha] at hx
      exact ih x hx
    · rw [List.dropWhile_cons_of_neg ha] at hx
      simp at hx
      subst hx
      exact Bool.eq_false_iff.mpr ha

lemma find?_append_of_none {α : Type} (p : α → Bool) :
    ∀ (l1 l2 : List α), l1.find? p = none →
      (l1 ++ l2).find? p = l2.find? p := by
  intro l1
  induction l1 with
  | nil => intro l2 _; simp
  | cons a t ih =>
    intro l2 h
    by_cases ha : p a
    · simp [List.find?_cons_of_pos _ ha] at h
    · rw [List.find?_cons_of_neg _ ha] at h
      simp only [List.cons_append, List.find?_cons_of_neg _ ha]
      exact ih l2 h

lemma find?_eq_none_of_all_false {α : Type} (p : α → Bool) :
    ∀ (l : List α), (∀ x ∈ l, p x = false) → l.find? p = none := by
  intro l
  induction l with
  | nil => intro _; simp
  | cons a t ih =>
    intro h
    rw [List.find?_cons_of_neg _ (by simp [h a (by simp)])]
    exact ih (fun x hx => h x (by simp [hx]))

/-- Unfolding equation of `scan_for_decision` on a cons cell. -/
lemma scan_cons (L : Int) (n : AssignedNode) (l : List AssignedNode) :
    scan_for_decision L (n :: l) =
      if n.level = L then
        match scan_for_decision L l with
        | some m => some m
        | none => some n
      else none := rfl

/-- `scan_for_decision` on a run of conflict-level nodes followed by a
differently-levelled remainder returns the last node of the run. -/
lemma scan_for_decision_spec (L : Int) :
    ∀ (run rest : List AssignedNode), run ≠ [] →
      (∀ n ∈ run, n.level = L) →
      (∀ n0, rest.head? = some n0 → n0.level ≠ L) →
      scan_for_decision L (run ++ rest) = run.getLast? := by
  intro run
  induction run with
  | nil => intro rest h; exact absurd rfl h
  | cons a t ih =>
    intro rest _ hrun hrest
    have ha : a.level = L := hrun a (by simp)
    cases t with
    | nil =>
      rw [List.cons_append, List.nil_append, scan_cons, if_pos ha]
      cases hcase : rest with
      | nil => simp [scan_for_decision]
      | cons n0 r0 =>
        have hne : n0.level ≠ L := hrest n0 (by simp [hcase])
        rw [scan_cons, if_neg hne]
        simp
    | cons b t2 =>
      have hs := ih rest (by simp) (fun n hn => hrun n (by simp [hn])) hrest
      rw [List.cons_append, scan_cons, if_pos ha, hs]
      cases hg : (b :: t2).getLast? with
      | none => simp [List.getLast?] at hg
      | some m => simp [List.getLast?_cons_cons, hg]

/-- On a trail consisting of monotonically-levelled nodes `pre` topped by
a conflict node at level `L ≥ 1`, with at least one node of `pre` at level
`L`, `_find_backtrack` pops the conflict node and returns level `L - 1`
together with the flip of the bottommost (first) node of `pre` at level
`L`. -/
lemma find_backtrack_pos_spec (s : SolverState) (pre : List AssignedNode)
    (cn : AssignedNode) (L : Int)
    (hstack : s.assignment_stack = pre ++ [cn])
    (hlev : cn.level = L) (hpos : 1 ≤ L)
    (hmono : List.Pairwise (fun a b => a.level ≤ b.level) (pre ++ [cn]))
    (hex : ∃ n ∈ pre, n.level = L) :
    ∃ d, pre.find? (fun n => decide (n.level = L)) = some d ∧
      find_backtrack s =
        some ({ s with assignment_stack := pre }, L - 1,
          some { var := d.var, value := some (pyNot d.value), level := L - 1,
                 clause := none, index := -1 }) := by
  subst hlev
  obtain ⟨x, hxmem, hxlev⟩ := hex
  -- decompose pre as q ++ [lastn]
  rcases List.eq_nil_or_concat pre with hnil | ⟨q, lastn, hql⟩
  · subst hnil; simp at hxmem
  rw [List.concat_eq_append] at hql
  subst hql
  -- monotonicity facts
  have hmono2 := (List.pairwise_append.mp hmono)
  have hprepw : List.Pairwise (fun a b => a.level ≤ b.level) (q ++ [lastn]) :=
    hmono2.1
  have hle : ∀ y ∈ q ++ [lastn], y.level ≤ cn.level := by
    intro y hy
    exact hmono2.2.2 y hy cn (by simp)
  have hlastn : lastn.level = cn.level := by
    have h1 : lastn.level ≤ cn.level := hle lastn (by simp)
    rcases List.mem_append.mp hxmem with hxq | hxl
    · have := (List.pairwise_append.mp hprepw).2.2 x hxq lastn (by simp)
      omega
    · simp at hxl; subst hxl; omega
  -- the takeWhile/dropWhile decomposition of the reversed scan list
  set p : AssignedNode → Bool := fun n => decide (n.level = cn.level) with hp
  set R : List AssignedNode := (q ++ [lastn]).reverse with hR
  set run : List AssignedNode := R.takeWhile p with hrun
  set rest : List AssignedNode := R.dropWhile p with hrest
  have hsplit : run ++ rest = R := List.takeWhile_append_dropWhile p R
  have hRhead : R = lastn :: q.reverse := by
    simp [hR]
  have hrunne : run ≠ [] := by
    rw [hrun, hRhead, List.takeWhile_cons_of_pos (by simp [hp, hlastn])]
    simp
  have hrunlev : ∀ n ∈ run, n.level = cn.level := by
    intro n hn
    have := List.mem_takeWhile_imp hn
    simpa [hp] using this
  have hrestlev : ∀ n0, rest.head? = some n0 → n0.level ≠ cn.level := by
    intro n0 h0
    have := head?_dropWhile_false p R n0 h0
    simpa [hp] using this
  -- the scan returns the last node of the run
  have hscan : scan_for_decision cn.level R = run.getLast? := by
    rw [← hsplit]
    exact scan_for_decision_spec cn.level run rest hrunne hrunlev hrestlev
  obtain ⟨d, hd⟩ : ∃ d, run.getLast? = some d := by
    cases hg : run.getLast? with
    | none => exact absurd (List.getLast?_eq_none_iff.mp hg) hrunne
    | some d => exact ⟨d, rfl⟩
  have hpre2 : q ++ [lastn] = rest.reverse ++ run.reverse := by
    have h1 : R.reverse = q ++ [lastn] := by simp [hR]
    rw [← h1, ← hsplit]
    simp
  -- every element of rest is below the conflict level
  have hrestfalse : ∀ y ∈ rest, p y = false := by
    cases hrc : rest with
    | nil => simp
    | cons n0 rest2 =>
      have hn0lev : n0.level ≠ cn.level := hrestlev n0 (by simp [hrc])
      have hn0R : n0 ∈ R := by rw [← hsplit, hrc]; simp
      have hn0mem : n0 ∈ q ++ [lastn] := by
        rw [hR] at hn0R
        exact List.mem_reverse.mp hn0R
      have hn0le : n0.level < cn.level := by
        have := hle n0 hn0mem
        omega
      intro y hy
      rcases List.mem_cons.mp hy with h1 | h2
      · subst h1; simp [hp]; omega
      · -- y sits below n0 in the trail, whose levels are monotone
        have hrevpw : List.Pairwise (fun a b => a.level ≤ b.level)
            (rest.reverse ++ run.reverse) := by rw [← hpre2]; exact hprepw
        have hrestpw : List.Pairwise (fun a b => a.level ≤ b.level)
            rest.reverse := (List.pairwise_append.mp hrevpw).1
        have hyn0 : y.level ≤ n0.level := by
          rw [hrc] at hrestpw
          simp only [List.reverse_cons] at hrestpw
          exact (List.pairwise_append.mp hrestpw).2.2 y (by simp [h2]) n0
            (by simp)
        simp [hp]; omega
  -- find? on pre locates the same node
  have hfind : (q ++ [lastn]).find? p = some d := by
    rw [hpre2, find?_append_of_none p _ _
      (find?_eq_none_of_all_false p _
        (fun y hy => hrestfalse y (List.mem_reverse.mp hy)))]
    have hhead : run.reverse.head? = some d := by
      rw [List.head?_reverse]
      exact hd
    cases hrr : run.reverse with
    | nil => rw [hrr] at hhead; simp at hhead
    | cons d0 rr2 =>
      rw [hrr] at hhead
      simp at hhead
      subst hhead
      have hd0 : p d0 = true := by
        have hmem : d0 ∈ run := by
          have : d0 ∈ run.reverse := by rw [hrr]; simp
          exact List.mem_reverse.mp this
        simp [hp, hrunlev d0 hmem]
      rw [List.find?_cons_of_pos _ hd0]
  -- assemble the result of find_backtrack
  refine ⟨d, hfind, ?_⟩
  have hgl : s.assignment_stack.getLast? = some cn := by
    rw [hstack]; simp
  have hdl : s.assignment_stack.dropLast = q ++ [lastn] := by
    rw [hstack]
    exact List.dropLast_concat
  simp only [find_backtrack, hgl]
  rw [if_neg (by omega : ¬ cn.level = 0)]
  rw [hdl]
  have hRfold : (q ++ [lastn]).reverse = R := by rw [hR]
  rw [hRfold, hscan, hd]

/-- Claim C4: for a conflict at decision level `L ≥ 1` (trail = `pre`
plus the conflict node on top, trail levels monotone, some node of `pre`
at level `L`), `_find_backtrack` returns the pair `(L - 1, F)` where `F`
is a fresh node whose `var` is the variable of the bottommost trail node
at level `L`, whose `value` is the negation of that node's value, whose
`level` is `L - 1` and whose `clause`/reason is the decision marker
`None`; and the conflict sentinel has been popped before the routine
returns (the returned state's trail is exactly `pre`). -/
theorem claim4_theorem (s : SolverState) (pre : List AssignedNode)
    (cn : AssignedNode) (L : Int)
    (hstack : s.assignment_stack = pre ++ [cn])
    (hlev : cn.level = L) (hpos : 1 ≤ L)
    (hmono : List.Pairwise (fun a b => a.level ≤ b.level) (pre ++ [cn]))
    (hex : ∃ n ∈ pre, n.level = L) :
    ∃ d, pre.find? (fun n => decide (n.level = L)) = some d ∧
      find_backtrack s =
        some ({ s with assignment_stack := pre }, L - 1,
          some { var := d.var, value := some (pyNot d.value), level := L - 1,
                 clause := none, index := -1 }) :=
  find_backtrack_pos_spec s pre cn L hstack hlev hpos hmono hex

/-- A concrete conflict state at level 1: the decision `1 = true` with a
conflict sentinel on top. -/
def c4_state : SolverState :=
  { init_state with
      num_clauses := 1
      num_vars := 1
      level := 1
      clauses := [[1, 2]]
      clauses_watched_by_l := [(some 1, [0]), (some 2, [0])]
      literals_watching_c := [(0, [1, 2])]
      variable_to_assignment_nodes :=
        [(some 1, AssignedNode.mk (some 1) (some true) 1 none 0)]
      assignment_stack :=
        [AssignedNode.mk (some 1) (some true) 1 none 0,
         AssignedNode.mk none none 1 (some 0) 1] }

/-- Claim C4 (witness): applying the theorem to `c4_state` (conflict at
level 1 above the decision `1 = true`). -/
theorem claim4_witness :
    ∃ d, ([AssignedNode.mk (some 1) (some true) 1 none 0]).find?
        (fun n => decide (n.level = 1)) = some d ∧
      find_backtrack c4_state =
        some ({ c4_state with
                  assignment_stack :=
                    [AssignedNode.mk (some 1) (some true) 1 none 0] },
          1 - 1,
          some { var := d.var, value := some (pyNot d.value), level := 1 - 1,
                 clause := none, index := -1 }) :=
  claim4_theorem c4_state [AssignedNode.mk (some 1) (some true) 1 none 0]
    (AssignedNode.mk none none 1 (some 0) 1) 1 rfl rfl (by decide)
    (by simp [List.pairwise_cons])
    ⟨AssignedNode.mk (some 1) (some true) 1 none 0, by simp, rfl⟩

/-- Claim C5 (amended): the conflict-analysis routine pops the conflict
sentinel only on the `L ≥ 1` path, after locating the flip node and just
before returning; when the conflict level is 0 it returns `(-1, none)`
*without* popping, leaving the conflict sentinel on the assignment
trail (the returned state is the input state, unchanged). -/
theorem claim5_theorem :
    (∀ (s : SolverState) (cn : AssignedNode),
      s.assignment_stack.getLast? = some cn → cn.level = 0 →
      find_backtrack s = some (s, -1, none)) ∧
    (∀ (s : SolverState) (pre : List AssignedNode) (cn : AssignedNode)
      (L : Int), s.assignment_stack = pre ++ [cn] → cn.level = L → 1 ≤ L →
      List.Pairwise (fun a b => a.level ≤ b.level) (pre ++ [cn]) →
      (∃ n ∈ pre, n.level = L) →
      ∃ nd, find_backtrack s =
        some ({ s with assignment_stack := pre }, L - 1, some nd)) := by
  constructor
  · intro s cn hgl hl0
    simp only [find_backtrack, hgl]
    rw [if_pos hl0]
  · intro s pre cn L hstack hlev hpos hmono hex
    obtain ⟨d, _, hres⟩ :=
      find_backtrack_pos_spec s pre cn L hstack hlev hpos hmono hex
    exact ⟨_, hres⟩

/-- A concrete root-level conflict state: a level-0 conflict sentinel on
top of a level-0 implication. -/
def c5_small : SolverState :=
  { init_state with
      num_vars := 1
      assignment_stack :=
        [AssignedNode.mk (some 1) (some true) 0 none 0,
         AssignedNode.mk none none 0 (some 0) 1] }

/-- Claim C5 (witness): both parts of the amended statement applied to
concrete conflict states — the root-level conflict `c5_small` (no pop)
and the level-1 conflict `c4_state` (pop). -/
theorem claim5_witness :
    find_backtrack c5_small = some (c5_small, -1, none) ∧
    ∃ nd, find_backtrack c4_state =
      some ({ c4_state with
                assignment_stack :=
                  [AssignedNode.mk (some 1) (some true) 1 none 0] },
        1 - 1, some nd) :=
  ⟨claim5_theorem.1 c5_small (AssignedNode.mk none none 0 (some 0) 1) rfl rfl,
   claim5_theorem.2 c4_state [AssignedNode.mk (some 1) (some true) 1 none 0]
     (AssignedNode.mk none none 1 (some 0) 1) 1 rfl rfl (by decide)
     (by simp [List.pairwise_cons])
     ⟨AssignedNode.mk (some 1) (some true) 1 none 0, by simp, rfl⟩⟩

/-! ## Association-list lemmas -/

lemma alookup_mem {α β : Type} [DecidableEq α] :
    ∀ (d : List (α × β)) (k : α) (v : β), alookup d k = some v → (k, v) ∈ d := by
  intro d
  induction d with
  | nil => intro k v h; simp [alookup] at h
  | cons kv rest ih =>
    intro k v h
    obtain ⟨k1, v1⟩ := kv
    rw [alookup] at h
    by_cases hk : k1 = k
    · rw [if_pos hk] at h
      simp at h
      simp [hk, h]
    · rw [if_neg hk] at h
      simp [ih k v h]

lemma alookup_ainsert_self {α β : Type} [DecidableEq α] :
    ∀ (d : List (α × β)) (k : α) (v : β), alookup (ainsert d k v) k = some v := by
  intro d
  induction d with
  | nil => intro k v; simp [ainsert, alookup]
  | cons kv rest ih =>
    intro k v
    obtain ⟨k1, v1⟩ := kv
    rw [ainsert]
    by_cases hk : k1 = k
    · rw [if_pos hk, alookup, if_pos hk]
    · rw [if_neg hk, alookup, if_neg hk]
      exact ih k v

lemma alookup_ainsert_ne {α β : Type} [DecidableEq α] :
    ∀ (d : List (α × β)) (k k2 : α) (v : β), k2 ≠ k →
      alookup (ainsert d k v) k2 = alookup d k2 := by
  intro d
  induction d with
  | nil => intro k k2 v hne; simp [ainsert, alookup, Ne.symm hne]
  | cons kv rest ih =>
    intro k k2 v hne
    obtain ⟨k1, v1⟩ := kv
    rw [ainsert]
    by_cases hk : k1 = k
    · rw [if_pos hk, alookup, alookup]
      have : ¬ k1 = k2 := by rw [hk]; exact fun h => hne h.symm
      rw [if_neg this, if_neg this]
    · rw [if_neg hk, alookup, alookup]
      by_cases hk2 : k1 = k2
      · rw [if_pos hk2, if_pos hk2]
      · rw [if_neg hk2, if_neg hk2]
        exact ih k k2 v hne

lemma alookup_append_left {α β : Type} [DecidableEq α] :
    ∀ (d d2 : List (α × β)) (k : α) (v : β), alookup d k = some v →
      alookup (d ++ d2) k = some v := by
  intro d
  induction d with
  | nil => intro d2 k v h; simp [alookup] at h
  | cons kv rest ih =>
    intro d2 k v h
    obtain ⟨k1, v1⟩ := kv
    rw [alookup] at h
    rw [List.cons_append, alookup]
    by_cases hk : k1 = k
    · rw [if_pos hk] at h ⊢; exact h
    · rw [if_neg hk] at h ⊢; exact ih d2 k v h

lemma alookup_append_right {α β : Type} [DecidableEq α] :
    ∀ (d d2 : List (α × β)) (k : α), alookup d k = none →
      alookup (d ++ d2) k = alookup d2 k := by
  intro d
  induction d with
  | nil => intro d2 k _; simp
  | cons kv rest ih =>
    intro d2 k h
    obtain ⟨k1, v1⟩ := kv
    rw [alookup] at h
    rw [List.cons_append, alookup]
    by_cases hk : k1 = k
    · rw [if_pos hk] at h; simp at h
    · rw [if_neg hk] at h ⊢; exact ih d2 k h

lemma asetdefault_of_some {α β : Type} [DecidableEq α] {d : List (α × β)}
    {key : α} {v : β} (dflt : β) (h : alookup d key = some v) :
    asetdefault d key dflt = (d, v) := by
  simp [asetdefault, h]

lemma asetdefault_of_none {α β : Type} [DecidableEq α] {d : List (α × β)}
    {key : α} (dflt : β) (h : alookup d key = none) :
    asetdefault d key dflt = (d ++ [(key, dflt)], dflt) := by
  simp [asetdefault, h]

lemma alookup_asetdefault_self {α β : Type} [DecidableEq α]
    (d : List (α × β)) (key : α) (dflt : β) :
    alookup (asetdefault d key dflt).1 key = some (asetdefault d key dflt).2 := by
  cases h : alookup d key with
  | none =>
    rw [asetdefault_of_none dflt h]
    simp [alookup_append_right d [(key, dflt)] key h, alookup]
  | some v =>
    rw [asetdefault_of_some dflt h]
    exact h

lemma alookup_asetdefault_ne {α β : Type} [DecidableEq α]
    (d : List (α × β)) (key k2 : α) (dflt : β) (hne : k2 ≠ key) :
    alookup (asetdefault d key dflt).1 k2 = alookup d k2 := by
  cases h : alookup d key with
  | none =>
    rw [asetdefault_of_none dflt h]
    cases h2 : alookup d k2 with
    | none =>
      rw [alookup_append_right d [(key, dflt)] k2 h2]
      simp [alookup, Ne.symm hne]
    | some v2 => exact alookup_append_left d [(key, dflt)] k2 v2 h2
  | some v =>
    rw [asetdefault_of_some dflt h]

lemma removeFirst_eq_some {α : Type} [DecidableEq α] {l l2 : List α} {a : α}
    (h : removeFirst l a = some l2) : a ∈ l ∧ l2 = l.erase a := by
  rw [removeFirst] at h
  by_cases hm : a ∈ l
  · rw [if_pos hm] at h
    simp at h
    exact ⟨hm, h.symm⟩
  · rw [if_neg hm] at h
    simp at h

/-! ## The watched-literal invariant (WATCH-INV) and solver well-formedness -/

/-- One direction of WATCH-INV plus bookkeeping: every clause id in a
literal's watch list is watched by that literal (its pair exists and
contains the literal), and each watch list is duplicate-free. -/
def watch_lists_ok (s : SolverState) : Prop :=
  ∀ lo cids, alookup s.clauses_watched_by_l lo = some cids →
    cids.Nodup ∧
    ∀ cid ∈ cids, ∃ wl, alookup s.literals_watching_c cid = some wl ∧
      lo ∈ wl.map some

/-- The other direction of WATCH-INV plus the shape of watched pairs:
every stored pair has exactly two distinct literals, both occurring in
the stored clause, and the clause id appears in both literals' watch
lists. -/
def pairs_ok (s : SolverState) : Prop :=
  ∀ cid wl, alookup s.literals_watching_c cid = some wl →
    wl.length = 2 ∧ wl.Nodup ∧
    (∃ cl, s.clauses.get? cid = some cl ∧ ∀ l ∈ wl, l ∈ cl) ∧
    (∀ l ∈ wl, ∃ cids, alookup s.clauses_watched_by_l (some l) = some cids ∧
      cid ∈ cids)

/-- The two watch indices are mirror images (WATCH-INV), pairs are
well-shaped, and the clause counter matches the clause store. -/
def watch_wf (s : SolverState) : Prop :=
  watch_lists_ok s ∧ pairs_ok s ∧ s.num_clauses = s.clauses.length

/-- Every trail node is a proper assignment (no sentinel): its variable
is in `1..N` and its value is a boolean. -/
def stack_nodes_ok (s : SolverState) : Prop :=
  ∀ n ∈ s.assignment_stack,
    (∃ v, n.var = some v ∧ 1 ≤ v ∧ v ≤ s.num_vars) ∧ (∃ b, n.value = some b)

/-- MAP-CONSISTENCY (the half used here): every trail node's variable is
bound in the variable map to a node carrying the same value. -/
def map_consistent (s : SolverState) : Prop :=
  ∀ n ∈ s.assignment_stack,
    ∃ m, alookup s.variable_to_assignment_nodes n.var = some m ∧
      m.value = n.value

/-- Every stored clause literal lies in the `1..2N` literal encoding. -/
def clauses_ok (s : SolverState) : Prop :=
  ∀ cl ∈ s.clauses, ∀ l ∈ cl, 1 ≤ l ∧ l ≤ 2 * s.num_vars

/-- The full well-formedness bundle used for the BCP theorems. -/
def solver_wf (s : SolverState) : Prop :=
  watch_wf s ∧ stack_nodes_ok s ∧ map_consistent s ∧ clauses_ok s

/-! ## Case analysis of one watched-clause step -/

/-- Every successful run of `process_watched_clause` is one of the four
branches of the source: satisfied-other-watch skip, watch replacement,
unit force, or conflict. -/
lemma process_watched_clause_cases (s : SolverState) (fal : Option Int)
    (cid : Nat) (s' : SolverState) (flag : Bool)
    (h : process_watched_clause s fal cid = some (s', flag)) :
    (∃ wl ow, alookup s.literals_watching_c cid = some wl ∧
      other_watch_of wl fal = some ow ∧ lit_true_under s ow = true ∧
      s' = s ∧ flag = false) ∨
    (∃ wl ow cl nl falv, alookup s.literals_watching_c cid = some wl ∧
      other_watch_of wl fal = some ow ∧ lit_true_under s ow = false ∧
      s.clauses.get? cid = some cl ∧ find_new_watch s wl cl = some nl ∧
      fal = some falv ∧ apply_move s falv nl cid wl = some s' ∧
      flag = false) ∨
    (∃ wl ow cl, alookup s.literals_watching_c cid = some wl ∧
      other_watch_of wl fal = some ow ∧ lit_true_under s ow = false ∧
      s.clauses.get? cid = some cl ∧ find_new_watch s wl cl = none ∧
      alookup s.variable_to_assignment_nodes
        (some (get_var_from_literal s ow)) = none ∧
      s' = force_other_watch s (get_var_from_literal s ow)
        (!(is_negative_literal s ow)) cid ∧ flag = false) ∨
    (∃ wl ow cl m, alookup s.literals_watching_c cid = some wl ∧
      other_watch_of wl fal = some ow ∧ lit_true_under s ow = false ∧
      s.clauses.get? cid = some cl ∧ find_new_watch s wl cl = none ∧
      alookup s.variable_to_assignment_nodes
        (some (get_var_from_literal s ow)) = some m ∧
      s' = push_conflict s cid ∧ flag = true) := by
  unfold process_watched_clause at h
  cases hwl : alookup s.literals_watching_c cid with
  | none => rw [hwl] at h; simp at h
  | some wl =>
    rw [hwl] at h
    simp only at h
    cases how : other_watch_of wl fal with
    | none => rw [how] at h; simp at h
    | some ow =>
      rw [how] at h
      simp only at h
      by_cases hsat : lit_true_under s ow
      · rw [if_pos hsat] at h
        simp at h
        left
        exact ⟨wl, ow, rfl, how, hsat, h.1.symm, h.2⟩
      · rw [if_neg hsat] at h
        cases hcl : s.clauses.get? cid with
        | none => rw [hcl] at h; simp at h
        | some cl =>
          rw [hcl] at h
          simp only at h
          cases hfind : find_new_watch s wl cl with
          | some nl =>
            rw [hfind] at h
            simp only at h
            cases hfal : fal with
            | none => rw [hfal] at h; simp at h
            | some falv =>
              rw [hfal] at h how
              simp only at h
              cases hmv : apply_move s falv nl cid wl with
              | none => rw [hmv] at h; simp at h
              | some s1 =>
                rw [hmv] at h
                simp at h
                right; left
                refine ⟨wl, ow, cl, nl, falv, rfl, how,
                  Bool.eq_false_iff.mpr hsat, rfl, hfind, rfl, ?_, h.2⟩
                rw [hmv, h.1]
          | none =>
            rw [hfind] at h
            simp only at h
            cases hlk : alookup s.variable_to_assignment_nodes
                (some (get_var_from_literal s ow)) with
            | none =>
              rw [hlk] at h
              simp at h
              right; right; left
              exact ⟨wl, ow, cl, rfl, how, Bool.eq_false_iff.mpr hsat, rfl,
                hfind, hlk, h.1.symm, h.2⟩
            | some m =>
              rw [hlk] at h
              simp at h
              right; right; right
              exact ⟨wl, ow, cl, m, rfl, how, Bool.eq_false_iff.mpr hsat, rfl,
                hfind, hlk, h.1.symm, h.2⟩

/-- Effect of a successful watch move (with the new literal distinct from
the falsified one): the clause's pair loses the falsified literal and
gains the new one, the falsified literal's watch list loses the clause,
the new literal's list gains it, and every other binding of both indices
is untouched. -/
lemma apply_move_spec {s : SolverState} {falv nl : Int} {cid : Nat}
    {wl : List Int} {s1 : SolverState}
    (hnf : nl ≠ falv)
    (h : apply_move s falv nl cid wl = some s1) :
    falv ∈ wl ∧
    ∃ cids0, alookup s.clauses_watched_by_l (some falv) = some cids0 ∧
      cid ∈ cids0 ∧
      s1.literals_watching_c =
        ainsert s.literals_watching_c cid (wl.erase falv ++ [nl]) ∧
      alookup s1.literals_watching_c cid = some (wl.erase falv ++ [nl]) ∧
      (∀ cid2, cid2 ≠ cid →
        alookup s1.literals_watching_c cid2 =
          alookup s.literals_watching_c cid2) ∧
      alookup s1.clauses_watched_by_l (some falv) =
        some (cids0.erase cid) ∧
      alookup s1.clauses_watched_by_l (some nl) =
        some ((alookup s.clauses_watched_by_l (some nl)).getD [] ++ [cid]) ∧
      (∀ k, k ≠ some falv → k ≠ some nl →
        alookup s1.clauses_watched_by_l k =
          alookup s.clauses_watched_by_l k) ∧
      s1.num_vars = s.num_vars ∧ s1.clauses = s.clauses ∧
      s1.level = s.level ∧ s1.num_clauses = s.num_clauses ∧
      s1.res = s.res ∧
      s1.assignment_stack = s.assignment_stack ∧
      s1.variable_to_assignment_nodes = s.variable_to_assignment_nodes ∧
      s1.num_decisions = s.num_decisions ∧
      s1.num_implications = s.num_implications := by
  have hne1 : (some falv : Option Int) ≠ some nl := by
    intro hh; exact hnf (Option.some.inj hh).symm
  have hne2 : (some nl : Option Int) ≠ some falv := by
    intro hh; exact hnf (Option.some.inj hh)
  unfold apply_move at h
  cases hrf : removeFirst wl falv with
  | none => rw [hrf] at h; simp at h
  | some wrest =>
    rw [hrf] at h
    simp only at h
    obtain ⟨hfmem, hwrest⟩ := removeFirst_eq_some hrf
    subst hwrest
    cases hl0 : alookup s.clauses_watched_by_l (some falv) with
    | none =>
      rw [asetdefault_of_none [] hl0] at h
      simp only [removeFirst] at h
      simp at h
    | some cids0 =>
      rw [asetdefault_of_some [] hl0] at h
      simp only at h
      cases hrf2 : removeFirst cids0 cid with
      | none => rw [hrf2] at h; simp at h
      | some lst1 =>
        rw [hrf2] at h
        simp only at h
        obtain ⟨hcmem, hlst1⟩ := removeFirst_eq_some hrf2
        subst hlst1
        simp only [Option.some.injEq] at h
        subst h
        refine ⟨hfmem, cids0, rfl, hcmem, rfl,
          alookup_ainsert_self _ _ _,
          fun cid2 hne => alookup_ainsert_ne _ _ _ _ hne, ?_, ?_, ?_,
          rfl, rfl, rfl, rfl, rfl, rfl, rfl, rfl, rfl⟩
        · -- the falsified literal's list after both inserts
          dsimp only
          rw [alookup_ainsert_ne _ _ _ _ hne1,
            alookup_asetdefault_ne _ _ _ _ hne1,
            alookup_ainsert_self]
        · -- the new literal's list after both inserts
          dsimp only
          have hlk2 : alookup (ainsert s.clauses_watched_by_l (some falv)
              (cids0.erase cid)) (some nl) =
              alookup s.clauses_watched_by_l (some nl) :=
            alookup_ainsert_ne _ _ _ _ hne2
          cases hx : alookup s.clauses_watched_by_l (some nl) with
          | none =>
            rw [asetdefault_of_none [] (hlk2.trans hx)]
            simp [alookup_ainsert_self]
          | some v =>
            rw [asetdefault_of_some [] (hlk2.trans hx)]
            simp [alookup_ainsert_self]
        · -- bindings at all other keys are unchanged
          intro k hk1 hk2
          dsimp only
          rw [alookup_ainsert_ne _ _ _ _ hk2,
            alookup_asetdefault_ne _ _ _ _ hk2,
            alookup_ainsert_ne _ _ _ _ hk1]

/-- `watch_wf` only depends on the two watch indices, the clause store and
the clause counter. -/
lemma watch_wf_congr {s s1 : SolverState}
    (h1 : s1.clauses_watched_by_l = s.clauses_watched_by_l)
    (h2 : s1.literals_watching_c = s.literals_watching_c)
    (h3 : s1.clauses = s.clauses)
    (h4 : s1.num_clauses = s.num_clauses)
    (h : watch_wf s) : watch_wf s1 := by
  unfold watch_wf watch_lists_ok pairs_ok at h ⊢
  rw [h1, h2, h3, h4]
  exact h

/-- What a successful replacement scan guarantees about its result. -/
lemma find_new_watch_some {s : SolverState} {wl cl : List Int} {nl : Int}
    (h : find_new_watch s wl cl = some nl) :
    nl ∈ cl ∧ wl.contains nl = false ∧
      (lit_unassigned s nl || lit_true_under s nl) = true := by
  unfold find_new_watch at h
  refine ⟨List.mem_of_find?_eq_some h, ?_, ?_⟩
  · have hp := List.find?_some h
    simp only [Bool.and_eq_true] at hp
    simpa using hp.1
  · have hp := List.find?_some h
    simp only [Bool.and_eq_true] at hp
    exact hp.2

/-- A successful move presupposes the falsified literal is in the pair. -/
lemma apply_move_falv_mem {s : SolverState} {falv nl : Int} {cid : Nat}
    {wl : List Int} {s1 : SolverState}
    (h : apply_move s falv nl cid wl = some s1) : falv ∈ wl := by
  unfold apply_move at h
  cases hrf : removeFirst wl falv with
  | none => rw [hrf] at h; simp at h
  | some wrest => exact (removeFirst_eq_some hrf).1

/-- The watch move preserves WATCH-INV and the pair-shape invariants. -/
lemma watch_wf_apply_move {s s1 : SolverState} {falv nl : Int} {cid : Nat}
    {wl cl : List Int}
    (hwf : watch_wf s)
    (hwl : alookup s.literals_watching_c cid = some wl)
    (hcl : s.clauses.get? cid = some cl)
    (hnl : find_new_watch s wl cl = some nl)
    (h : apply_move s falv nl cid wl = some s1) : watch_wf s1 := by
  obtain ⟨hnlcl, hnlwl, _⟩ := find_new_watch_some hnl
  have hnlwl2 : nl ∉ wl := by simpa using hnlwl
  have hnf : nl ≠ falv := fun he => hnlwl2 (he ▸ apply_move_falv_mem h)
  obtain ⟨hfmem, cids0, hl0, hcmem, hlw1, hpair_cid, hpair_other, hfal_list,
    hnl_list, hother_list, hnv, hcls, hlev, hnc, hres, hstk, hmap, hnd, hni⟩ :=
    apply_move_spec hnf h
  obtain ⟨Lok, Pok, Cnt⟩ := hwf
  obtain ⟨hlen2, hnd2, ⟨cl0, hcl0, hsub0⟩, hlink0⟩ := Pok cid wl hwl
  have hsubcl : ∀ l ∈ wl, l ∈ cl := by
    have hcc : cl0 = cl := by rw [hcl] at hcl0; exact (Option.some.inj hcl0).symm
    exact hcc ▸ hsub0
  have hnodup0 : cids0.Nodup := (Lok (some falv) cids0 hl0).1
  refine ⟨?_, ?_, by rw [hnc, hcls]; exact Cnt⟩
  · -- watch_lists_ok s1
    intro lo cids h1
    by_cases hlof : lo = some falv
    · subst hlof
      rw [hfal_list] at h1
      obtain rfl : cids = cids0.erase cid := Option.some.inj h1.symm
      refine ⟨hnodup0.erase cid, ?_⟩
      intro cid2 hc2
      have hc2mem : cid2 ∈ cids0 := List.mem_of_mem_erase hc2
      have hc2ne : cid2 ≠ cid := (List.Nodup.mem_erase_iff hnodup0).mp hc2 |>.1
      obtain ⟨wl2, hwl2, hin2⟩ := (Lok (some falv) cids0 hl0).2 cid2 hc2mem
      exact ⟨wl2, (hpair_other cid2 hc2ne).trans hwl2, hin2⟩
    · by_cases hlon : lo = some nl
      · subst hlon
        rw [hnl_list] at h1
        obtain rfl : cids = (alookup s.clauses_watched_by_l (some nl)).getD []
            ++ [cid] := Option.some.inj h1.symm
        have hcid_not_old :
            cid ∉ (alookup s.clauses_watched_by_l (some nl)).getD [] := by
          intro hmem
          cases hv : alookup s.clauses_watched_by_l (some nl) with
          | none => rw [hv] at hmem; simp at hmem
          | some onl =>
            rw [hv] at hmem
            simp at hmem
            obtain ⟨wl3, hwl3, hin3⟩ := (Lok (some nl) onl hv).2 cid hmem
            rw [hwl] at hwl3
            obtain rfl : wl = wl3 := Option.some.inj hwl3
            have : nl ∈ wl := by
              rcases List.mem_map.mp hin3 with ⟨x, hx, he⟩
              obtain rfl : x = nl := Option.some.inj he
              exact hx
            exact hnlwl2 this
        have hnodold :
            ((alookup s.clauses_watched_by_l (some nl)).getD []).Nodup := by
          cases hv : alookup s.clauses_watched_by_l (some nl) with
          | none => simp
          | some onl => simpa using (Lok (some nl) onl hv).1
        constructor
        · simp [List.nodup_append, hnodold, hcid_not_old]
        · intro cid2 hc2
          rcases List.mem_append.mp hc2 with hold | hnew
          · have hc2ne : cid2 ≠ cid := fun he => hcid_not_old (he ▸ hold)
            cases hv : alookup s.clauses_watched_by_l (some nl) with
            | none => rw [hv] at hold; simp at hold
            | some onl =>
              rw [hv] at hold; simp at hold
              obtain ⟨wl3, hwl3, hin3⟩ := (Lok (some nl) onl hv).2 cid2 hold
              exact ⟨wl3, (hpair_other cid2 hc2ne).trans hwl3, hin3⟩
          · simp at hnew
            subst hnew
            refine ⟨wl.erase falv ++ [nl], hpair_cid, ?_⟩
            simp
      · -- any other literal's list is unchanged
        rw [hother_list lo hlof hlon] at h1
        obtain ⟨hnod, hmem⟩ := Lok lo cids h1
        refine ⟨hnod, ?_⟩
        intro cid2 hc2
        obtain ⟨wl2, hwl2, hin2⟩ := hmem cid2 hc2
        by_cases hc2e : cid2 = cid
        · subst hc2e
          rw [hwl] at hwl2
          obtain rfl : wl = wl2 := Option.some.inj hwl2
          refine ⟨wl.erase falv ++ [nl], hpair_cid, ?_⟩
          rcases List.mem_map.mp hin2 with ⟨x, hx, he⟩
          subst he
          have hxfal : x ≠ falv := by
            intro hxe; subst hxe; exact hlof rfl
          have : x ∈ wl.erase falv := (List.Nodup.mem_erase_iff hnd2).mpr
            ⟨hxfal, hx⟩
          exact List.mem_map.mpr ⟨x, by simp [this], rfl⟩
        · exact ⟨wl2, (hpair_other cid2 hc2e).trans hwl2, hin2⟩
  · -- pairs_ok s1
    intro cid2 wl2 h2
    by_cases hc2e : cid2 = cid
    · subst hc2e
      rw [hpair_cid] at h2
      obtain rfl : wl2 = wl.erase falv ++ [nl] := Option.some.inj h2.symm
      have herlen : (wl.erase falv).length = 1 := by
        rw [List.length_erase_of_mem hfmem, hlen2]
      have hnlner : nl ∉ wl.erase falv := fun hm =>
        hnlwl2 (List.mem_of_mem_erase hm)
      refine ⟨by simp [herlen], ?_, ?_, ?_⟩
      · simp [List.nodup_append, hnd2.erase falv, hnlner]
      · refine ⟨cl, by rw [hcls]; exact hcl, ?_⟩
        intro l hl
        rcases List.mem_append.mp hl with hle | hln
        · exact hsubcl l (List.mem_of_mem_erase hle)
        · simp at hln; subst hln; exact hnlcl
      · intro l hl
        rcases List.mem_append.mp hl with hle | hln
        · have hlfal : l ≠ falv :=
            ((List.Nodup.mem_erase_iff hnd2).mp hle).1
          have hlwl : l ∈ wl := List.mem_of_mem_erase hle
          have hlnl : l ≠ nl := fun he => hnlwl2 (he ▸ hlwl)
          obtain ⟨cidsl, hcidsl, hincl⟩ := hlink0 l hlwl
          refine ⟨cidsl, ?_, hincl⟩
          rw [hother_list (some l) (by simp [hlfal]) (by simp [hlnl])]
          exact hcidsl
        · simp at hln; subst hln
          exact ⟨_, hnl_list, by simp⟩
    · rw [hpair_other cid2 hc2e] at h2
      obtain ⟨hl2, hn2, ⟨cl2, hcl2, hsub2⟩, hlink2⟩ := Pok cid2 wl2 h2
      refine ⟨hl2, hn2, ⟨cl2, by rw [hcls]; exact hcl2, hsub2⟩, ?_⟩
      intro l hl
      obtain ⟨cidsl, hcidsl, hincl⟩ := hlink2 l hl
      by_cases hlf : l = falv
      · subst hlf
        rw [hl0] at hcidsl
        have hceq : cidsl = cids0 := Option.some.inj hcidsl.symm
        refine ⟨cids0.erase cid, hfal_list, ?_⟩
        exact (List.Nodup.mem_erase_iff hnodup0).mpr ⟨hc2e, hceq ▸ hincl⟩
      · by_cases hlnl : l = nl
        · subst hlnl
          refine ⟨_, hnl_list, ?_⟩
          rw [hcidsl]
          simp [hincl]
        · exact ⟨cidsl, by
            rw [hother_list (some l) (by simp [hlf]) (by simp [hlnl])]
            exact hcidsl, hincl⟩

/-- The stored value of `setdefault`. -/
lemma asetdefault_snd {α β : Type} [DecidableEq α] (d : List (α × β))
    (k : α) (dflt : β) :
    (asetdefault d k dflt).2 = (alookup d k).getD dflt := by
  cases h : alookup d k <;> simp [asetdefault, h]

/-- One watched-clause step preserves WATCH-INV (in all four branches). -/
lemma watch_wf_process_watched_clause {s s' : SolverState} {fal : Option Int}
    {cid : Nat} {flag : Bool} (hwf : watch_wf s)
    (h : process_watched_clause s fal cid = some (s', flag)) : watch_wf s' := by
  rcases process_watched_clause_cases s fal cid s' flag h with
    ⟨wl, ow, hwl, how, hsat, hss, hfl⟩ |
    ⟨wl, ow, cl, nl, falv, hwl, how, hsat, hcl, hfind, hfal, hmv, hfl⟩ |
    ⟨wl, ow, cl, hwl, how, hsat, hcl, hfind, hlk, hss, hfl⟩ |
    ⟨wl, ow, cl, m, hwl, how, hsat, hcl, hfind, hlk, hss, hfl⟩
  · exact hss ▸ hwf
  · exact watch_wf_apply_move hwf hwl hcl hfind hmv
  · subst hss
    exact watch_wf_congr rfl rfl rfl rfl hwf
  · subst hss
    exact watch_wf_congr rfl rfl rfl rfl hwf

/-- Processing the whole snapshot preserves WATCH-INV. -/
lemma watch_wf_process_watch_list {fal : Option Int} :
    ∀ (l : List Nat) (s s' : SolverState) (flag : Bool), watch_wf s →
      process_watch_list fal s l = some (s', flag) → watch_wf s' := by
  intro l
  induction l with
  | nil =>
    intro s s' flag hwf h
    rw [process_watch_list] at h
    simp at h
    exact h.1 ▸ hwf
  | cons cid rest ih =>
    intro s s' flag hwf h
    rw [process_watch_list] at h
    cases h1 : process_watched_clause s fal cid with
    | none => rw [h1] at h; simp at h
    | some p =>
      obtain ⟨s1, flag1⟩ := p
      rw [h1] at h
      have hwf1 := watch_wf_process_watched_clause hwf h1
      cases flag1 with
      | true =>
        simp at h
        exact h.1 ▸ hwf1
      | false =>
        simp only at h
        exact ih s1 s' flag hwf1 h

/-- Materialising a watch-list key with an empty list preserves
WATCH-INV. -/
lemma watch_wf_asetdefault (s : SolverState) (key : Option Int)
    (hwf : watch_wf s) :
    watch_wf { s with clauses_watched_by_l :=
      (asetdefault s.clauses_watched_by_l key []).1 } := by
  cases hk : alookup s.clauses_watched_by_l key with
  | some v =>
    rw [asetdefault_of_some [] hk]
    exact watch_wf_congr rfl rfl rfl rfl hwf
  | none =>
    rw [asetdefault_of_none [] hk]
    obtain ⟨Lok, Pok, Cnt⟩ := hwf
    refine ⟨?_, ?_, Cnt⟩
    · intro lo cids h1
      dsimp only at h1
      cases hd : alookup s.clauses_watched_by_l lo with
      | some v2 =>
        rw [alookup_append_left _ _ _ _ hd] at h1
        have hcv : cids = v2 := Option.some.inj h1.symm
        subst hcv
        exact Lok lo cids hd
      | none =>
        rw [alookup_append_right _ _ _ hd] at h1
        by_cases hko : key = lo
        · subst hko
          simp [alookup] at h1
          subst h1
          simp
        · rw [alookup] at h1
          rw [if_neg hko] at h1
          simp [alookup] at h1
    · intro cid wl h2
      dsimp only at h2
      obtain ⟨hl2, hn2, hclp, hlink⟩ := Pok cid wl h2
      refine ⟨hl2, hn2, hclp, ?_⟩
      intro l hl
      obtain ⟨cids, hcids, hmem⟩ := hlink l hl
      exact ⟨cids, alookup_append_left _ _ _ _ hcids, hmem⟩

/-- BCP's outer loop preserves WATCH-INV. -/
lemma watch_wf_bcp_loop :
    ∀ (fuel : Nat) (s : SolverState) (ptr : Nat) (s' : SolverState)
      (r : BCPResult), watch_wf s → bcp_loop fuel s ptr = some (s', r) →
      watch_wf s' := by
  intro fuel
  induction fuel with
  | zero => intro s ptr s' r _ h; rw [bcp_loop] at h; simp at h
  | succ fuel ih =>
    intro s ptr s' r hwf h
    rw [bcp_loop] at h
    by_cases hlt : ptr < s.assignment_stack.length
    · rw [dif_pos hlt] at h
      simp only [] at h
      cases hfal : falsified_literal_of s.num_vars
          (s.assignment_stack.get ⟨ptr, hlt⟩) with
      | none => rw [hfal] at h; simp at h
      | some fal =>
        rw [hfal] at h
        simp only at h
        have hwf0 := watch_wf_asetdefault s fal hwf
        cases hpl : process_watch_list fal
            { s with clauses_watched_by_l :=
                (asetdefault s.clauses_watched_by_l fal []).1 }
            (asetdefault s.clauses_watched_by_l fal []).2.reverse with
        | none => rw [hpl] at h; simp at h
        | some p =>
          obtain ⟨s1, flag1⟩ := p
          rw [hpl] at h
          have hwf1 := watch_wf_process_watch_list _ _ _ _ hwf0 hpl
          cases flag1 with
          | true =>
            simp at h
            exact h.1 ▸ hwf1
          | false =>
            simp only at h
            exact ih s1 (ptr + 1) s' r hwf1 h
    · rw [dif_neg hlt] at h
      simp at h
      exact h.1 ▸ hwf

/-- `_boolean_constraint_propogation` preserves WATCH-INV, whatever its
result. -/
lemma watch_wf_bcp {fuel : Nat} {ft : Bool} {s s' : SolverState}
    {r : BCPResult} (hwf : watch_wf s)
    (h : boolean_constraint_propogation fuel ft s = some (s', r)) :
    watch_wf s' := by
  unfold boolean_constraint_propogation at h
  cases ft with
  | true =>
    rw [if_pos rfl] at h
    exact watch_wf_bcp_loop fuel s 0 s' r hwf h
  | false =>
    simp only [Bool.false_eq_true, if_false] at h
    cases hlen : s.assignment_stack.length with
    | zero => rw [hlen] at h; simp at h
    | succ n =>
      rw [hlen] at h
      exact watch_wf_bcp_loop fuel s n s' r hwf h

/-- `_decide` never touches the watch indices or the clause store. -/
lemma decide_next_watch_frame (s : SolverState) :
    (decide_next s).1.clauses_watched_by_l = s.clauses_watched_by_l ∧
    (decide_next s).1.literals_watching_c = s.literals_watching_c ∧
    (decide_next s).1.clauses = s.clauses ∧
    (decide_next s).1.num_clauses = s.num_clauses := by
  unfold decide_next
  by_cases h : find_unassigned_var s s.num_vars.toNat 1 = -1 <;> simp [h]

/-- `_find_backtrack` never touches the watch indices or the clause
store. -/
lemma find_backtrack_watch_frame {s s1 : SolverState} {bl : Int}
    {nd : Option AssignedNode} (h : find_backtrack s = some (s1, bl, nd)) :
    s1.clauses_watched_by_l = s.clauses_watched_by_l ∧
    s1.literals_watching_c = s.literals_watching_c ∧
    s1.clauses = s.clauses ∧ s1.num_clauses = s.num_clauses := by
  unfold find_backtrack at h
  cases hgl : s.assignment_stack.getLast? with
  | none => rw [hgl] at h; simp at h
  | some cn =>
    rw [hgl] at h
    simp only at h
    by_cases h0 : cn.level = 0
    · rw [if_pos h0] at h
      simp at h
      rw [← h.1]
      exact ⟨rfl, rfl, rfl, rfl⟩
    · rw [if_neg h0] at h
      cases hsc : scan_for_decision cn.level s.assignment_stack.dropLast.reverse with
      | none => rw [hsc] at h; simp at h
      | some bn =>
        rw [hsc] at h
        simp at h
        rw [← h.1]
        exact ⟨rfl, rfl, rfl, rfl⟩

/-- `_backtrack` never touches the watch indices or the clause store
(WATCH-INV is untouched by backtracking). -/
lemma backtrack_watch_frame {s s1 : SolverState} {bl : Int}
    {nd : Option AssignedNode} (h : backtrack s bl nd = some s1) :
    s1.clauses_watched_by_l = s.clauses_watched_by_l ∧
    s1.literals_watching_c = s.literals_watching_c ∧
    s1.clauses = s.clauses ∧ s1.num_clauses = s.num_clauses := by
  unfold backtrack at h
  cases hp : pops_above bl s.assignment_stack.reverse
      s.variable_to_assignment_nodes with
  | none => rw [hp] at h; simp at h
  | some p =>
    obtain ⟨restRev, m1⟩ := p
    rw [hp] at h
    simp only at h
    cases nd with
    | none =>
      simp at h
      rw [← h]
      exact ⟨rfl, rfl, rfl, rfl⟩
    | some nd0 =>
      simp at h
      rw [← h]
      exact ⟨rfl, rfl, rfl, rfl⟩

lemma dedup_keep_first_go_spec {α : Type} [DecidableEq α] :
    ∀ (l seen : List α), (dedup_keep_first.go seen l).Nodup ∧
      ∀ x ∈ dedup_keep_first.go seen l, x ∉ seen := by
  intro l
  induction l with
  | nil => intro seen; simp [dedup_keep_first.go]
  | cons x rest ih =>
    intro seen
    rw [dedup_keep_first.go]
    by_cases hx : x ∈ seen
    · rw [if_pos hx]
      exact ih seen
    · rw [if_neg hx]
      obtain ⟨hnd, hnot⟩ := ih (seen ++ [x])
      have hxnot : x ∉ dedup_keep_first.go (seen ++ [x]) rest := by
        intro hmem
        exact hnot x hmem (by simp)
      refine ⟨List.nodup_cons.mpr ⟨hxnot, hnd⟩, ?_⟩
      intro y hy
      rcases List.mem_cons.mp hy with hyx | hyt
      · subst hyx; exact hx
      · intro hys
        exact hnot y hyt (by simp [hys])

/-- Deduplication with first-occurrence order yields a duplicate-free
list. -/
lemma dedup_keep_first_nodup {α : Type} [DecidableEq α] (l : List α) :
    (dedup_keep_first l).Nodup :=
  (dedup_keep_first_go_spec l []).1

/-- The `1..2N` literal encoding is injective on in-range tokens. -/
lemma encode_injective {N a b : Int}
    (ha : a ≠ 0 ∧ -N ≤ a ∧ a ≤ N) (hb : b ≠ 0 ∧ -N ≤ b ∧ b ≤ N)
    (hne : a ≠ b) :
    (if a < 0 then -a + N else a) ≠ (if b < 0 then -b + N else b) := by
  obtain ⟨ha0, ha1, ha2⟩ := ha
  obtain ⟨hb0, hb1, hb2⟩ := hb
  split_ifs <;> omega

/-- Clause ingestion preserves WATCH-INV when the clause's tokens are
in range (each token a nonzero integer with `|t| ≤ N`); for the stored
(length ≥ 2) case this in particular makes the two initial watches
distinct. -/
lemma watch_wf_add_clause {s s1 : SolverState} {toks : List Int} {r : Nat}
    (hwf : watch_wf s)
    (hrange : ∀ t ∈ dedup_keep_first toks.dropLast,
      t ≠ 0 ∧ -s.num_vars ≤ t ∧ t ≤ s.num_vars)
    (h : add_clause s toks = some (s1, r)) : watch_wf s1 := by
  unfold add_clause at h
  by_cases hl1 : (dedup_keep_first toks.dropLast).length = 1
  · -- unit-clause path: the watch indices and the clause store are
    -- untouched in every sub-branch
    rw [if_pos hl1] at h
    cases hg : (dedup_keep_first toks.dropLast).get? 0 with
    | none => rw [hg] at h; simp at h
    | some lit =>
      rw [hg] at h
      simp only [] at h
      cases hlk : alookup s.variable_to_assignment_nodes
          (some (if lit < 0 then -lit else lit)) with
      | none =>
        rw [hlk] at h
        simp at h
        exact watch_wf_congr (by rw [← h.1]) (by rw [← h.1]) (by rw [← h.1])
          (by rw [← h.1]) hwf
      | some node =>
        rw [hlk] at h
        simp only [] at h
        by_cases hv : node.value ≠ some (!(lit < 0 : Bool))
        · rw [if_pos hv] at h
          simp at h
          exact watch_wf_congr (by rw [← h.1]) (by rw [← h.1]) (by rw [← h.1])
            (by rw [← h.1]) hwf
        · rw [if_neg hv] at h
          simp at h
          exact h.1 ▸ hwf
  · -- storage path
    rw [if_neg hl1] at h
    rcases hd : dedup_keep_first toks.dropLast with _ | ⟨a, _ | ⟨b, t⟩⟩
    · rw [hd] at h; simp at h
    · rw [hd] at hl1; simp at hl1
    · rw [hd] at h
      simp only [List.map_cons] at h
      simp only [List.get?] at h
      simp only [Option.some.injEq, Prod.mk.injEq] at h
      obtain ⟨hs1, _⟩ := h
      obtain ⟨Lok, Pok, Cnt⟩ := hwf
      have hndl := dedup_keep_first_nodup (toks.dropLast)
      rw [hd] at hndl
      have hab : a ≠ b := by
        have := List.nodup_cons.mp hndl
        intro he
        exact this.1 (by simp [he])
      have hamem : a ∈ dedup_keep_first toks.dropLast := by rw [hd]; simp
      have hbmem : b ∈ dedup_keep_first toks.dropLast := by rw [hd]; simp
      have hne12 : (if a < 0 then -a + s.num_vars else a) ≠
          (if b < 0 then -b + s.num_vars else b) :=
        encode_injective (hrange a hamem) (hrange b hbmem) hab
      set w1 : Int := if a < 0 then -a + s.num_vars else a with hw1
      set w2 : Int := if b < 0 then -b + s.num_vars else b with hw2
      set cwl : List Int := w1 :: w2 ::
        t.map (fun lit => if lit < 0 then -lit + s.num_vars else lit) with hcwl
      set cid : Nat := s.num_clauses with hcid
      have hne12a : (some w1 : Option Int) ≠ some w2 := by
        intro hh; exact hne12 (Option.some.inj hh)
      have hne12b : (some w2 : Option Int) ≠ some w1 := by
        intro hh; exact hne12 (Option.some.inj hh).symm
      have hfresh_pair : alookup s.literals_watching_c cid = none := by
        cases hlp : alookup s.literals_watching_c cid with
        | none => rfl
        | some wl =>
          obtain ⟨_, _, ⟨cl0, hget, _⟩, _⟩ := Pok cid wl hlp
          have : s.clauses.get? cid = none :=
            List.get?_eq_none.mpr (by omega)
          rw [this] at hget
          simp at hget
      have hfresh_lists : ∀ lo cids,
          alookup s.clauses_watched_by_l lo = some cids → cid ∉ cids := by
        intro lo cids hlo hmem
        obtain ⟨wl2, hwl2, _⟩ := (Lok lo cids hlo).2 cid hmem
        rw [hfresh_pair] at hwl2
        simp at hwl2
      -- lookup characterization of the two updated indices
      have hlw_cid : alookup s1.literals_watching_c cid = some [w1, w2] := by
        rw [← hs1]
        exact alookup_ainsert_self _ _ _
      have hlw_other : ∀ cid2, cid2 ≠ cid →
          alookup s1.literals_watching_c cid2 =
            alookup s.literals_watching_c cid2 := by
        intro cid2 hne
        rw [← hs1]
        exact alookup_ainsert_ne _ _ _ _ hne
      have hcw1 : alookup s1.clauses_watched_by_l (some w1) =
          some ((alookup s.clauses_watched_by_l (some w1)).getD [] ++ [cid]) := by
        rw [← hs1]
        dsimp only
        rw [alookup_ainsert_ne _ _ _ _ hne12a,
          alookup_asetdefault_ne _ _ _ _ hne12a,
          alookup_ainsert_self, asetdefault_snd]
      have hcw2 : alookup s1.clauses_watched_by_l (some w2) =
          some ((alookup s.clauses_watched_by_l (some w2)).getD [] ++ [cid]) := by
        rw [← hs1]
        dsimp only
        rw [alookup_ainsert_self, asetdefault_snd,
          alookup_ainsert_ne _ _ _ _ hne12b,
          alookup_asetdefault_ne _ _ _ _ hne12b]
      have hcwo : ∀ k, k ≠ some w1 → k ≠ some w2 →
          alookup s1.clauses_watched_by_l k =
            alookup s.clauses_watched_by_l k := by
        intro k hk1 hk2
        rw [← hs1]
        dsimp only
        rw [alookup_ainsert_ne _ _ _ _ hk2,
          alookup_asetdefault_ne _ _ _ _ hk2,
          alookup_ainsert_ne _ _ _ _ hk1,
          alookup_asetdefault_ne _ _ _ _ hk1]
      have hclauses1 : s1.clauses = s.clauses ++ [cwl] := by rw [← hs1]
      have hnum1 : s1.num_clauses = s.num_clauses + 1 := by rw [← hs1]
      refine ⟨?_, ?_, ?_⟩
      · -- watch_lists_ok s1
        intro lo cids h1
        have hstep : ∀ old, alookup s.clauses_watched_by_l lo = old →
            cids = old.getD [] ++ [cid] →
            (lo = some w1 ∨ lo = some w2) → cids.Nodup ∧
            ∀ cid2 ∈ cids, ∃ wl, alookup s1.literals_watching_c cid2 =
              some wl ∧ lo ∈ wl.map some := by
          intro old hold hcids hlo12
          constructor
          · cases hov : old with
            | none => simp [hcids, hov]
            | some v =>
              subst hov
              have hnd := (Lok lo v hold).1
              have hnotin := hfresh_lists lo v hold
              simp [hcids, List.nodup_append, hnd, hnotin]
          · intro cid2 hc2
            rw [hcids] at hc2
            rcases List.mem_append.mp hc2 with holdm | hnewm
            · cases hov : old with
              | none => rw [hov] at holdm; simp at holdm
              | some v =>
                rw [hov] at holdm
                simp at holdm
                rw [hov] at hold
                have hc2ne : cid2 ≠ cid := fun he =>
                  hfresh_lists lo v hold (he ▸ holdm)
                obtain ⟨wl2, hwl2, hin2⟩ := (Lok lo v hold).2 cid2 holdm
                exact ⟨wl2, (hlw_other cid2 hc2ne).trans hwl2, hin2⟩
            · simp at hnewm
              subst hnewm
              refine ⟨[w1, w2], hlw_cid, ?_⟩
              rcases hlo12 with h1 | h2
              · subst h1; simp
              · subst h2; simp
        by_cases hlo1 : lo = some w1
        · subst hlo1
          rw [hcw1] at h1
          exact hstep _ rfl (Option.some.inj h1.symm) (Or.inl rfl)
        · by_cases hlo2 : lo = some w2
          · subst hlo2
            rw [hcw2] at h1
            exact hstep _ rfl (Option.some.inj h1.symm) (Or.inr rfl)
          · rw [hcwo lo hlo1 hlo2] at h1
            obtain ⟨hnd, hmem⟩ := Lok lo cids h1
            refine ⟨hnd, ?_⟩
            intro cid2 hc2
            have hc2ne : cid2 ≠ cid := fun he =>
              hfresh_lists lo cids h1 (he ▸ hc2)
            obtain ⟨wl2, hwl2, hin2⟩ := hmem cid2 hc2
            exact ⟨wl2, (hlw_other cid2 hc2ne).trans hwl2, hin2⟩
      · -- pairs_ok s1
        intro cid2 wl2 h2
        by_cases hc2e : cid2 = cid
        · subst hc2e
          rw [hlw_cid] at h2
          have hwl2v : wl2 = [w1, w2] := Option.some.inj h2.symm
          subst hwl2v
          refine ⟨rfl, by simp [hne12], ?_, ?_⟩
          · refine ⟨cwl, ?_, ?_⟩
            · rw [hclauses1, Cnt]
              exact List.get?_concat_length _ _
            · intro l hl
              rcases List.mem_cons.mp hl with h1 | h1
              · subst h1; simp [hcwl]
              · simp at h1
                subst h1; simp [hcwl]
          · intro l hl
            rcases List.mem_cons.mp hl with h1 | h1
            · subst h1
              exact ⟨_, hcw1, by simp⟩
            · simp at h1
              subst h1
              exact ⟨_, hcw2, by simp⟩
        · rw [hlw_other cid2 hc2e] at h2
          obtain ⟨hl2, hn2, ⟨cl2, hcl2, hsub2⟩, hlink2⟩ := Pok cid2 wl2 h2
          have hlt2 : cid2 < s.clauses.length := by
            obtain ⟨hlt, _⟩ := List.get?_eq_some.mp hcl2
            exact hlt
          refine ⟨hl2, hn2, ⟨cl2, ?_, hsub2⟩, ?_⟩
          · rw [hclauses1, List.get?_append hlt2]
            exact hcl2
          · intro l hl
            obtain ⟨cidsl, hcidsl, hincl⟩ := hlink2 l hl
            by_cases hlw1 : l = w1
            · subst hlw1
              refine ⟨_, hcw1, ?_⟩
              rw [hcidsl]
              simp [hincl]
            · by_cases hlw2 : l = w2
              · subst hlw2
                refine ⟨_, hcw2, ?_⟩
                rw [hcidsl]
                simp [hincl]
              · refine ⟨cidsl, ?_, hincl⟩
                rw [hcwo (some l) (by simp [hlw1]) (by simp [hlw2])]
                exact hcidsl
      · rw [hnum1, hclauses1]
        simp only [List.length_append, List.length_singleton]
        omega

/-- A state with empty watch indices satisfies WATCH-INV. -/
lemma watch_wf_empty (s : SolverState)
    (h1 : s.clauses_watched_by_l = []) (h2 : s.literals_watching_c = [])
    (h3 : s.num_clauses = s.clauses.length) : watch_wf s := by
  refine ⟨?_, ?_, h3⟩
  · intro lo cids hl
    rw [h1] at hl
    simp [alookup] at hl
  · intro cid wl hl
    rw [h2] at hl
    simp [alookup] at hl

/-- Claim C6: WATCH-INV — `l ∈ literals_watching_c[c]` iff
`c ∈ clauses_watched_by_l[l]` (here bundled in `watch_wf`, together with
"the watched pair of every stored clause consists of two distinct
literals occurring in that clause") — holds initially and is preserved by
every operation: clause ingestion (for in-range tokens), each BCP
watched-clause step (including every watch move), every full BCP call,
decide, conflict analysis, and backtrack; moreover decide, analyze and
backtrack leave both watch indices entirely unchanged. -/
theorem claim6_theorem :
    watch_wf init_state ∧
    (∀ (s s1 : SolverState) (toks : List Int) (r : Nat), watch_wf s →
      (∀ t ∈ dedup_keep_first toks.dropLast,
        t ≠ 0 ∧ -s.num_vars ≤ t ∧ t ≤ s.num_vars) →
      add_clause s toks = some (s1, r) → watch_wf s1) ∧
    (∀ (s s' : SolverState) (fal : Option Int) (cid : Nat) (flag : Bool),
      watch_wf s → process_watched_clause s fal cid = some (s', flag) →
      watch_wf s') ∧
    (∀ (fuel : Nat) (ft : Bool) (s s' : SolverState) (r : BCPResult),
      watch_wf s → boolean_constraint_propogation fuel ft s = some (s', r) →
      watch_wf s') ∧
    (∀ s : SolverState,
      (decide_next s).1.clauses_watched_by_l = s.clauses_watched_by_l ∧
      (decide_next s).1.literals_watching_c = s.literals_watching_c ∧
      (watch_wf s → watch_wf (decide_next s).1)) ∧
    (∀ (s s1 : SolverState) (bl : Int) (nd : Option AssignedNode),
      find_backtrack s = some (s1, bl, nd) →
      s1.clauses_watched_by_l = s.clauses_watched_by_l ∧
      s1.literals_watching_c = s.literals_watching_c ∧
      (watch_wf s → watch_wf s1)) ∧
    (∀ (s : SolverState) (bl : Int) (nd : Option AssignedNode)
      (s1 : SolverState), backtrack s bl nd = some s1 →
      s1.clauses_watched_by_l = s.clauses_watched_by_l ∧
      s1.literals_watching_c = s.literals_watching_c ∧
      (watch_wf s → watch_wf s1)) := by
  refine ⟨watch_wf_empty init_state rfl rfl rfl, ?_, ?_, ?_, ?_, ?_, ?_⟩
  · intro s s1 toks r hwf hrange h
    exact watch_wf_add_clause hwf hrange h
  · intro s s' fal cid flag hwf h
    exact watch_wf_process_watched_clause hwf h
  · intro fuel ft s s' r hwf h
    exact watch_wf_bcp hwf h
  · intro s
    obtain ⟨h1, h2, h3, h4⟩ := decide_next_watch_frame s
    exact ⟨h1, h2, fun hwf => watch_wf_congr h1 h2 h3 h4 hwf⟩
  · intro s s1 bl nd h
    obtain ⟨h1, h2, h3, h4⟩ := find_backtrack_watch_frame h
    exact ⟨h1, h2, fun hwf => watch_wf_congr h1 h2 h3 h4 hwf⟩
  · intro s bl nd s1 h
    obtain ⟨h1, h2, h3, h4⟩ := backtrack_watch_frame h
    exact ⟨h1, h2, fun hwf => watch_wf_congr h1 h2 h3 h4 hwf⟩

/-- The state after ingesting the single clause `1 2 0` into a two-
variable solver. -/
def c6_state : SolverState :=
  ((add_clause { init_state with num_vars := 2 } [1, 2, 0]).getD
    (init_state, 0)).1

/-- Claim C6 (witness): WATCH-INV after a concrete ingestion step
(clause `1 2 0` with `N = 2`), by the ingestion part of the theorem. -/
theorem claim6_witness : watch_wf c6_state :=
  claim6_theorem.2.1 { init_state with num_vars := 2 } c6_state [1, 2, 0] 1
    (watch_wf_empty _ rfl rfl rfl) (by decide) (by decide)

/-- Claim C10: in the unit-clause case (no replacement literal found and
the other watched literal's variable unassigned), BCP's clause step
modifies neither watch index: both dictionaries are exactly unchanged, so
the clause is still watched by the now-falsified literal; and
conversely, if either watch index changed at all, the step was a
replacement-found watch move. -/
theorem claim10_theorem (s s' : SolverState) (fal : Option Int) (cid : Nat)
    (flag : Bool)
    (h : process_watched_clause s fal cid = some (s', flag)) :
    ((∃ wl ow cl, alookup s.literals_watching_c cid = some wl ∧
        other_watch_of wl fal = some ow ∧ lit_true_under s ow = false ∧
        s.clauses.get? cid = some cl ∧ find_new_watch s wl cl = none ∧
        lit_unassigned s ow = true) →
      s'.literals_watching_c = s.literals_watching_c ∧
      s'.clauses_watched_by_l = s.clauses_watched_by_l ∧
      (∀ cids, alookup s.clauses_watched_by_l fal = some cids →
        alookup s'.clauses_watched_by_l fal = some cids)) ∧
    ((s'.literals_watching_c ≠ s.literals_watching_c ∨
      s'.clauses_watched_by_l ≠ s.clauses_watched_by_l) →
      ∃ wl cl nl, alookup s.literals_watching_c cid = some wl ∧
        s.clauses.get? cid = some cl ∧ find_new_watch s wl cl = some nl) := by
  rcases process_watched_clause_cases s fal cid s' flag h with
    ⟨wl, ow, hwl, how, hsat, hss, _⟩ |
    ⟨wl, ow, cl, nl, falv, hwl, how, hsat, hcl, hfind, hfal, hmv, _⟩ |
    ⟨wl, ow, cl, hwl, how, hsat, hcl, hfind, hlk, hss, _⟩ |
    ⟨wl, ow, cl, m, hwl, how, hsat, hcl, hfind, hlk, hss, _⟩
  · constructor
    · intro ⟨wl2, ow2, cl2, hwl2, how2, hsat2, _, _, _⟩
      rw [hwl] at hwl2
      obtain rfl : wl = wl2 := Option.some.inj hwl2
      rw [how] at how2
      obtain rfl : ow = ow2 := Option.some.inj how2
      rw [hsat] at hsat2
      simp at hsat2
    · intro hne
      subst hss
      simp at hne
  · constructor
    · intro ⟨wl2, ow2, cl2, hwl2, how2, hsat2, hcl2, hfind2, _⟩
      rw [hwl] at hwl2
      obtain rfl : wl = wl2 := Option.some.inj hwl2
      rw [hcl] at hcl2
      obtain rfl : cl = cl2 := Option.some.inj hcl2
      rw [hfind] at hfind2
      simp at hfind2
    · intro _
      exact ⟨wl, cl, nl, hwl, hcl, hfind⟩
  · constructor
    · intro _
      subst hss
      exact ⟨rfl, rfl, fun cids hc => hc⟩
    · intro hne
      subst hss
      simp [force_other_watch] at hne
  · constructor
    · intro ⟨wl2, ow2, cl2, hwl2, how2, hsat2, hcl2, hfind2, hun2⟩
      rw [hwl] at hwl2
      obtain rfl : wl = wl2 := Option.some.inj hwl2
      rw [how] at how2
      obtain rfl : ow = ow2 := Option.some.inj how2
      rw [lit_unassigned, hlk] at hun2
      simp at hun2
    · intro hne
      subst hss
      simp [push_conflict] at hne

/-- A concrete unit-propagation state: `N = 2`, single clause `(¬1 ∨ 2)`
stored as `[3, 2]`, decision `1 = true` on the trail, literal `3` (¬1)
falsified. -/
def c10_state : SolverState :=
  { init_state with
      num_clauses := 1
      num_vars := 2
      level := 1
      clauses := [[3, 2]]
      clauses_watched_by_l := [(some 3, [0]), (some 2, [0])]
      literals_watching_c := [(0, [3, 2])]
      variable_to_assignment_nodes :=
        [(some 1, AssignedNode.mk (some 1) (some true) 1 none 0)]
      assignment_stack := [AssignedNode.mk (some 1) (some true) 1 none 0]
      num_decisions := 1 }

/-- The state after BCP processes clause 0 for falsified literal 3 in
`c10_state` (the unit case: it forces `2 = true`). -/
def c10_after : SolverState :=
  ((process_watched_clause c10_state (some 3) 0).getD
    (init_state, false)).1

/-- Claim C10 (witness): the unit-case frame property applied to the
concrete forcing step in `c10_state`. -/
theorem claim10_witness :
    c10_after.literals_watching_c = c10_state.literals_watching_c ∧
    c10_after.clauses_watched_by_l = c10_state.clauses_watched_by_l ∧
    (∀ cids, alookup c10_state.clauses_watched_by_l (some 3) = some cids →
      alookup c10_after.clauses_watched_by_l (some 3) = some cids) :=
  (claim10_theorem c10_state c10_after (some 3) 0 false (by decide)).1
    ⟨[3, 2], 2, [3, 2], by decide, by decide, by decide, by decide,
      by decide, by decide⟩

/-! ## Idempotence of BCP (claim C8) -/

lemma other_watch_of_mem {wl : List Int} {fal : Option Int} {ow : Int}
    (h : other_watch_of wl fal = some ow) : ow ∈ wl := by
  unfold other_watch_of at h
  cases h0 : wl.get? 0 with
  | none => rw [h0] at h; simp at h
  | some w0 =>
    rw [h0] at h
    simp only at h
    by_cases he : (some w0 : Option Int) = fal
    · rw [if_pos he] at h
      exact List.get?_mem h
    · rw [if_neg he] at h
      simp at h
      subst h
      exact List.get?_mem h0

lemma get_var_range {s : SolverState} {l : Int}
    (h1 : 1 ≤ l) (h2 : l ≤ 2 * s.num_vars) :
    1 ≤ get_var_from_literal s l ∧ get_var_from_literal s l ≤ s.num_vars := by
  unfold get_var_from_literal is_negative_literal
  split <;> rename_i hgt <;> simp at hgt <;> omega

/-- Literal `l` is false under the current assignment: its variable is
assigned and the stored value matches `l`'s negativity. -/
def lit_false_under (s : SolverState) (l : Int) : Prop :=
  ∃ m, alookup s.variable_to_assignment_nodes
      (some (get_var_from_literal s l)) = some m ∧
    pyTruthy m.value = is_negative_literal s l

lemma lit_false_not_candidate {s : SolverState} {l : Int}
    (h : lit_false_under s l) :
    lit_unassigned s l = false ∧ lit_true_under s l = false := by
  obtain ⟨m, hm, hv⟩ := h
  constructor
  · unfold lit_unassigned
    rw [hm]
    rfl
  · unfold lit_true_under
    rw [hm]
    cases hneg : is_negative_literal s l <;> simp [hv, hneg]

/-- A found replacement literal is never the falsified literal. -/
lemma find_new_watch_ne_falsified {s : SolverState} {wl cl : List Int}
    {nl falv : Int} (hf : find_new_watch s wl cl = some nl)
    (hfalse : lit_false_under s falv) : nl ≠ falv := by
  obtain ⟨_, _, hcand⟩ := find_new_watch_some hf
  intro he
  subst he
  obtain ⟨h1, h2⟩ := lit_false_not_candidate hfalse
  rw [h1, h2] at hcand
  simp at hcand

lemma lit_true_under_congr {s s2 : SolverState} (l : Int)
    (hm : s2.variable_to_assignment_nodes = s.variable_to_assignment_nodes)
    (hn : s2.num_vars = s.num_vars) :
    lit_true_under s2 l = lit_true_under s l := by
  unfold lit_true_under get_var_from_literal is_negative_literal
  rw [hm, hn]

lemma lit_false_under_congr {s s2 : SolverState} (l : Int)
    (hm : s2.variable_to_assignment_nodes = s.variable_to_assignment_nodes)
    (hn : s2.num_vars = s.num_vars) (h : lit_false_under s l) :
    lit_false_under s2 l := by
  unfold lit_false_under get_var_from_literal is_negative_literal at h ⊢
  rw [hm, hn]
  exact h

/-- The non-watch parts of well-formedness only depend on the trail, the
variable map, the declared variable count and the clause store. -/
lemma solver_wf_rest_congr {s s2 : SolverState}
    (hst : s2.assignment_stack = s.assignment_stack)
    (hm : s2.variable_to_assignment_nodes = s.variable_to_assignment_nodes)
    (hn : s2.num_vars = s.num_vars) (hc : s2.clauses = s.clauses)
    (h2 : stack_nodes_ok s) (h3 : map_consistent s) (h4 : clauses_ok s) :
    stack_nodes_ok s2 ∧ map_consistent s2 ∧ clauses_ok s2 := by
  refine ⟨?_, ?_, ?_⟩
  · unfold stack_nodes_ok at h2 ⊢
    rw [hst, hn]
    exact h2
  · unfold map_consistent at h3 ⊢
    rw [hst, hm]
    exact h3
  · unfold clauses_ok at h4 ⊢
    rw [hc, hn]
    exact h4

/-- The node an assignment-stack entry falsifies, and that the falsified
literal is indeed false under the variable map. -/
lemma falsified_literal_ok {s : SolverState} {B : AssignedNode}
    (hs : stack_nodes_ok s) (hm : map_consistent s)
    (hB : B ∈ s.assignment_stack) :
    ∃ falv, falsified_literal_of s.num_vars B = some (some falv) ∧
      lit_false_under s falv := by
  obtain ⟨⟨v, hv, hv1, hv2⟩, ⟨b, hb⟩⟩ := hs B hB
  obtain ⟨m, hmk, hmv⟩ := hm B hB
  refine ⟨if b then v + s.num_vars else v, ?_, ?_⟩
  · unfold falsified_literal_of
    rw [hb, hv]
    cases b <;> simp [pyTruthy]
  · have hvar : get_var_from_literal s (if b then v + s.num_vars else v) = v := by
      unfold get_var_from_literal is_negative_literal
      cases b <;> simp <;> omega
    have hneg : is_negative_literal s (if b then v + s.num_vars else v) = b := by
      unfold is_negative_literal
      cases b <;> simp <;> omega
    refine ⟨m, ?_, ?_⟩
    · rw [hvar, ← hv]
      exact hmk
    · rw [hneg, hmv, hb]
      rfl

/-- The other watched literal of clause `cid` (relative to the falsified
literal `fal`) is currently satisfied — exactly the skip condition of
BCP's clause step. -/
def other_watch_satisfied (s : SolverState) (fal : Option Int)
    (cid : Nat) : Prop :=
  ∃ wl ow, alookup s.literals_watching_c cid = some wl ∧
    other_watch_of wl fal = some ow ∧ lit_true_under s ow = true

/-- When the skip condition holds, the clause step is a no-op. -/
lemma process_watched_clause_skip {s : SolverState} {fal : Option Int}
    {cid : Nat} (h : other_watch_satisfied s fal cid) :
    process_watched_clause s fal cid = some (s, false) := by
  obtain ⟨wl, ow, hwl, how, hsat⟩ := h
  unfold process_watched_clause
  rw [hwl]
  simp only
  rw [how]
  simp only
  rw [if_pos hsat]

/-- When every clause of the snapshot satisfies the skip condition, the
whole pass is a no-op. -/
lemma process_watch_list_all_skip {s : SolverState} {fal : Option Int} :
    ∀ l : List Nat, (∀ cid ∈ l, other_watch_satisfied s fal cid) →
      process_watch_list fal s l = some (s, false) := by
  intro l
  induction l with
  | nil => intro _; rw [process_watch_list]
  | cons cid rest ih =>
    intro h
    rw [process_watch_list,
      process_watched_clause_skip (h cid (by simp))]
    exact ih (fun c hc => h c (by simp [hc]))

/-- Frame facts of one clause step: the trail only grows, and the fixed
scalar fields are untouched. -/
lemma process_watched_clause_frame {s s' : SolverState} {fal : Option Int}
    {cid : Nat} {flag : Bool}
    (h : process_watched_clause s fal cid = some (s', flag)) :
    s'.num_vars = s.num_vars ∧ s'.clauses = s.clauses ∧
    s'.level = s.level ∧ s'.num_clauses = s.num_clauses ∧
    s'.res = s.res ∧ s'.num_decisions = s.num_decisions ∧
    ∃ ex, s'.assignment_stack = s.assignment_stack ++ ex := by
  rcases process_watched_clause_cases s fal cid s' flag h with
    ⟨wl, ow, hwl, how, hsat, hss, _⟩ |
    ⟨wl, ow, cl, nl, falv, hwl, how, hsat, hcl, hfind, hfal, hmv, _⟩ |
    ⟨wl, ow, cl, hwl, how, hsat, hcl, hfind, hlk, hss, _⟩ |
    ⟨wl, ow, cl, m, hwl, how, hsat, hcl, hfind, hlk, hss, _⟩
  · subst hss
    exact ⟨rfl, rfl, rfl, rfl, rfl, rfl, [], by simp⟩
  · have hnf : nl ≠ falv := by
      obtain ⟨_, hnw, _⟩ := find_new_watch_some hfind
      intro he
      subst he
      have := apply_move_falv_mem hmv
      simp [this] at hnw
    obtain ⟨_, _, _, _, _, _, _, _, _, _, hnv, hcls, hlev, hnc, hres, hstk,
      _, hnd, _⟩ := apply_move_spec hnf hmv
    exact ⟨hnv, hcls, hlev, hnc, hres, hnd, [], by simp [hstk]⟩
  · subst hss
    exact ⟨rfl, rfl, rfl, rfl, rfl, rfl, _, rfl⟩
  · subst hss
    exact ⟨rfl, rfl, rfl, rfl, rfl, rfl, _, rfl⟩

/-- Frame facts of a whole snapshot pass. -/
lemma process_watch_list_frame {fal : Option Int} :
    ∀ (l : List Nat) (s s' : SolverState) (flag : Bool),
      process_watch_list fal s l = some (s', flag) →
      s'.num_vars = s.num_vars ∧ s'.clauses = s.clauses ∧
      s'.level = s.level ∧ s'.num_clauses = s.num_clauses ∧
      s'.res = s.res ∧ s'.num_decisions = s.num_decisions ∧
      ∃ ex, s'.assignment_stack = s.assignment_stack ++ ex := by
  intro l
  induction l with
  | nil =>
    intro s s' flag h
    rw [process_watch_list] at h
    simp at h
    rw [← h.1]
    exact ⟨rfl, rfl, rfl, rfl, rfl, rfl, [], by simp⟩
  | cons cid rest ih =>
    intro s s' flag h
    rw [process_watch_list] at h
    cases h1 : process_watched_clause s fal cid with
    | none => rw [h1] at h; simp at h
    | some p =>
      obtain ⟨s1, flag1⟩ := p
      rw [h1] at h
      obtain ⟨ha1, ha2, ha3, ha4, ha5, ha6, ex1, ha7⟩ :=
        process_watched_clause_frame h1
      cases flag1 with
      | true =>
        simp at h
        rw [← h.1]
        exact ⟨ha1, ha2, ha3, ha4, ha5, ha6, ex1, ha7⟩
      | false =>
        simp only at h
        obtain ⟨hb1, hb2, hb3, hb4, hb5, hb6, ex2, hb7⟩ := ih s1 s' flag h
        exact ⟨hb1.trans ha1, hb2.trans ha2, hb3.trans ha3, hb4.trans ha4,
          hb5.trans ha5, hb6.trans ha6, ex1 ++ ex2, by
            rw [hb7, ha7, List.append_assoc]⟩

/-- A key present in the watched-by index stays present across one clause
step. -/
lemma process_watched_clause_key_mono {s s' : SolverState}
    {fal : Option Int} {cid : Nat} {flag : Bool} {k : Option Int}
    (h : process_watched_clause s fal cid = some (s', flag))
    (hk : ∃ v, alookup s.clauses_watched_by_l k = some v) :
    ∃ v, alookup s'.clauses_watched_by_l k = some v := by
  obtain ⟨v, hv⟩ := hk
  rcases process_watched_clause_cases s fal cid s' flag h with
    ⟨wl, ow, hwl, how, hsat, hss, _⟩ |
    ⟨wl, ow, cl, nl, falv, hwl, how, hsat, hcl, hfind, hfal, hmv, _⟩ |
    ⟨wl, ow, cl, hwl, how, hsat, hcl, hfind, hlk, hss, _⟩ |
    ⟨wl, ow, cl, m, hwl, how, hsat, hcl, hfind, hlk, hss, _⟩
  · subst hss; exact ⟨v, hv⟩
  · have hnf : nl ≠ falv := by
      obtain ⟨_, hnw, _⟩ := find_new_watch_some hfind
      intro he
      subst he
      have := apply_move_falv_mem hmv
      simp [this] at hnw
    obtain ⟨_, cids0, hl0, _, _, _, _, hfal_list, hnl_list, hother_list,
      _⟩ := apply_move_spec hnf hmv
    by_cases hk1 : k = some falv
    · subst hk1; exact ⟨_, hfal_list⟩
    · by_cases hk2 : k = some nl
      · subst hk2; exact ⟨_, hnl_list⟩
      · exact ⟨v, (hother_list k hk1 hk2).trans hv⟩
  · subst hss; exact ⟨v, hv⟩
  · subst hss; exact ⟨v, hv⟩

/-- Key presence in the watched-by index is stable across a whole pass. -/
lemma process_watch_list_key_mono {fal : Option Int} {k : Option Int} :
    ∀ (l : List Nat) (s s' : SolverState) (flag : Bool),
      process_watch_list fal s l = some (s', flag) →
      (∃ v, alookup s.clauses_watched_by_l k = some v) →
      ∃ v, alookup s'.clauses_watched_by_l k = some v := by
  intro l
  induction l with
  | nil =>
    intro s s' flag h hk
    rw [process_watch_list] at h
    simp at h
    exact h.1 ▸ hk
  | cons cid rest ih =>
    intro s s' flag h hk
    rw [process_watch_list] at h
    cases h1 : process_watched_clause s fal cid with
    | none => rw [h1] at h; simp at h
    | some p =>
      obtain ⟨s1, flag1⟩ := p
      rw [h1] at h
      have hk1 := process_watched_clause_key_mono h1 hk
      cases flag1 with
      | true => simp at h; exact h.1 ▸ hk1
      | false => simp only at h; exact ih s1 s' flag h hk1

/-- A conflict-free clause step preserves the full well-formedness
bundle. -/
lemma solver_wf_process_watched_clause {s s' : SolverState}
    {fal : Option Int} {cid : Nat} (hwf : solver_wf s)
    (h : process_watched_clause s fal cid = some (s', false)) :
    solver_wf s' := by
  obtain ⟨hw, hst, hmc, hco⟩ := hwf
  have hw' : watch_wf s' := watch_wf_process_watched_clause hw h
  rcases process_watched_clause_cases s fal cid s' false h with
    ⟨wl, ow, hwl, how, hsat, hss, _⟩ |
    ⟨wl, ow, cl, nl, falv, hwl, how, hsat, hcl, hfind, hfal, hmv, _⟩ |
    ⟨wl, ow, cl, hwl, how, hsat, hcl, hfind, hlk, hss, _⟩ |
    ⟨wl, ow, cl, m, hwl, how, hsat, hcl, hfind, hlk, hss, hfl⟩
  · subst hss
    exact ⟨hw', hst, hmc, hco⟩
  · have hnf : nl ≠ falv := by
      obtain ⟨_, hnw, _⟩ := find_new_watch_some hfind
      intro he
      subst he
      have := apply_move_falv_mem hmv
      simp [this] at hnw
    obtain ⟨_, _, _, _, _, _, _, _, _, _, hnv, hcls, _, _, _, hstk, hmap,
      _, _⟩ := apply_move_spec hnf hmv
    obtain ⟨h2, h3, h4⟩ := solver_wf_rest_congr hstk hmap hnv hcls hst hmc hco
    exact ⟨hw', h2, h3, h4⟩
  · -- unit force: the new node's variable is in range and freshly mapped
    have howmem : ow ∈ wl := other_watch_of_mem how
    obtain ⟨_, _, ⟨cl0, hcl0, hsub0⟩, _⟩ := hw.2.1 cid wl hwl
    have howcl : ow ∈ cl0 := hsub0 ow howmem
    obtain ⟨how1, how2⟩ := hco cl0 (by
      obtain ⟨hlt, hget⟩ := List.get?_eq_some.mp hcl0
      exact hget ▸ List.get_mem _ _ _) ow howcl
    obtain ⟨hov1, hov2⟩ := get_var_range how1 how2
    subst hss
    refine ⟨hw', ?_, ?_, ?_⟩
    · intro n hn
      unfold force_other_watch at hn ⊢
      simp only [List.mem_append] at hn
      rcases hn with hn | hn
      · obtain ⟨⟨v, hv, hv1, hv2⟩, hb⟩ := hst n hn
        exact ⟨⟨v, hv, hv1, hv2⟩, hb⟩
      · simp at hn
        subst hn
        exact ⟨⟨get_var_from_literal s ow, rfl, hov1, hov2⟩, ⟨_, rfl⟩⟩
    · intro n hn
      unfold force_other_watch at hn ⊢
      simp only [List.mem_append] at hn
      rcases hn with hn | hn
      · obtain ⟨m0, hm0, hv0⟩ := hmc n hn
        have hne : n.var ≠ some (get_var_from_literal s ow) := by
          intro he
          rw [he, hlk] at hm0
          simp at hm0
        refine ⟨m0, ?_, hv0⟩
        simp only
        rw [alookup_ainsert_ne _ _ _ _ hne]
        exact hm0
      · simp at hn
        subst hn
        exact ⟨_, alookup_ainsert_self _ _ _, rfl⟩
    · intro cl2 hcl2 l hl
      exact hco cl2 hcl2 l hl
  · simp at hfl

/-- A conflict-free snapshot pass preserves the full well-formedness
bundle. -/
lemma solver_wf_process_watch_list {fal : Option Int} :
    ∀ (l : List Nat) (s s' : SolverState), solver_wf s →
      process_watch_list fal s l = some (s', false) → solver_wf s' := by
  intro l
  induction l with
  | nil =>
    intro s s' hwf h
    rw [process_watch_list] at h
    simp at h
    exact h ▸ hwf
  | cons cid rest ih =>
    intro s s' hwf h
    rw [process_watch_list] at h
    cases h1 : process_watched_clause s fal cid with
    | none => rw [h1] at h; simp at h
    | some p =>
      obtain ⟨s1, flag1⟩ := p
      rw [h1] at h
      cases flag1 with
      | true => simp at h
      | false =>
        simp only at h
        exact ih s1 s' (solver_wf_process_watched_clause hwf h1) h

/-- The central invariant of the final BCP pass: if a conflict-free
snapshot pass pushes nothing, then every clause still watched by the
falsified literal afterwards has its other watch satisfied (initially
every watched clause is either still to be processed or already
satisfied). -/
lemma process_watch_list_final {falv : Int} :
    ∀ (l : List Nat) (s s1 : SolverState), solver_wf s →
      lit_false_under s falv →
      (∀ cid ∈ (alookup s.clauses_watched_by_l (some falv)).getD [],
        cid ∈ l ∨ other_watch_satisfied s (some falv) cid) →
      process_watch_list (some falv) s l = some (s1, false) →
      s1.assignment_stack = s.assignment_stack →
      ∀ cid ∈ (alookup s1.clauses_watched_by_l (some falv)).getD [],
        other_watch_satisfied s1 (some falv) cid := by
  intro l
  induction l with
  | nil =>
    intro s s1 hwf hfalse hP h hstk
    rw [process_watch_list] at h
    simp at h
    obtain ⟨rfl, _⟩ := h
    intro cid hc
    rcases hP cid hc with h1 | h1
    · simp at h1
    · exact h1
  | cons cid0 rest ih =>
    intro s s1 hwf hfalse hP h hstk
    rw [process_watch_list] at h
    cases h1 : process_watched_clause s (some falv) cid0 with
    | none => rw [h1] at h; simp at h
    | some p =>
      obtain ⟨s2, flag1⟩ := p
      rw [h1] at h
      cases flag1 with
      | true => simp at h
      | false =>
        simp only at h
        -- the step pushed nothing (otherwise the final trail would be
        -- longer than the initial one)
        obtain ⟨_, _, _, _, _, _, ex1, hstk1⟩ :=
          process_watched_clause_frame h1
        obtain ⟨_, _, _, _, _, _, ex2, hstk2⟩ :=
          process_watch_list_frame rest s2 s1 false h
        have hex1 : ex1 = [] := by
          have hlen := congrArg List.length hstk
          rw [hstk2, hstk1] at hlen
          simp only [List.length_append] at hlen
          exact List.eq_nil_of_length_eq_zero (by omega)
        rw [hex1, List.append_nil] at hstk1
        rcases process_watched_clause_cases s (some falv) cid0 s2 false h1 with
          ⟨wl, ow, hwl, how, hsat, hss, _⟩ |
          ⟨wl, ow, cl, nl, falv2, hwl, how, hsat, hcl, hfind, hfal, hmv, _⟩ |
          ⟨wl, ow, cl, hwl, how, hsat, hcl, hfind, hlk, hss, _⟩ |
          ⟨wl, ow, cl, m, hwl, how, hsat, hcl, hfind, hlk, hss, hfl⟩
        · -- skip step
          rw [hss] at h
          refine ih s s1 hwf hfalse ?_ h hstk
          intro cid hc
          rcases hP cid hc with h2 | h2
          · rcases List.mem_cons.mp h2 with h3 | h3
            · subst h3
              exact Or.inr ⟨wl, ow, hwl, how, hsat⟩
            · exact Or.inl h3
          · exact Or.inr h2
        · -- watch-move step
          have hfv : falv2 = falv := by
            injection hfal.symm
          rw [hfv] at hmv
          have hnf : nl ≠ falv := find_new_watch_ne_falsified hfind hfalse
          obtain ⟨hfmem, cids0, hl0, hcmem, _, hpair_cid, hpair_other,
            hfal_list, hnl_list, hother_list, hnv, hcls, _, _, _, hstk0,
            hmap, _, _⟩ := apply_move_spec hnf hmv
          have hnodup0 : cids0.Nodup := (hwf.1.1 (some falv) cids0 hl0).1
          refine ih s2 s1
            (solver_wf_process_watched_clause hwf h1)
            (lit_false_under_congr falv hmap hnv hfalse) ?_ h
            (by rw [hstk, hstk0])
          intro cid hc
          rw [hfal_list] at hc
          simp only [Option.getD_some] at hc
          have hcmem0 : cid ∈ cids0 := List.mem_of_mem_erase hc
          have hcne : cid ≠ cid0 := ((List.Nodup.mem_erase_iff hnodup0).mp hc).1
          rcases hP cid (by rw [hl0]; simpa using hcmem0) with h2 | h2
          · rcases List.mem_cons.mp h2 with h3 | h3
            · exact absurd h3 hcne
            · exact Or.inl h3
          · right
            obtain ⟨wl2, ow2, hwl2, how2, hsat2⟩ := h2
            refine ⟨wl2, ow2, (hpair_other cid hcne).trans hwl2, how2, ?_⟩
            rw [lit_true_under_congr ow2 hmap hnv]
            exact hsat2
        · -- a force step pushes a node, contradicting hex1
          exfalso
          subst hss
          unfold force_other_watch at hstk1
          simp at hstk1
        · simp at hfl

/-- After a conflict-free BCP pass that processed at least one node, the
state is quiescent at its last trail node: every clause watched by that
node's falsified literal has its other watch satisfied (and the key for
that literal is materialised in the index). -/
def final_good (s1 : SolverState) : Prop :=
  ∃ B fal, s1.assignment_stack.getLast? = some B ∧
    falsified_literal_of s1.num_vars B = some fal ∧
    (∃ cids, alookup s1.clauses_watched_by_l fal = some cids) ∧
    ∀ cid ∈ (alookup s1.clauses_watched_by_l fal).getD [],
      other_watch_satisfied s1 fal cid

lemma bcp_loop_final :
    ∀ (fuel : Nat) (s : SolverState) (ptr : Nat) (s1 : SolverState),
      solver_wf s →
      bcp_loop fuel s ptr = some (s1, BCPResult.noConflictR) →
      solver_wf s1 ∧
        (ptr < s.assignment_stack.length → final_good s1) := by
  intro fuel
  induction fuel with
  | zero => intro s ptr s1 _ h; rw [bcp_loop] at h; simp at h
  | succ fuel ih =>
    intro s ptr s1 hwf h
    rw [bcp_loop] at h
    by_cases hlt : ptr < s.assignment_stack.length
    · rw [dif_pos hlt] at h
      simp only [] at h
      obtain ⟨falv, hfal, hfalse⟩ := falsified_literal_ok hwf.2.1 hwf.2.2.1
        (List.get_mem s.assignment_stack ptr hlt)
      rw [hfal] at h
      simp only [] at h
      set dp := asetdefault s.clauses_watched_by_l (some falv) [] with hdp
      set s0 : SolverState := { s with clauses_watched_by_l := dp.1 }
        with hs0
      have hwf0 : solver_wf s0 := by
        refine ⟨?_, ?_⟩
        · rw [hs0, hdp]
          exact watch_wf_asetdefault s (some falv) hwf.1
        · exact solver_wf_rest_congr rfl rfl rfl rfl hwf.2.1 hwf.2.2.1
            hwf.2.2.2
      have hfalse0 : lit_false_under s0 falv :=
        lit_false_under_congr falv rfl rfl hfalse
      have hkey : alookup s0.clauses_watched_by_l (some falv) = some dp.2 := by
        rw [hs0]
        simp only
        rw [hdp]
        exact alookup_asetdefault_self _ _ _
      cases hpl : process_watch_list (some falv) s0 dp.2.reverse with
      | none => rw [hpl] at h; simp at h
      | some p =>
        obtain ⟨s2, flag1⟩ := p
        rw [hpl] at h
        cases flag1 with
        | true => simp at h
        | false =>
          simp only [] at h
          have hwf2 : solver_wf s2 :=
            solver_wf_process_watch_list _ s0 s2 hwf0 hpl
          obtain ⟨hwf1, himp⟩ := ih s2 (ptr + 1) s1 hwf2 h
          refine ⟨hwf1, fun _ => ?_⟩
          by_cases hlt2 : ptr + 1 < s2.assignment_stack.length
          · exact himp hlt2
          · -- the recursion terminated immediately: s1 = s2, nothing was
            -- pushed while processing the last node
            have hterm : s1 = s2 := by
              cases fuel with
              | zero => rw [bcp_loop] at h; simp at h
              | succ f2 =>
                rw [bcp_loop, dif_neg hlt2] at h
                simp at h
                exact h.symm
            rw [hterm]
            obtain ⟨hnv2, hcls2, _, _, _, _, ex, hstk2⟩ :=
              process_watch_list_frame dp.2.reverse s0 s2 false hpl
            have hstk0 : s0.assignment_stack = s.assignment_stack := rfl
            have hnv0 : s0.num_vars = s.num_vars := rfl
            have hlen2 : s2.assignment_stack.length =
                s.assignment_stack.length + ex.length := by
              rw [hstk2, hstk0]
              simp
            have hex : ex = [] := by
              apply List.eq_nil_of_length_eq_zero
              omega
            have hstack_eq : s2.assignment_stack = s.assignment_stack := by
              rw [hstk2, hex, List.append_nil, hstk0]
            have hptr : ptr + 1 = s.assignment_stack.length := by
              omega
            have hlast : s2.assignment_stack.getLast? =
                some (s.assignment_stack.get ⟨ptr, hlt⟩) := by
              rw [hstack_eq, List.getLast?_eq_get?]
              have hix : s.assignment_stack.length - 1 = ptr := by omega
              rw [hix]
              exact List.get?_eq_get hlt
            refine ⟨s.assignment_stack.get ⟨ptr, hlt⟩, some falv, hlast,
              ?_, ?_, ?_⟩
            · rw [hnv2, hnv0]
              exact hfal
            · exact process_watch_list_key_mono dp.2.reverse s0 s2 false hpl
                ⟨dp.2, hkey⟩
            · refine process_watch_list_final dp.2.reverse s0 s2 hwf0
                hfalse0 ?_ hpl (by rw [hstack_eq, hstk0])
              intro cid hc
              rw [hkey] at hc
              simp only [Option.getD_some] at hc
              exact Or.inl (by simpa using hc)
    · rw [dif_neg hlt] at h
      simp at h
      refine ⟨h ▸ hwf, fun hcon => absurd hcon hlt⟩

/-- From a quiescent state, a further BCP call (not the first pass) is a
complete no-op: it re-examines only the last trail node, skips every
clause watched by its falsified literal, and returns `NO_CONFLICT` with
the state unchanged. -/
lemma bcp_second_noop {s1 : SolverState} (hg : final_good s1) :
    ∀ fuel2, 2 ≤ fuel2 →
      boolean_constraint_propogation fuel2 false s1 =
        some (s1, BCPResult.noConflictR) := by
  obtain ⟨B, fal, hlast, hfal, ⟨cids, hkey⟩, hsat⟩ := hg
  intro fuel2 hf2
  obtain ⟨k, rfl⟩ : ∃ k, fuel2 = k + 1 + 1 := ⟨fuel2 - 2, by omega⟩
  have hne : s1.assignment_stack ≠ [] := by
    intro he; rw [he] at hlast; simp at hlast
  unfold boolean_constraint_propogation
  simp only [Bool.false_eq_true, if_false]
  cases hlen : s1.assignment_stack.length with
  | zero => exact absurd (List.eq_nil_of_length_eq_zero hlen) hne
  | succ n =>
    have h0 : s1.assignment_stack.get? n = some B := by
      have hx := hlast
      rw [List.getLast?_eq_get?, hlen] at hx
      simpa using hx
    have hgetAll : ∀ h : n < s1.assignment_stack.length,
        s1.assignment_stack.get ⟨n, h⟩ = B := by
      intro h
      have hy := List.get?_eq_get h
      rw [h0] at hy
      exact (Option.some.inj hy).symm
    have hn : n < s1.assignment_stack.length := by omega
    simp only []
    rw [bcp_loop, dif_pos hn]
    simp only []
    rw [hgetAll hn, hfal]
    simp only []
    rw [asetdefault_of_some [] hkey]
    simp only []
    have heta : ({ s1 with clauses_watched_by_l :=
        s1.clauses_watched_by_l } : SolverState) = s1 := rfl
    rw [heta]
    have hallskip : process_watch_list fal s1 cids.reverse =
        some (s1, false) := by
      apply process_watch_list_all_skip
      intro cid hc
      apply hsat
      rw [hkey]
      simpa using hc
    rw [hallskip]
    simp only []
    rw [bcp_loop, dif_neg (by omega : ¬ n + 1 < s1.assignment_stack.length)]

/-- Claim C8: BCP is idempotent.  If a (non-first-pass) BCP call on a
well-formed state returns `NO_CONFLICT`, then an immediately following
second call with no intervening pushes also returns `NO_CONFLICT` and
leaves the entire solver state (trail, variable map, both watch indices,
clause store, decision level, counters) unchanged: it returns the very
same state. -/
theorem claim8_theorem (fuel : Nat) (s s' : SolverState)
    (hwf : solver_wf s)
    (h : boolean_constraint_propogation fuel false s =
      some (s', BCPResult.noConflictR)) :
    ∀ fuel2, 2 ≤ fuel2 →
      boolean_constraint_propogation fuel2 false s' =
        some (s', BCPResult.noConflictR) := by
  unfold boolean_constraint_propogation at h
  simp only [Bool.false_eq_true, if_false] at h
  cases hlen : s.assignment_stack.length with
  | zero => rw [hlen] at h; simp at h
  | succ n =>
    rw [hlen] at h
    simp only [] at h
    obtain ⟨_, hfinal⟩ := bcp_loop_final fuel s n s' hwf h
    exact bcp_second_noop (hfinal (by omega))

/-- Executable check of the full well-formedness bundle (used to
discharge `solver_wf` on concrete states). -/
def solver_wf_check (s : SolverState) : Bool :=
  s.clauses_watched_by_l.all (fun kv =>
    decide kv.2.Nodup && kv.2.all (fun cid =>
      match alookup s.literals_watching_c cid with
      | some wl => decide (kv.1 ∈ wl.map some)
      | none => false)) &&
  s.literals_watching_c.all (fun kv =>
    decide (kv.2.length = 2) && decide kv.2.Nodup &&
    (match s.clauses.get? kv.1 with
     | some cl => kv.2.all (fun l => decide (l ∈ cl))
     | none => false) &&
    kv.2.all (fun l =>
      match alookup s.clauses_watched_by_l (some l) with
      | some cids => decide (kv.1 ∈ cids)
      | none => false)) &&
  decide (s.num_clauses = s.clauses.length) &&
  s.assignment_stack.all (fun n =>
    (match n.var with
     | some v => decide (1 ≤ v ∧ v ≤ s.num_vars)
     | none => false) &&
    n.value.isSome &&
    (match alookup s.variable_to_assignment_nodes n.var with
     | some m => decide (m.value = n.value)
     | none => false)) &&
  s.clauses.all (fun cl =>
    cl.all (fun l => decide (1 ≤ l ∧ l ≤ 2 * s.num_vars)))

lemma solver_wf_of_check (s : SolverState)
    (h : solver_wf_check s = true) : solver_wf s := by
  unfold solver_wf_check at h
  simp only [Bool.and_eq_true, List.all_eq_true] at h
  obtain ⟨⟨⟨⟨h1, h2⟩, h3⟩, h4⟩, h5⟩ := h
  refine ⟨⟨?_, ?_, by simpa using h3⟩, ?_, ?_, ?_⟩
  · intro lo cids hl
    have hm := h1 (lo, cids) (alookup_mem _ _ _ hl)
    simp only [Bool.and_eq_true, List.all_eq_true] at hm
    refine ⟨by simpa using hm.1, ?_⟩
    intro cid hc
    have hq2 := hm.2 cid hc
    cases hq : alookup s.literals_watching_c cid with
    | none => rw [hq] at hq2; simp at hq2
    | some wl => rw [hq] at hq2; exact ⟨wl, rfl, by simpa using hq2⟩
  · intro cid wl hl
    have hm := h2 (cid, wl) (alookup_mem _ _ _ hl)
    simp only [Bool.and_eq_true, List.all_eq_true] at hm
    obtain ⟨⟨⟨hma, hmb⟩, hmc⟩, hmd⟩ := hm
    refine ⟨by simpa using hma, by simpa using hmb, ?_, ?_⟩
    · cases hq : s.clauses.get? cid with
      | none => rw [hq] at hmc; simp at hmc
      | some cl =>
        rw [hq] at hmc
        simp only [List.all_eq_true] at hmc
        exact ⟨cl, rfl, fun l hlm => by simpa using hmc l hlm⟩
    · intro l hlm
      have hq2 := hmd l hlm
      cases hq : alookup s.clauses_watched_by_l (some l) with
      | none => rw [hq] at hq2; simp at hq2
      | some cids => rw [hq] at hq2; exact ⟨cids, rfl, by simpa using hq2⟩
  · intro n hn
    have hm := h4 n hn
    simp only [Bool.and_eq_true] at hm
    obtain ⟨⟨hma, hmb⟩, _⟩ := hm
    constructor
    · cases hq : n.var with
      | none => rw [hq] at hma; simp at hma
      | some v =>
        rw [hq] at hma
        simp at hma
        exact ⟨v, rfl, hma.1, hma.2⟩
    · cases hq : n.value with
      | none => rw [hq] at hmb; simp at hmb
      | some b => exact ⟨b, rfl⟩
  · intro n hn
    have hm := h4 n hn
    simp only [Bool.and_eq_true] at hm
    obtain ⟨_, hmc⟩ := hm
    cases hq : alookup s.variable_to_assignment_nodes n.var with
    | none => rw [hq] at hmc; simp at hmc
    | some m => rw [hq] at hmc; exact ⟨m, rfl, by simpa using hmc⟩
  · intro cl hcl l hl
    have hm := h5 cl hcl
    simp only [List.all_eq_true] at hm
    simpa using hm l hl

/-- The quiescent state reached from `c10_state` by one conflict-free
BCP pass (it forces `2 = true` and then finds nothing else to do). -/
def c8_after : SolverState :=
  ((boolean_constraint_propogation 10 false c10_state).getD
    (init_state, BCPResult.conflictR)).1

/-- Claim C8 (witness): idempotence applied after the concrete BCP run
from `c10_state`. -/
theorem claim8_witness :
    boolean_constraint_propogation 5 false c8_after =
      some (c8_after, BCPResult.noConflictR) :=
  claim8_theorem 10 c10_state c8_after
    (solver_wf_of_check c10_state (by decide)) (by decide) 5 (by decide)

/-! ## Termination of the solve loop (claim C9) -/

lemma alookup_adelete_ne {α β : Type} [DecidableEq α] :
    ∀ (d d1 : List (α × β)) (k k2 : α), adelete d k = some d1 → k2 ≠ k →
      alookup d1 k2 = alookup d k2 := by
  intro d
  induction d with
  | nil => intro d1 k k2 h _; simp [adelete] at h
  | cons kv rest ih =>
    intro d1 k k2 h hne
    obtain ⟨k1, v1⟩ := kv
    rw [adelete] at h
    by_cases hk : k1 = k
    · rw [if_pos hk] at h
      simp at h
      subst h
      rw [alookup, if_neg (by rw [hk]; exact fun he => hne he.symm)]
    · rw [if_neg hk] at h
      cases hr : adelete rest k with
      | none => rw [hr] at h; simp at h
      | some r1 =>
        rw [hr] at h
        simp at h
        subst h
        rw [alookup, alookup]
        by_cases hk2 : k1 = k2
        · rw [if_pos hk2, if_pos hk2]
        · rw [if_neg hk2, if_neg hk2]
          exact ih r1 k k2 hr hne

lemma adelete_of_mem_key {α β : Type} [DecidableEq α] :
    ∀ (d : List (α × β)) (k : α) (v : β), alookup d k = some v →
      ∃ d1, adelete d k = some d1 := by
  intro d
  induction d with
  | nil => intro k v h; simp [alookup] at h
  | cons kv rest ih =>
    intro k v h
    obtain ⟨k1, v1⟩ := kv
    rw [alookup] at h
    rw [adelete]
    by_cases hk : k1 = k
    · rw [if_pos hk]
      exact ⟨rest, rfl⟩
    · rw [if_neg hk] at h ⊢
      obtain ⟨d1, hd1⟩ := ih k v h
      rw [hd1]
      exact ⟨(k1, v1) :: d1, rfl⟩

lemma alookup_eq_none_of_not_mem_keys {α β : Type} [DecidableEq α] :
    ∀ (d : List (α × β)) (k : α), k ∉ d.map Prod.fst → alookup d k = none := by
  intro d
  induction d with
  | nil => intro k _; rfl
  | cons kv rest ih =>
    intro k hk
    obtain ⟨k1, v1⟩ := kv
    simp at hk
    rw [alookup, if_neg (fun he => hk.1 he.symm)]
    exact ih k (by simpa using hk.2)

/-- Structure of a successful `del`: the dictionary splits at the first
binding of the key. -/
lemma adelete_eq_some {α β : Type} [DecidableEq α] :
    ∀ (d : List (α × β)) (k : α) (d1 : List (α × β)),
      adelete d k = some d1 →
      ∃ pre v post, d = pre ++ [(k, v)] ++ post ∧ d1 = pre ++ post := by
  intro d
  induction d with
  | nil => intro k d1 h; simp [adelete] at h
  | cons kv rest ih =>
    intro k d1 h
    obtain ⟨k1, v1⟩ := kv
    rw [adelete] at h
    by_cases hk : k1 = k
    · rw [if_pos hk] at h
      simp at h
      subst hk
      exact ⟨[], v1, rest, by simp, by simp [h]⟩
    · rw [if_neg hk] at h
      cases hr : adelete rest k with
      | none => rw [hr] at h; simp at h
      | some r1 =>
        rw [hr] at h
        simp at h
        obtain ⟨pre, v, post, hd, hr1⟩ := ih k r1 hr
        exact ⟨(k1, v1) :: pre, v, post, by simp [hd], by simp [← h, hr1]⟩

lemma adelete_keys_nodup {α β : Type} [DecidableEq α]
    {d d1 : List (α × β)} {k : α} (h : adelete d k = some d1)
    (hnd : (d.map Prod.fst).Nodup) : (d1.map Prod.fst).Nodup := by
  obtain ⟨pre, v, post, hd, hd1⟩ := adelete_eq_some d k d1 h
  subst hd hd1
  have hmid : (List.map Prod.fst (pre ++ [(k, v)] ++ post)) =
      List.map Prod.fst pre ++ k :: List.map Prod.fst post := by
    simp
  rw [hmid] at hnd
  have h2 := List.nodup_middle.mp hnd
  rw [List.nodup_cons] at h2
  rw [List.map_append]
  exact h2.2

lemma adelete_lookup_self {α β : Type} [DecidableEq α]
    {d d1 : List (α × β)} {k : α} (h : adelete d k = some d1)
    (hnd : (d.map Prod.fst).Nodup) : alookup d1 k = none := by
  obtain ⟨pre, v, post, hd, hd1⟩ := adelete_eq_some d k d1 h
  subst hd hd1
  have hmid : (List.map Prod.fst (pre ++ [(k, v)] ++ post)) =
      List.map Prod.fst pre ++ k :: List.map Prod.fst post := by
    simp
  rw [hmid] at hnd
  have h1 := List.nodup_middle.mp hnd
  rw [List.nodup_cons] at h1
  apply alookup_eq_none_of_not_mem_keys
  rw [List.map_append]
  exact h1.1

/-! ## Key-set lemmas for the association-list dictionaries -/

lemma alookup_isSome_iff_mem_keys {α β : Type} [DecidableEq α] :
    ∀ (d : List (α × β)) (k : α),
      (alookup d k).isSome = true ↔ k ∈ d.map Prod.fst := by
  intro d
  induction d with
  | nil => intro k; simp [alookup]
  | cons p rest ih =>
    intro k
    obtain ⟨k1, v1⟩ := p
    by_cases hk : k1 = k
    · subst hk
      simp [alookup]
    · rw [alookup, if_neg hk]
      rw [ih k]
      simp only [List.map_cons, List.mem_cons]
      constructor
      · intro h; exact Or.inr h
      · intro h
        rcases h with h | h
        · exact absurd h.symm hk
        · exact h

lemma ainsert_keys {α β : Type} [DecidableEq α] :
    ∀ (d : List (α × β)) (k : α) (v : β),
      (ainsert d k v).map Prod.fst =
        if k ∈ d.map Prod.fst then d.map Prod.fst
        else d.map Prod.fst ++ [k] := by
  intro d
  induction d with
  | nil => intro k v; simp [ainsert]
  | cons p rest ih =>
    intro k v
    obtain ⟨k1, v1⟩ := p
    by_cases hk : k1 = k
    · subst hk
      simp [ainsert]
    · rw [ainsert, if_neg hk]
      simp only [List.map_cons]
      rw [ih k v]
      by_cases hmem : k ∈ rest.map Prod.fst
      · rw [if_pos hmem, if_pos (by simp [hmem])]
      · rw [if_neg hmem, if_neg (by
          simp only [List.mem_cons]
          intro h
          rcases h with h | h
          · exact hk h.symm
          · exact hmem h)]
        simp

lemma ainsert_keys_nodup {α β : Type} [DecidableEq α]
    {d : List (α × β)} (k : α) (v : β)
    (h : (d.map Prod.fst).Nodup) : ((ainsert d k v).map Prod.fst).Nodup := by
  rw [ainsert_keys]
  by_cases hmem : k ∈ d.map Prod.fst
  · rw [if_pos hmem]; exact h
  · rw [if_neg hmem]
    simp [List.nodup_append, h, hmem]

/-! ## The trail/map well-formedness bundle (reachability invariant) -/

/-- Shape invariants of the assignment trail, the variable map and the
decision-level counter that hold in every state the solve loop reaches:
trail variables are pairwise distinct, the variable map has
duplicate-free keys and binds exactly the variables on the trail, trail
levels are monotone, bounded by the current level, topped by the current
level, every intermediate level is inhabited, and the variable count is
nonnegative. -/
structure trail_wf (s : SolverState) : Prop where
  vars_nodup : (s.assignment_stack.map (fun n => n.var)).Nodup
  keys_nodup : (s.variable_to_assignment_nodes.map Prod.fst).Nodup
  dom : ∀ k : Option Int,
    (alookup s.variable_to_assignment_nodes k).isSome = true ↔
      k ∈ s.assignment_stack.map (fun n => n.var)
  mono : List.Pairwise (fun a b => a.level ≤ b.level) s.assignment_stack
  bounds : ∀ n ∈ s.assignment_stack, 0 ≤ n.level ∧ n.level ≤ s.level
  top : ∀ n, s.assignment_stack.getLast? = some n → n.level = s.level
  empty_zero : s.assignment_stack = [] → s.level = 0
  inhab : ∀ l : Int, 1 ≤ l → l ≤ s.level →
    ∃ n ∈ s.assignment_stack, n.level = l
  nv_nonneg : 0 ≤ s.num_vars

lemma mem_of_getLast?_eq {α : Type} {l : List α} {a : α}
    (h : l.getLast? = some a) : a ∈ l := by
  obtain ⟨hne, hx⟩ := List.mem_getLast?_eq_getLast
    (show a ∈ l.getLast? by simp [Option.mem_def, h])
  rw [hx]
  exact List.getLast_mem hne

lemma level_nonneg {s : SolverState} (h : trail_wf s) : 0 ≤ s.level := by
  cases hs : s.assignment_stack.getLast? with
  | none =>
    rw [List.getLast?_eq_none_iff] at hs
    rw [h.empty_zero hs]
  | some n =>
    have hmem : n ∈ s.assignment_stack := mem_of_getLast?_eq hs
    have := (h.bounds n hmem).1
    rw [h.top n hs] at this
    exact this

/-- The possible `var` fields of real (non-sentinel) trail nodes. -/
def someVars (N : Int) : List (Option Int) :=
  (List.range N.toNat).map (fun (i : Nat) => some ((i : Int) + 1))

lemma someVars_nodup (N : Int) : (someVars N).Nodup := by
  rw [someVars]
  refine List.Nodup.map ?_ (List.nodup_range _)
  intro a b hab
  simp only [Option.some.injEq] at hab
  omega

lemma mem_someVars {N v : Int} (h1 : 1 ≤ v) (h2 : v ≤ N) :
    some v ∈ someVars N := by
  rw [someVars]
  refine List.mem_map.mpr ⟨(v - 1).toNat, List.mem_range.mpr (by omega), ?_⟩
  simp only [Option.some.injEq]
  omega

lemma nodup_length_le {α : Type} {l l2 : List α}
    (h : l.Nodup) (hs : ∀ x ∈ l, x ∈ l2) : l.length ≤ l2.length :=
  (List.subperm_of_subset h hs).length_le

lemma stack_length_le_nv {s : SolverState}
    (hs : stack_nodes_ok s) (ht : trail_wf s) :
    s.assignment_stack.length ≤ s.num_vars.toNat := by
  have hsub : ∀ x ∈ s.assignment_stack.map (fun n => n.var),
      x ∈ someVars s.num_vars := by
    intro x hx
    obtain ⟨n, hn, hnx⟩ := List.mem_map.mp hx
    obtain ⟨⟨v, hv, h1, h2⟩, _⟩ := hs n hn
    rw [← hnx, hv]
    exact mem_someVars h1 h2
  have hlen := nodup_length_le ht.vars_nodup hsub
  rw [List.length_map] at hlen
  rw [someVars, List.length_map, List.length_range] at hlen
  exact hlen

lemma level_le_length {s : SolverState} (ht : trail_wf s) :
    s.level ≤ (s.assignment_stack.length : Int) := by
  by_cases h0 : s.level ≤ 0
  · omega
  · have hsub : ∀ x ∈ (List.range s.level.toNat).map
        (fun (i : Nat) => (i : Int) + 1),
        x ∈ s.assignment_stack.map (fun n => n.level) := by
      intro x hx
      simp only [List.mem_map, List.mem_range] at hx
      obtain ⟨i, hi, hix⟩ := hx
      obtain ⟨n, hn, hnl⟩ := ht.inhab x (by omega) (by omega)
      exact List.mem_map.mpr ⟨n, hn, hnl⟩
    have hnd : ((List.range s.level.toNat).map
        (fun (i : Nat) => (i : Int) + 1)).Nodup := by
      refine List.Nodup.map ?_ (List.nodup_range _)
      intro a b hab
      have hab2 : (a : Int) + 1 = (b : Int) + 1 := hab
      omega
    have hlen := nodup_length_le hnd hsub
    simp only [List.length_map, List.length_range] at hlen
    omega

lemma level_le_nv {s : SolverState}
    (hs : stack_nodes_ok s) (ht : trail_wf s) : s.level ≤ s.num_vars := by
  have h1 := level_le_length ht
  have h2 := stack_length_le_nv hs ht
  have h3 := ht.nv_nonneg
  omega

/-! ## The termination measure -/

/-- The base of the termination measure: strictly more than the largest
possible number of trail nodes at one decision level (`N` real nodes plus
the conflict sentinel). -/
def Bse (N : Int) : Nat := N.toNat + 2

/-- Weight of one trail node: deeper decision levels weigh less. -/
def node_weight (N : Int) (n : AssignedNode) : Nat :=
  Bse N ^ (N - n.level).toNat

/-- Total weight of a trail fragment. -/
def muList (N : Int) (l : List AssignedNode) : Nat :=
  (l.map (node_weight N)).sum

/-- The termination measure of a solver state: every trail push and every
backtrack strictly increases it. -/
def mu (s : SolverState) : Nat := muList s.num_vars s.assignment_stack

/-- Strict upper bound of the measure over all reachable states. -/
def muBound (N : Int) : Nat := Bse N ^ (N.toNat + 1)

lemma muList_append (N : Int) (l1 l2 : List AssignedNode) :
    muList N (l1 ++ l2) = muList N l1 + muList N l2 := by
  simp [muList]

lemma node_weight_pos (N : Int) (n : AssignedNode) :
    1 ≤ node_weight N n := by
  have h : 0 < Bse N := by simp [Bse]
  exact pow_pos h _

lemma node_weight_le {N : Int} {n : AssignedNode} (hl : 0 ≤ n.level) :
    node_weight N n ≤ Bse N ^ N.toNat := by
  refine Nat.pow_le_pow_right (by simp [Bse]) ?_
  omega

lemma mu_lt_bound {s : SolverState}
    (hs : stack_nodes_ok s) (ht : trail_wf s) :
    mu s < muBound s.num_vars := by
  have hw : ∀ x ∈ s.assignment_stack.map (node_weight s.num_vars),
      x ≤ Bse s.num_vars ^ s.num_vars.toNat := by
    intro x hx
    obtain ⟨n, hn, hnx⟩ := List.mem_map.mp hx
    rw [← hnx]
    exact node_weight_le (ht.bounds n hn).1
  have hsum := List.sum_le_card_nsmul _ _ hw
  simp only [smul_eq_mul, List.length_map] at hsum
  have hlen := stack_length_le_nv hs ht
  have hpow : 0 < Bse s.num_vars ^ s.num_vars.toNat :=
    pow_pos (by simp [Bse]) _
  calc mu s ≤ s.assignment_stack.length *
        Bse s.num_vars ^ s.num_vars.toNat := hsum
    _ ≤ s.num_vars.toNat * Bse s.num_vars ^ s.num_vars.toNat :=
        Nat.mul_le_mul_right _ hlen
    _ < Bse s.num_vars * Bse s.num_vars ^ s.num_vars.toNat :=
        (Nat.mul_lt_mul_right hpow).mpr
          (show s.num_vars.toNat < s.num_vars.toNat + 2 by omega)
    _ = muBound s.num_vars := by
        rw [muBound, pow_succ, Nat.mul_comm]

lemma muList_const_level {N L : Int} :
    ∀ (l : List AssignedNode), (∀ n ∈ l, n.level = L) →
      muList N l = l.length * Bse N ^ (N - L).toNat := by
  intro l
  induction l with
  | nil => intro _; simp [muList]
  | cons a t ih =>
    intro h
    have ha : a.level = L := h a (by simp)
    have ht2 := ih (fun n hn => h n (by simp [hn]))
    simp only [muList, List.map_cons, List.sum_cons, List.length_cons] at ht2 ⊢
    rw [ht2, node_weight, ha, Nat.succ_mul]
    ring

/-! ## Crash-freedom and invariant preservation of one BCP pass -/

/-- Relation between a state and any state an initial segment of one BCP
call turns it into: still well-formed, same variable count, level and
result marker, and the trail has only grown. -/
def bcp_reach_step (s s1 : SolverState) : Prop :=
  solver_wf s1 ∧ trail_wf s1 ∧ s1.num_vars = s.num_vars ∧
  s1.level = s.level ∧ s1.res = s.res ∧
  ∃ ex, s1.assignment_stack = s.assignment_stack ++ ex

lemma bcp_reach_step_refl {s : SolverState}
    (h1 : solver_wf s) (h2 : trail_wf s) : bcp_reach_step s s :=
  ⟨h1, h2, rfl, rfl, rfl, [], by simp⟩

lemma bcp_reach_step_trans {s s1 s2 : SolverState}
    (h1 : bcp_reach_step s s1) (h2 : bcp_reach_step s1 s2) :
    bcp_reach_step s s2 := by
  obtain ⟨_, _, ha3, ha4, ha5, ex1, ha6⟩ := h1
  obtain ⟨hb1, hb2, hb3, hb4, hb5, ex2, hb6⟩ := h2
  exact ⟨hb1, hb2, hb3.trans ha3, hb4.trans ha4, hb5.trans ha5,
    ex1 ++ ex2, by rw [hb6, ha6, List.append_assoc]⟩

lemma mu_le_of_reach_step {s s1 : SolverState}
    (h : bcp_reach_step s s1) : mu s ≤ mu s1 := by
  obtain ⟨_, _, hnv, _, _, ex, hst⟩ := h
  rw [mu, mu, hnv, hst, muList_append]
  omega

/-- `trail_wf` only depends on the trail, the variable map, the level and
the variable count. -/
lemma trail_wf_congr {s s1 : SolverState}
    (hst : s1.assignment_stack = s.assignment_stack)
    (hm : s1.variable_to_assignment_nodes = s.variable_to_assignment_nodes)
    (hl : s1.level = s.level) (hn : s1.num_vars = s.num_vars)
    (h : trail_wf s) : trail_wf s1 := by
  refine ⟨?_, ?_, ?_, ?_, ?_, ?_, ?_, ?_, ?_⟩
  · rw [hst]; exact h.vars_nodup
  · rw [hm]; exact h.keys_nodup
  · intro k; rw [hm, hst]; exact h.dom k
  · rw [hst]; exact h.mono
  · rw [hst, hl]; exact h.bounds
  · rw [hst, hl]; exact h.top
  · rw [hst, hl]; exact h.empty_zero
  · rw [hst, hl]; exact h.inhab
  · rw [hn]; exact h.nv_nonneg

/-- Appending one fresh assignment (unassigned variable, level at least
the current one, every level gap justified) preserves `trail_wf`.  Covers
the pushes of `_decide`, the unit case of BCP and the unit-clause path of
`_add_clause`. -/
lemma trail_wf_push {s s1 : SolverState} {v lev : Int} {val : Option Bool}
    {cls : Option Nat} {idx : Int}
    (ht : trail_wf s)
    (hst : s1.assignment_stack = s.assignment_stack ++
      [{ var := some v, value := val, level := lev, clause := cls,
         index := idx }])
    (hm : s1.variable_to_assignment_nodes =
      ainsert s.variable_to_assignment_nodes (some v)
        { var := some v, value := val, level := lev, clause := cls,
          index := idx })
    (hn : s1.num_vars = s.num_vars)
    (hlev1 : s.level ≤ lev) (hlev2 : s1.level = lev) (hlev0 : 0 ≤ lev)
    (hgap : ∀ l : Int, 1 ≤ l → l ≤ lev → l ≤ s.level ∨ l = lev)
    (hun : alookup s.variable_to_assignment_nodes (some v) = none) :
    trail_wf s1 := by
  have hnm : some v ∉ s.assignment_stack.map (fun n => n.var) := by
    intro hmem
    have h2 := (ht.dom (some v)).mpr hmem
    rw [hun] at h2
    simp at h2
  refine ⟨?_, ?_, ?_, ?_, ?_, ?_, ?_, ?_, ?_⟩
  · rw [hst, List.map_append]
    refine List.Nodup.append ht.vars_nodup (List.nodup_singleton _) ?_
    simp [hnm]
  · rw [hm]
    exact ainsert_keys_nodup _ _ ht.keys_nodup
  · intro k
    rw [hm, hst, List.map_append]
    by_cases hk : k = some v
    · subst hk
      rw [alookup_ainsert_self]
      simp
    · rw [alookup_ainsert_ne _ _ _ _ hk]
      rw [ht.dom k]
      simp [hk]
  · rw [hst]
    refine List.pairwise_append.mpr ⟨ht.mono, List.pairwise_singleton _ _, ?_⟩
    intro a ha b hb
    simp only [List.mem_singleton] at hb
    subst hb
    exact le_trans (ht.bounds a ha).2 hlev1
  · intro n hn2
    rw [hst] at hn2
    rw [hlev2]
    rcases List.mem_append.mp hn2 with hold | hnew
    · have hb := ht.bounds n hold
      exact ⟨hb.1, le_trans hb.2 hlev1⟩
    · simp only [List.mem_singleton] at hnew
      subst hnew
      exact ⟨hlev0, le_refl _⟩
  · intro n hgl
    rw [hst, List.getLast?_concat] at hgl
    rw [hlev2]
    cases hgl
    rfl
  · rw [hst]
    intro habs
    simp at habs
  · intro l hl1 hl2
    rw [hlev2] at hl2
    rw [hst]
    rcases hgap l hl1 hl2 with hle | heq
    · obtain ⟨n, hn2, hnl⟩ := ht.inhab l hl1 hle
      exact ⟨n, by simp [hn2], hnl⟩
    · have hmem2 : ({ var := some v, value := val, level := lev, clause := cls, index := idx } : AssignedNode) ∈ s.assignment_stack ++ [{ var := some v, value := val, level := lev, clause := cls, index := idx }] := by simp
      exact ⟨_, hmem2, heq.symm⟩
  · rw [hn]; exact ht.nv_nonneg

/-- A successful watch move only needs the falsified literal in the pair
and the clause in the falsified literal's current watch list. -/
lemma apply_move_some {s : SolverState} {falv nl : Int} {cid : Nat}
    {wl : List Int} {cids : List Nat}
    (hfalv : falv ∈ wl)
    (hcids : alookup s.clauses_watched_by_l (some falv) = some cids)
    (hcid : cid ∈ cids) :
    ∃ s1, apply_move s falv nl cid wl = some s1 := by
  unfold apply_move
  rw [show removeFirst wl falv = some (wl.erase falv) by
    rw [removeFirst, if_pos hfalv]]
  simp only
  rw [asetdefault_of_some [] hcids]
  simp only
  rw [show removeFirst cids cid = some (cids.erase cid) by
    rw [removeFirst, if_pos hcid]]
  exact ⟨_, rfl⟩

/-- Under the well-formedness bundle, processing a clause from the
falsified literal's current watch list never raises. -/
lemma process_watched_clause_some {s : SolverState} {falv : Int} {cid : Nat}
    (hwf : solver_wf s)
    (hmem : ∃ cids, alookup s.clauses_watched_by_l (some falv) = some cids ∧
      cid ∈ cids) :
    ∃ r, process_watched_clause s (some falv) cid = some r := by
  obtain ⟨cids, hcids, hcid⟩ := hmem
  obtain ⟨⟨hwl1, hp, hnc⟩, _, _, _⟩ := hwf
  obtain ⟨_, hexwl⟩ := hwl1 (some falv) cids hcids
  obtain ⟨wl, hwlk, hfin⟩ := hexwl cid hcid
  have hfalv : falv ∈ wl := by
    obtain ⟨x, hxmem, hxeq⟩ := List.mem_map.mp hfin
    cases hxeq
    exact hxmem
  obtain ⟨hlen2, hnd2, ⟨cl, hcl, hsub⟩, hback⟩ := hp cid wl hwlk
  obtain ⟨a, b2, hab⟩ := List.length_eq_two.mp hlen2
  have how : ∃ ow, other_watch_of wl (some falv) = some ow := by
    rw [hab]
    unfold other_watch_of
    simp only [List.get?]
    by_cases he : (some a : Option Int) = some falv
    · rw [if_pos he]
      exact ⟨b2, rfl⟩
    · rw [if_neg he]
      exact ⟨a, rfl⟩
  obtain ⟨ow, howk⟩ := how
  unfold process_watched_clause
  rw [hwlk]
  simp only
  rw [howk]
  simp only
  by_cases hsat : lit_true_under s ow = true
  · rw [if_pos hsat]
    exact ⟨(s, false), rfl⟩
  · rw [if_neg hsat, hcl]
    simp only
    cases hf : find_new_watch s wl cl with
    | some nl =>
      simp only
      obtain ⟨s1, hs1⟩ := apply_move_some hfalv hcids hcid
      rw [hs1]
      exact ⟨(s1, false), rfl⟩
    | none =>
      simp only
      cases hlk : alookup s.variable_to_assignment_nodes
          (some (get_var_from_literal s ow)) with
      | none => exact ⟨_, rfl⟩
      | some m => exact ⟨_, rfl⟩

/-- One conflict-free clause step preserves the trail bundle. -/
lemma trail_wf_process_watched_clause {s s1 : SolverState}
    {falv : Int} {cid : Nat} {flag : Bool}
    (ht : trail_wf s)
    (h : process_watched_clause s (some falv) cid = some (s1, flag))
    (hfl : flag = false) : trail_wf s1 := by
  subst hfl
  rcases process_watched_clause_cases s (some falv) cid s1 false h with
    ⟨wl, ow, hwl, how, hsat, hss, _⟩ |
    ⟨wl, ow, cl, nl, falv2, hwl, how, hsat, hcl, hfind, hfal, hmv, _⟩ |
    ⟨wl, ow, cl, hwl, how, hsat, hcl, hfind, hlk, hss, _⟩ |
    ⟨wl, ow, cl, m, hwl, how, hsat, hcl, hfind, hlk, hss, hfl2⟩
  · exact hss ▸ ht
  · have hnf : nl ≠ falv2 := by
      obtain ⟨_, hnw, _⟩ := find_new_watch_some hfind
      intro he
      subst he
      have := apply_move_falv_mem hmv
      simp [this] at hnw
    obtain ⟨_, _, _, _, _, _, _, _, _, _, hnv, _, hlev, _, _, hstk, hmap,
      _, _⟩ := apply_move_spec hnf hmv
    exact trail_wf_congr hstk hmap hlev hnv ht
  · subst hss
    refine trail_wf_push ht rfl rfl rfl (le_refl _) rfl (level_nonneg ht)
      (fun l hl1 hl2 => Or.inl hl2) hlk
  · simp at hfl2

/-- Processing a duplicate-free batch of clause ids that are all still in
the falsified literal's current watch list never raises; the result is
either a conflict-free well-formed state or a conflict push on a
well-formed state. -/
lemma process_watch_list_ok {falv : Int} :
    ∀ (l : List Nat) (s : SolverState), solver_wf s → trail_wf s →
      l.Nodup →
      (∀ c ∈ l, ∃ cids, alookup s.clauses_watched_by_l (some falv) = some cids ∧
        c ∈ cids) →
      ∃ s1 flag, process_watch_list (some falv) s l = some (s1, flag) ∧
        ((flag = false ∧ bcp_reach_step s s1) ∨
          (flag = true ∧ ∃ s0 cid0, s1 = push_conflict s0 cid0 ∧
            bcp_reach_step s s0)) := by
  intro l
  induction l with
  | nil =>
    intro s hwf ht _ _
    exact ⟨s, false, by rw [process_watch_list],
      Or.inl ⟨rfl, bcp_reach_step_refl hwf ht⟩⟩
  | cons cid rest ih =>
    intro s hwf ht hnd hpend
    obtain ⟨⟨s1, flag1⟩, h1⟩ :=
      process_watched_clause_some hwf (hpend cid (by simp))
    cases flag1 with
    | true =>
      rcases process_watched_clause_cases s (some falv) cid s1 true h1 with
        ⟨_, _, _, _, _, _, hfl⟩ |
        ⟨_, _, _, _, _, _, _, _, _, _, _, hfl⟩ |
        ⟨_, _, _, _, _, _, _, _, _, _, hfl⟩ |
        ⟨wl, ow, cl, m, hwl, how, hsat, hcl, hfind, hlk, hss, _⟩
      · simp at hfl
      · simp at hfl
      · simp at hfl
      · refine ⟨s1, true, ?_, Or.inr ⟨rfl, s, cid, hss,
          bcp_reach_step_refl hwf ht⟩⟩
        rw [process_watch_list, h1]
    | false =>
      have hwf1 : solver_wf s1 := solver_wf_process_watched_clause hwf h1
      have ht1 : trail_wf s1 := trail_wf_process_watched_clause ht h1 rfl
      obtain ⟨hf1, hf2, hf3, hf4, hf5, hf6, ex1, hf7⟩ :=
        process_watched_clause_frame h1
      have hstep : bcp_reach_step s s1 := ⟨hwf1, ht1, hf1, hf3, hf5, ex1, hf7⟩
      have hpend1 : ∀ c ∈ rest,
          ∃ cids1, alookup s1.clauses_watched_by_l (some falv) = some cids1 ∧
            c ∈ cids1 := by
        intro c hc
        obtain ⟨cids, hc1, hc2⟩ := hpend c (by simp [hc])
        have hcne : c ≠ cid := by
          intro he
          subst he
          exact (List.nodup_cons.mp hnd).1 hc
        rcases process_watched_clause_cases s (some falv) cid s1 false h1 with
          ⟨wl, ow, hwl, how, hsat, hss, _⟩ |
          ⟨wl, ow, cl, nl, falv2, hwl, how, hsat, hcl, hfind, hfal, hmv, _⟩ |
          ⟨wl, ow, cl, hwl, how, hsat, hcl, hfind, hlk, hss, _⟩ |
          ⟨wl, ow, cl, m, hwl, how, hsat, hcl, hfind, hlk, hss, hfl2⟩
        · subst hss
          exact ⟨cids, hc1, hc2⟩
        · have hnf : nl ≠ falv2 := by
            obtain ⟨_, hnw, _⟩ := find_new_watch_some hfind
            intro he
            subst he
            have := apply_move_falv_mem hmv
            simp [this] at hnw
          obtain ⟨_, cids0, hc0, _, _, _, _, hupd, _, _, _, _, _, _, _, _,
            _, _, _⟩ := apply_move_spec hnf hmv
          have hfv : falv2 = falv := Option.some.inj hfal.symm
          subst hfv
          have hceq : cids0 = cids := by
            rw [hc0] at hc1
            exact Option.some.inj hc1
          subst hceq
          exact ⟨cids0.erase cid, hupd, (List.mem_erase_of_ne hcne).mpr hc2⟩
        · subst hss
          exact ⟨cids, hc1, hc2⟩
        · simp at hfl2
      obtain ⟨s2, flag, h2, hres⟩ :=
        ih s1 hwf1 ht1 (List.nodup_cons.mp hnd).2 hpend1
      refine ⟨s2, flag, ?_, ?_⟩
      · rw [process_watch_list, h1]
        simp only
        exact h2
      · rcases hres with ⟨hfl, hstep2⟩ | ⟨hfl, s0, cid0, heq, hstep2⟩
        · exact Or.inl ⟨hfl, bcp_reach_step_trans hstep hstep2⟩
        · exact Or.inr ⟨hfl, s0, cid0, heq,
            bcp_reach_step_trans hstep hstep2⟩

/-- The BCP cursor loop never raises and needs at most `N + 1 - ptr`
iterations: every state it reaches is well-formed and the result is
either quiescence or a conflict push. -/
lemma bcp_loop_ok :
    ∀ (fuel : Nat) (s : SolverState) (ptr : Nat), solver_wf s → trail_wf s →
      ptr ≤ s.assignment_stack.length →
      s.num_vars.toNat + 1 ≤ fuel + ptr →
      ∃ s1 r, bcp_loop fuel s ptr = some (s1, r) ∧
        ((r = BCPResult.noConflictR ∧ bcp_reach_step s s1) ∨
          (r = BCPResult.conflictR ∧ ∃ s0 cid0, s1 = push_conflict s0 cid0 ∧
            bcp_reach_step s s0)) := by
  intro fuel
  induction fuel with
  | zero =>
    intro s ptr hwf ht hptr hfuel
    have hlen := stack_length_le_nv hwf.2.1 ht
    omega
  | succ fuel ih =>
    intro s ptr hwf ht hptr hfuel
    rw [bcp_loop]
    by_cases hlt : ptr < s.assignment_stack.length
    · rw [dif_pos hlt]
      simp only []
      obtain ⟨falv, hfal, hfalse⟩ := falsified_literal_ok hwf.2.1 hwf.2.2.1
        (List.get_mem s.assignment_stack ptr hlt)
      rw [hfal]
      simp only []
      set dp := asetdefault s.clauses_watched_by_l (some falv) [] with hdp
      set s0 : SolverState := { s with clauses_watched_by_l := dp.1 }
        with hs0
      have hwf0 : solver_wf s0 := by
        refine ⟨?_, ?_⟩
        · rw [hs0, hdp]
          exact watch_wf_asetdefault s (some falv) hwf.1
        · exact solver_wf_rest_congr rfl rfl rfl rfl hwf.2.1 hwf.2.2.1
            hwf.2.2.2
      have ht0 : trail_wf s0 := trail_wf_congr (s := s) rfl rfl rfl rfl ht
      have hkey : alookup s0.clauses_watched_by_l (some falv) = some dp.2 := by
        rw [hs0]
        simp only
        rw [hdp]
        exact alookup_asetdefault_self _ _ _
      have hnd : dp.2.Nodup := by
        cases hl0 : alookup s.clauses_watched_by_l (some falv) with
        | none =>
          rw [hdp, asetdefault_of_none [] hl0]
          simp
        | some cids =>
          rw [hdp, asetdefault_of_some [] hl0]
          exact (hwf.1.1 _ _ hl0).1
      have hstep0 : bcp_reach_step s s0 :=
        ⟨hwf0, ht0, rfl, rfl, rfl, [], by simp⟩
      obtain ⟨s2, flag1, hpl, hres1⟩ :=
        process_watch_list_ok dp.2.reverse s0 hwf0 ht0
          (List.nodup_reverse.mpr hnd)
          (fun c hc => ⟨dp.2, hkey, List.mem_reverse.mp hc⟩)
      rw [hpl]
      cases flag1 with
      | true =>
        simp only
        rcases hres1 with ⟨hfl, _⟩ | ⟨_, s0b, cid0, heq, hstep1⟩
        · simp at hfl
        · exact ⟨s2, BCPResult.conflictR, rfl, Or.inr ⟨rfl, s0b, cid0, heq,
            bcp_reach_step_trans hstep0 hstep1⟩⟩
      | false =>
        simp only
        rcases hres1 with ⟨_, hstep1⟩ | ⟨hfl, _⟩
        · have hstep01 : bcp_reach_step s s2 :=
            bcp_reach_step_trans hstep0 hstep1
          obtain ⟨hwf2, ht2, hnv2, _, _, ex2, hstk2⟩ := id hstep01
          have hlen2 : ptr + 1 ≤ s2.assignment_stack.length := by
            rw [hstk2, List.length_append]
            omega
          have hfuel2 : s2.num_vars.toNat + 1 ≤ fuel + (ptr + 1) := by
            rw [hnv2]
            omega
          obtain ⟨s1, r, hrec, hres2⟩ := ih s2 (ptr + 1) hwf2 ht2 hlen2 hfuel2
          refine ⟨s1, r, hrec, ?_⟩
          rcases hres2 with ⟨hr, hstep2⟩ | ⟨hr, s0b, cid0, heq, hstep2⟩
          · exact Or.inl ⟨hr, bcp_reach_step_trans hstep01 hstep2⟩
          · exact Or.inr ⟨hr, s0b, cid0, heq,
              bcp_reach_step_trans hstep01 hstep2⟩
        · simp at hfl
    · rw [dif_neg hlt]
      exact ⟨s, BCPResult.noConflictR, rfl,
        Or.inl ⟨rfl, bcp_reach_step_refl hwf ht⟩⟩

/-- A full BCP call from a well-formed state never raises (for the
non-first pass the trail must be nonempty, as it always is then). -/
lemma bcp_ok {s : SolverState} {ft : Bool} {fuel : Nat}
    (hwf : solver_wf s) (ht : trail_wf s)
    (hne : ft = false → s.assignment_stack ≠ [])
    (hfuel : s.num_vars.toNat + 2 ≤ fuel) :
    ∃ s1 r, boolean_constraint_propogation fuel ft s = some (s1, r) ∧
      ((r = BCPResult.noConflictR ∧ bcp_reach_step s s1) ∨
        (r = BCPResult.conflictR ∧ ∃ s0 cid0, s1 = push_conflict s0 cid0 ∧
          bcp_reach_step s s0)) := by
  unfold boolean_constraint_propogation
  cases ft with
  | true =>
    rw [if_pos rfl]
    exact bcp_loop_ok fuel s 0 hwf ht (by omega) (by omega)
  | false =>
    simp only [Bool.false_eq_true, if_false]
    cases hlen : s.assignment_stack.length with
    | zero =>
      exact absurd (List.eq_nil_of_length_eq_zero hlen) (hne rfl)
    | succ n =>
      exact bcp_loop_ok fuel s n hwf ht (by omega) (by omega)

/-- The popping loop of `_backtrack` on a reversed trail split into an
above-target run followed by the kept part: it never raises, stops
exactly at the kept part and deletes exactly the popped variables from
the map. -/
lemma pops_above_run (bl : Int) :
    ∀ (rev1 rev2 : List AssignedNode) (m : List (Option Int × AssignedNode)),
      (∀ n ∈ rev1, bl < n.level) →
      (m.map Prod.fst).Nodup →
      (∀ n ∈ rev1, (alookup m n.var).isSome = true) →
      (rev1.map (fun n => n.var)).Nodup →
      (∀ n, rev2.head? = some n → n.level ≤ bl) →
      ∃ m1, pops_above bl (rev1 ++ rev2) m = some (rev2, m1) ∧
        (m1.map Prod.fst).Nodup ∧
        (∀ k, alookup m1 k =
          if k ∈ rev1.map (fun n => n.var) then none else alookup m k) := by
  intro rev1
  induction rev1 with
  | nil =>
    intro rev2 m _ hnd _ _ hhead
    refine ⟨m, ?_, hnd, ?_⟩
    · cases rev2 with
      | nil => rw [List.nil_append, pops_above]
      | cons n rest =>
        rw [List.nil_append, pops_above]
        rw [if_pos (hhead n rfl)]
    · intro k; simp
  | cons n rest ih =>
    intro rev2 m hgt hnd hsome hvnd hhead
    rw [List.cons_append, pops_above]
    have hnl : ¬ n.level ≤ bl := by
      have := hgt n (by simp)
      omega
    rw [if_neg hnl]
    have hks : (alookup m n.var).isSome = true := hsome n (by simp)
    obtain ⟨v0, hv0⟩ := Option.isSome_iff_exists.mp hks
    obtain ⟨m0, hm0⟩ := adelete_of_mem_key m n.var v0 hv0
    rw [hm0]
    simp only
    have hnd0 : (m0.map Prod.fst).Nodup := adelete_keys_nodup hm0 hnd
    have hself : alookup m0 n.var = none := adelete_lookup_self hm0 hnd
    have hother : ∀ k, k ≠ n.var → alookup m0 k = alookup m k :=
      fun k hk => alookup_adelete_ne m m0 n.var k hm0 hk
    have hvnd2 : ((fun n2 => n2.var) n :: rest.map (fun n2 => n2.var)).Nodup := by
      rw [← List.map_cons]
      exact hvnd
    have hvne : ∀ n2 ∈ rest, n2.var ≠ n.var := by
      intro n2 hn2 he
      have h1 := (List.nodup_cons.mp hvnd2).1
      simp only [List.mem_map] at h1
      exact h1 ⟨n2, hn2, he⟩
    have hsome0 : ∀ n2 ∈ rest, (alookup m0 n2.var).isSome = true := by
      intro n2 hn2
      rw [hother n2.var (hvne n2 hn2)]
      exact hsome n2 (by simp [hn2])
    obtain ⟨m1, hrec, hnd1, hchar⟩ := ih rev2 m0
      (fun a ha => hgt a (by simp [ha])) hnd0 hsome0
      (List.nodup_cons.mp hvnd2).2 hhead
    refine ⟨m1, hrec, hnd1, ?_⟩
    intro k
    rw [hchar k]
    by_cases hk1 : k ∈ rest.map (fun n2 => n2.var)
    · rw [if_pos hk1, if_pos (by simp [hk1])]
    · rw [if_neg hk1]
      by_cases hk2 : k = n.var
      · subst hk2
        rw [if_pos (by simp), hself]
      · rw [if_neg (by
          simp only [List.map_cons, List.mem_cons]
          intro hor
          rcases hor with h | h
          · exact hk2 h
          · exact hk1 h), hother k hk2]

/-- Handling a conflict at a positive decision level never raises: the
analysis pops the sentinel and returns the flip, the backtracker pops
exactly the top-level run and pushes the flip, the result is well-formed
again and the termination measure strictly increases. -/
lemma conflict_step_ok {s0 : SolverState} {cid0 : Nat}
    (hwf : solver_wf s0) (ht : trail_wf s0) (hL : s0.level ≠ 0) :
    ∃ nd s3,
      find_backtrack (push_conflict s0 cid0) =
        some (s0, s0.level - 1, some nd) ∧
      backtrack s0 (s0.level - 1) (some nd) = some s3 ∧
      solver_wf s3 ∧ trail_wf s3 ∧
      s3.num_vars = s0.num_vars ∧ s3.res = s0.res ∧
      s3.assignment_stack ≠ [] ∧
      mu s0 + 1 ≤ mu s3 := by
  have hpos : 1 ≤ s0.level := by
    have := level_nonneg ht
    omega
  -- the conflict analysis
  have hmono2 : List.Pairwise (fun a b => a.level ≤ b.level)
      (s0.assignment_stack ++
        [{ var := none, value := none, level := s0.level,
           clause := some cid0,
           index := (s0.assignment_stack.length : Int) }]) := by
    refine List.pairwise_append.mpr ⟨ht.mono, List.pairwise_singleton _ _, ?_⟩
    intro a ha b hb
    simp only [List.mem_singleton] at hb
    subst hb
    exact (ht.bounds a ha).2
  obtain ⟨d, hfind, hfb⟩ := find_backtrack_pos_spec (push_conflict s0 cid0)
    s0.assignment_stack
    { var := none, value := none, level := s0.level, clause := some cid0,
      index := (s0.assignment_stack.length : Int) }
    s0.level rfl rfl hpos hmono2 (ht.inhab s0.level hpos (le_refl _))
  have hcollapse : ({ push_conflict s0 cid0 with
      assignment_stack := s0.assignment_stack } : SolverState) = s0 := rfl
  rw [hcollapse] at hfb
  -- split the trail below the conflict level
  set p : AssignedNode → Bool := fun n => decide (n.level < s0.level)
    with hp
  set t0 := s0.assignment_stack.takeWhile p with ht0
  set t1 := s0.assignment_stack.dropWhile p with ht1
  have htsplit : t0 ++ t1 = s0.assignment_stack := by
    rw [ht0, ht1]
    exact List.takeWhile_append_dropWhile _ _
  have ht0lt : ∀ n ∈ t0, n.level < s0.level := by
    intro n hn
    have := List.mem_takeWhile_imp hn
    rw [hp] at this
    simpa using this
  have hsub0 : ∀ n ∈ t0, n ∈ s0.assignment_stack := by
    intro n hn
    rw [← htsplit]
    exact List.mem_append_left _ hn
  have hsub1 : ∀ n ∈ t1, n ∈ s0.assignment_stack := by
    intro n hn
    rw [← htsplit]
    exact List.mem_append_right _ hn
  have ht1all : ∀ n ∈ t1, n.level = s0.level := by
    cases hc : t1 with
    | nil => intro n hn; simp at hn
    | cons h1 r1 =>
      have hh1f : p h1 = false := by
        refine head?_dropWhile_false p s0.assignment_stack h1 ?_
        rw [← ht1, hc]
        rfl
      have hh1 : ¬ h1.level < s0.level := by
        rw [hp] at hh1f
        simpa using hh1f
      have hh1lev : h1.level = s0.level := by
        have := (ht.bounds h1 (hsub1 h1 (by rw [hc]; simp))).2
        omega
      have hpw1 : List.Pairwise (fun a b => a.level ≤ b.level) t1 := by
        have := List.pairwise_append.mp (htsplit ▸ ht.mono)
        exact this.2.1
      rw [hc] at hpw1
      have hpw2 := (List.pairwise_cons.mp hpw1).1
      intro n hn
      rcases List.mem_cons.mp hn with hne | hnr
      · rw [hne, hh1lev]
      · have h1le := hpw2 n hnr
        have := (ht.bounds n (hsub1 n (by rw [hc]; simp [hnr]))).2
        omega
  have hstackne : s0.assignment_stack ≠ [] := by
    intro h2
    exact hL (ht.empty_zero h2)
  have ht1ne : t1 ≠ [] := by
    intro he
    have hteq : s0.assignment_stack = t0 := by
      rw [← htsplit, he, List.append_nil]
    obtain ⟨x, hx⟩ : ∃ x, s0.assignment_stack.getLast? = some x :=
      ⟨_, List.getLast?_eq_getLast_of_ne_nil hstackne⟩
    have hlast := ht.top x hx
    rw [hteq] at hx
    have hmemx := mem_of_getLast?_eq hx
    have := ht0lt x hmemx
    omega
  -- the flip node is a real top-level node
  have hdt1 : d ∈ t1 := by
    rw [← htsplit] at hfind
    have h0none : t0.find? (fun n => decide (n.level = s0.level)) = none := by
      refine find?_eq_none_of_all_false _ t0 ?_
      intro x hx
      have := ht0lt x hx
      simp
      omega
    rw [find?_append_of_none _ t0 t1 h0none] at hfind
    exact List.mem_of_find?_eq_some hfind
  obtain ⟨⟨dv, hdv, hdv1, hdv2⟩, db, hdb⟩ := hwf.2.1 d (hsub1 d hdt1)
  -- variable disjointness of the two parts
  have hvnd : (List.map (fun n => n.var) t0 ++
      List.map (fun n => n.var) t1).Nodup := by
    rw [← List.map_append, htsplit]
    exact ht.vars_nodup
  have hdisj := (List.nodup_append.mp hvnd).2.2
  -- run the popping loop
  have hrev : s0.assignment_stack.reverse = t1.reverse ++ t0.reverse := by
    rw [← htsplit, List.reverse_append]
  obtain ⟨m1, hpops, hnd1, hchar⟩ := pops_above_run (s0.level - 1)
    t1.reverse t0.reverse s0.variable_to_assignment_nodes
    (by
      intro n hn
      have := ht1all n (List.mem_reverse.mp hn)
      omega)
    ht.keys_nodup
    (by
      intro n hn
      rw [ht.dom]
      exact List.mem_map.mpr ⟨n, hsub1 n (List.mem_reverse.mp hn), rfl⟩)
    (by
      rw [List.map_reverse]
      exact List.nodup_reverse.mpr (List.nodup_append.mp hvnd).2.1)
    (by
      intro n hn
      rw [List.head?_reverse] at hn
      have hmem := mem_of_getLast?_eq hn
      have := ht0lt n hmem
      omega)
  -- the backtrack computation, with the double reversal collapsed
  set nd1 : AssignedNode := { var := d.var, value := some (pyNot d.value), level := s0.level - 1, clause := none, index := (t0.length : Int) } with hnd1def
  set sF : SolverState := { s0 with
      level := s0.level - 1,
      assignment_stack := t0 ++ [nd1],
      variable_to_assignment_nodes := ainsert m1 d.var nd1,
      num_implications := s0.num_implications + 1 } with hsF
  have hbt : backtrack s0 (s0.level - 1)
      (some { var := d.var, value := some (pyNot d.value),
              level := s0.level - 1, clause := none, index := -1 }) =
      some sF := by
    unfold backtrack
    rw [hrev, hpops]
    simp only [List.reverse_reverse]
  -- membership bookkeeping
  have hdvart1 : d.var ∈ List.map (fun n => n.var) t1 :=
    List.mem_map.mpr ⟨d, hdt1, rfl⟩
  have hnd0map : (List.map (fun n => n.var) t0).Nodup :=
    (List.nodup_append.mp hvnd).1
  have hdisj := (List.nodup_append.mp hvnd).2.2
  have hrevmap : List.map (fun n => n.var) t1.reverse =
      (List.map (fun n => n.var) t1).reverse := List.map_reverse _ _
  have ht0lev : ∀ n ∈ t0, 0 ≤ n.level ∧ n.level ≤ s0.level - 1 := by
    intro n hn
    have h1 := (ht.bounds n (hsub0 n hn)).1
    have h2 := ht0lt n hn
    omega
  -- well-formedness of the backtracked state
  have hsno : stack_nodes_ok sF := by
    intro n hn
    rw [hsF] at hn
    simp only at hn
    rcases List.mem_append.mp hn with h0 | h1
    · exact hwf.2.1 n (hsub0 n h0)
    · simp only [List.mem_singleton] at h1
      subst h1
      exact ⟨⟨dv, hdv, hdv1, hdv2⟩, pyNot d.value, rfl⟩
  have hmc : map_consistent sF := by
    intro n hn
    rw [hsF] at hn
    simp only at hn
    rcases List.mem_append.mp hn with h0 | h1
    · have hne : n.var ≠ d.var := by
        intro he
        exact hdisj (List.mem_map.mpr ⟨n, h0, rfl⟩) (he ▸ hdvart1)
      rw [hsF]
      simp only
      rw [alookup_ainsert_ne _ _ _ _ hne, hchar n.var,
        if_neg (by
          rw [hrevmap]
          intro hmem
          exact hdisj (List.mem_map.mpr ⟨n, h0, rfl⟩)
            (List.mem_reverse.mp hmem))]
      exact hwf.2.2.1 n (hsub0 n h0)
    · simp only [List.mem_singleton] at h1
      subst h1
      rw [hsF]
      simp only
      exact ⟨nd1, alookup_ainsert_self _ _ _, rfl⟩
  have hco : clauses_ok sF := hwf.2.2.2
  have hwatch : watch_wf sF := watch_wf_congr rfl rfl rfl rfl hwf.1
  have htF : trail_wf sF := by
    refine ⟨?_, ?_, ?_, ?_, ?_, ?_, ?_, ?_, ?_⟩
    · rw [hsF]
      simp only [List.map_append]
      refine List.Nodup.append hnd0map ?_ ?_
      · exact List.nodup_singleton _
      · intro a ha hb
        simp only [hnd1def, List.map_cons, List.map_nil,
          List.mem_singleton] at hb
        subst hb
        exact hdisj ha hdvart1
    · rw [hsF]
      simp only
      exact ainsert_keys_nodup _ _ hnd1
    · intro k
      rw [hsF]
      simp only [List.map_append]
      by_cases hk : k = d.var
      · subst hk
        rw [alookup_ainsert_self]
        simp [hnd1def]
      · rw [alookup_ainsert_ne _ _ _ _ hk, hchar k]
        by_cases hk1 : k ∈ List.map (fun n => n.var) t1.reverse
        · rw [if_pos hk1]
          have hk1m : k ∈ List.map (fun n => n.var) t1 := by
            rw [hrevmap] at hk1
            exact List.mem_reverse.mp hk1
          simp only [Option.isSome_none]
          constructor
          · intro h; simp at h
          · intro hmem
            exfalso
            rcases List.mem_append.mp hmem with h0 | h1
            · exact hdisj h0 hk1m
            · simp only [hnd1def, List.map_cons, List.map_nil,
                List.mem_singleton] at h1
              exact hk h1
        · rw [if_neg hk1]
          have hk1m : k ∉ List.map (fun n => n.var) t1 := by
            intro hmem
            exact hk1 (by
              rw [hrevmap]
              exact List.mem_reverse.mpr hmem)
          rw [ht.dom k, ← htsplit, List.map_append]
          constructor
          · intro hmem
            rcases List.mem_append.mp hmem with h0 | h1
            · exact List.mem_append_left _ h0
            · exact absurd h1 hk1m
          · intro hmem
            rcases List.mem_append.mp hmem with h0 | h1
            · exact List.mem_append_left _ h0
            · simp only [hnd1def, List.map_cons, List.map_nil,
                List.mem_singleton] at h1
              exact absurd h1 hk
    · rw [hsF]
      simp only
      refine List.pairwise_append.mpr
        ⟨(List.pairwise_append.mp (htsplit ▸ ht.mono)).1,
          List.pairwise_singleton _ _, ?_⟩
      intro a ha b hb
      simp only [List.mem_singleton] at hb
      subst hb
      rw [hnd1def]
      have := ht0lt a ha
      simp only
      omega
    · intro n hn
      rw [hsF] at hn ⊢
      simp only at hn ⊢
      rcases List.mem_append.mp hn with h0 | h1
      · exact ht0lev n h0
      · simp only [List.mem_singleton] at h1
        subst h1
        rw [hnd1def]
        simp only
        omega
    · intro n hgl
      rw [hsF] at hgl ⊢
      simp only [List.getLast?_concat] at hgl
      cases hgl
      rw [hnd1def]
    · intro habs
      rw [hsF] at habs
      simp at habs
    · intro l hl1 hl2
      rw [hsF] at hl2 ⊢
      simp only at hl2 ⊢
      obtain ⟨n, hn, hnl⟩ := ht.inhab l hl1 (by omega)
      rw [← htsplit] at hn
      rcases List.mem_append.mp hn with h0 | h1
      · exact ⟨n, List.mem_append_left _ h0, hnl⟩
      · have := ht1all n h1
        omega
    · exact ht.nv_nonneg
  -- the measure strictly increases
  have hmuF : mu s0 + 1 ≤ mu sF := by
    have hmu0 : mu s0 = muList s0.num_vars t0 + muList s0.num_vars t1 := by
      rw [mu, ← htsplit, muList_append]
    have hmu1 : muList s0.num_vars t1 =
        t1.length * Bse s0.num_vars ^ (s0.num_vars - s0.level).toNat :=
      muList_const_level t1 ht1all
    have hmuS : mu sF = muList s0.num_vars t0 +
        Bse s0.num_vars ^ (s0.num_vars - (s0.level - 1)).toNat := by
      rw [mu, hsF]
      simp only
      rw [muList_append]
      simp [muList, node_weight, hnd1def]
    have hlen1 : t1.length ≤ s0.num_vars.toNat := by
      have h1 := stack_length_le_nv hwf.2.1 ht
      have h2 : t0.length + t1.length = s0.assignment_stack.length := by
        rw [← htsplit, List.length_append]
      omega
    have hLN : s0.level ≤ s0.num_vars := level_le_nv hwf.2.1 ht
    have hexp : (s0.num_vars - (s0.level - 1)).toNat =
        (s0.num_vars - s0.level).toNat + 1 := by omega
    rw [hmu0, hmu1, hmuS, hexp, pow_succ]
    have hpk : 1 ≤ Bse s0.num_vars ^ (s0.num_vars - s0.level).toNat :=
      Nat.one_le_pow _ _ (by
        show 0 < s0.num_vars.toNat + 2
        omega)
    have hBle : t1.length + 2 ≤ Bse s0.num_vars := by
      show t1.length + 2 ≤ s0.num_vars.toNat + 2
      omega
    have h3 : Bse s0.num_vars ^ (s0.num_vars - s0.level).toNat *
        (t1.length + 2) ≤
        Bse s0.num_vars ^ (s0.num_vars - s0.level).toNat *
          Bse s0.num_vars :=
      Nat.mul_le_mul_left _ hBle
    have h4 : Bse s0.num_vars ^ (s0.num_vars - s0.level).toNat *
        (t1.length + 2) =
        t1.length * Bse s0.num_vars ^ (s0.num_vars - s0.level).toNat +
          2 * Bse s0.num_vars ^ (s0.num_vars - s0.level).toNat := by
      ring
    omega
  exact ⟨{ var := d.var, value := some (pyNot d.value), level := s0.level - 1, clause := none, index := -1 }, sF, hfb, hbt, ⟨hwatch, hsno, hmc, hco⟩, htF, rfl, rfl, by simp [hsF], hmuF⟩

lemma mu_append_one (N : Int) (l : List AssignedNode) (n : AssignedNode) :
    muList N l + 1 ≤ muList N (l ++ [n]) := by
  rw [muList_append]
  have h := node_weight_pos N n
  have h2 : node_weight N n ≤ muList N [n] := by
    simp [muList]
  omega

/-- The variable scan of `_decide` returns `-1` or the first unassigned
variable in the scanned range. -/
lemma find_unassigned_var_spec (s : SolverState) :
    ∀ (k : Nat) (x : Int),
      find_unassigned_var s k x = -1 ∨
        (x ≤ find_unassigned_var s k x ∧
          find_unassigned_var s k x < x + k ∧
          alookup s.variable_to_assignment_nodes
            (some (find_unassigned_var s k x)) = none) := by
  intro k
  induction k with
  | zero => intro x; left; rw [find_unassigned_var]
  | succ k ih =>
    intro x
    rw [find_unassigned_var]
    by_cases hx : (alookup s.variable_to_assignment_nodes (some x)).isNone =
        true
    · rw [if_pos hx]
      right
      refine ⟨le_refl _, by omega, ?_⟩
      rwa [Option.isNone_iff_eq_none] at hx
    · rw [if_neg hx]
      rcases ih (x + 1) with h | ⟨h1, h2, h3⟩
      · left; exact h
      · right; exact ⟨by omega, by omega, h3⟩

/-- `_decide` either reports everything assigned (`-1`, state unchanged)
or pushes one fresh decision, staying well-formed and strictly
increasing the measure. -/
lemma decide_next_ok {s : SolverState} (hwf : solver_wf s)
    (ht : trail_wf s) :
    ((decide_next s).2 = -1 ∧ (decide_next s).1 = s) ∨
      ((decide_next s).2 ≠ -1 ∧ solver_wf (decide_next s).1 ∧
        trail_wf (decide_next s).1 ∧
        (decide_next s).1.num_vars = s.num_vars ∧
        (decide_next s).1.res = s.res ∧
        (decide_next s).1.assignment_stack ≠ [] ∧
        mu s + 1 ≤ mu (decide_next s).1) := by
  unfold decide_next
  simp only
  rcases find_unassigned_var_spec s s.num_vars.toNat 1 with h | ⟨h1, h2, h3⟩
  · rw [h]
    simp
  · set r := find_unassigned_var s s.num_vars.toNat 1 with hr
    have hne : ¬ r = -1 := by omega
    rw [if_neg hne]
    simp only
    right
    have hr1 : 1 ≤ r := h1
    have hr2 : r ≤ s.num_vars := by
      have := ht.nv_nonneg
      omega
    set nd : AssignedNode := { var := some r, value := some true, level := s.level + 1, clause := none, index := (s.assignment_stack.length : Int) } with hnd
    have hnotmem : some r ∉ s.assignment_stack.map (fun n => n.var) := by
      intro hmem
      have h4 := (ht.dom (some r)).mpr hmem
      rw [h3] at h4
      simp at h4
    refine ⟨hne, ⟨?_, ?_, ?_, hwf.2.2.2⟩, ?_, by trivial, by trivial, by simp, ?_⟩
    · exact watch_wf_congr rfl rfl rfl rfl hwf.1
    · intro n hn
      simp only at hn
      rcases List.mem_append.mp hn with h0 | h1b
      · exact hwf.2.1 n h0
      · simp only [List.mem_singleton] at h1b
        subst h1b
        exact ⟨⟨r, rfl, hr1, hr2⟩, true, rfl⟩
    · intro n hn
      simp only at hn ⊢
      rcases List.mem_append.mp hn with h0 | h1b
      · have hvne : n.var ≠ some r := by
          intro he
          exact hnotmem (he ▸ List.mem_map.mpr ⟨n, h0, rfl⟩)
        rw [alookup_ainsert_ne _ _ _ _ hvne]
        exact hwf.2.2.1 n h0
      · simp only [List.mem_singleton] at h1b
        subst h1b
        rw [hnd]
        exact ⟨nd, alookup_ainsert_self _ _ _, rfl⟩
    · refine trail_wf_push ht rfl rfl rfl (by omega) rfl ?_ ?_ h3
      · have := level_nonneg ht
        omega
      · intro l hl1 hl2
        omega
    · exact mu_append_one s.num_vars s.assignment_stack nd

/-- The conflict loop of `solve` never raises and terminates within
`muBound` conflicts: it ends in quiescence or in a root-level UNSAT. -/
lemma inner_loop_ok :
    ∀ (fuel : Nat) (ft : Bool) (s : SolverState), solver_wf s →
      trail_wf s →
      (ft = false → s.assignment_stack ≠ []) →
      muBound s.num_vars < mu s + fuel →
      ∃ s1, inner_loop (s.num_vars.toNat + 2) fuel ft s = some s1 ∧
        (s1.res = Verdict.vUnsat ∨
          (solver_wf s1 ∧ trail_wf s1 ∧ s1.num_vars = s.num_vars ∧
            s1.res = s.res ∧ mu s ≤ mu s1)) := by
  intro fuel
  induction fuel with
  | zero =>
    intro ft s hwf ht _ hfuel
    have := mu_lt_bound hwf.2.1 ht
    omega
  | succ fuel ih =>
    intro ft s hwf ht hne hfuel
    rw [inner_loop]
    obtain ⟨sb, r, hbcp, hres⟩ := bcp_ok hwf ht hne (le_refl _)
    rw [hbcp]
    rcases hres with ⟨hr, hstep⟩ | ⟨hr, s0, cid0, heq, hstep⟩
    · subst hr
      simp only
      exact ⟨sb, rfl, Or.inr ⟨hstep.1, hstep.2.1, hstep.2.2.1,
        hstep.2.2.2.2.1, mu_le_of_reach_step hstep⟩⟩
    · subst hr
      subst heq
      simp only
      by_cases hL0 : s0.level = 0
      · have hfb0 : find_backtrack (push_conflict s0 cid0) =
            some (push_conflict s0 cid0, -1, none) := by
          unfold find_backtrack
          rw [show (push_conflict s0 cid0).assignment_stack =
            s0.assignment_stack ++ [{ var := none, value := none, level := s0.level, clause := some cid0, index := (s0.assignment_stack.length : Int) }] from rfl]
          rw [List.getLast?_concat]
          simp only
          rw [if_pos hL0]
        rw [hfb0]
        simp only
        exact ⟨{ push_conflict s0 cid0 with res := Verdict.vUnsat },
          by simp, Or.inl rfl⟩
      · obtain ⟨nd, s3, hfb, hbt, hwf3, ht3, hnv3, hres3, hne3, hmu3⟩ :=
          conflict_step_ok hstep.1 hstep.2.1 hL0
        rw [hfb]
        simp only
        have hbl : ¬ (s0.level - 1 = -1) := by
          have := level_nonneg hstep.2.1
          omega
        rw [if_neg hbl, hbt]
        simp only
        have hnveq : s3.num_vars = s.num_vars :=
          hnv3.trans hstep.2.2.1
        have hm0 : mu s ≤ mu s0 := mu_le_of_reach_step hstep
        have hfuel3 : muBound s3.num_vars < mu s3 + fuel := by
          rw [hnveq]
          omega
        obtain ⟨s1, hrec, hres1⟩ := ih false s3 hwf3 ht3 (fun _ => hne3)
          hfuel3
        rw [hnveq] at hrec
        refine ⟨s1, hrec, ?_⟩
        rcases hres1 with h | ⟨ha, hb, hc, hd, he2⟩
        · exact Or.inl h
        · refine Or.inr ⟨ha, hb, hc.trans hnveq, ?_, by omega⟩
          rw [hd, hres3, hstep.2.2.2.2.1]

/-- The decide loop of `solve` never raises and terminates within
`muBound` decisions. -/
lemma outer_loop_ok :
    ∀ (fuel : Nat) (ft : Bool) (s : SolverState), solver_wf s →
      trail_wf s →
      (ft = false → s.assignment_stack ≠ []) →
      muBound s.num_vars < mu s + fuel →
      ∃ s1, outer_loop (s.num_vars.toNat + 2) (muBound s.num_vars + 1)
          fuel ft s = some s1 := by
  intro fuel
  induction fuel with
  | zero =>
    intro ft s hwf ht _ hfuel
    have := mu_lt_bound hwf.2.1 ht
    omega
  | succ fuel ih =>
    intro ft s hwf ht hne hfuel
    rw [outer_loop]
    obtain ⟨s1, hinner, hres⟩ := inner_loop_ok (muBound s.num_vars + 1)
      ft s hwf ht hne (by omega)
    rw [hinner]
    simp only
    by_cases hU : s1.res = Verdict.vUnsat
    · rw [if_pos hU]
      exact ⟨s1, rfl⟩
    · rw [if_neg hU]
      rcases hres with h | ⟨hwf1, ht1, hnv1, hres1, hmu1⟩
      · exact absurd h hU
      rcases decide_next_ok hwf1 ht1 with ⟨hd1, hd2⟩ |
        ⟨hd1, hwf2, ht2, hnv2, hres2, hne2, hmu2⟩
      · rw [if_pos hd1]
        exact ⟨_, rfl⟩
      · rw [if_neg hd1]
        have hnveq : (decide_next s1).1.num_vars = s.num_vars :=
          hnv2.trans hnv1
        have hfuel2 : muBound (decide_next s1).1.num_vars <
            mu (decide_next s1).1 + fuel := by
          rw [hnveq]
          omega
        obtain ⟨s2, hrec⟩ := ih false (decide_next s1).1 hwf2 ht2
          (fun _ => hne2) hfuel2
        rw [hnveq] at hrec
        exact ⟨s2, hrec⟩

/-! ## Well-formed DIMACS input and ingestion -/

/-- A well-formed clause line: a nonempty literal list terminated by `0`,
every literal a nonzero integer whose variable is within the declared
count. -/
def wf_clause_tokens (N : Int) (toks : List Int) : Prop :=
  ∃ lits, toks = lits ++ [0] ∧ lits ≠ [] ∧
    ∀ t ∈ lits, t ≠ 0 ∧ -N ≤ t ∧ t ≤ N

lemma dedup_keep_first_go_subset {α : Type} [DecidableEq α] :
    ∀ (l seen : List α) (x : α), x ∈ dedup_keep_first.go seen l → x ∈ l := by
  intro l
  induction l with
  | nil => intro seen x hx; rw [dedup_keep_first.go] at hx; simp at hx
  | cons a t ih =>
    intro seen x hx
    rw [dedup_keep_first.go] at hx
    by_cases ha : a ∈ seen
    · rw [if_pos ha] at hx
      exact List.mem_cons_of_mem _ (ih seen x hx)
    · rw [if_neg ha] at hx
      rcases List.mem_cons.mp hx with hxa | hxt
      · rw [hxa]; simp
      · exact List.mem_cons_of_mem _ (ih _ x hxt)

lemma dedup_keep_first_subset {α : Type} [DecidableEq α] (l : List α) :
    ∀ x ∈ dedup_keep_first l, x ∈ l := by
  intro x hx
  exact dedup_keep_first_go_subset l [] x hx

lemma dedup_keep_first_cons_ne_nil {α : Type} [DecidableEq α]
    (x : α) (rest : List α) : dedup_keep_first (x :: rest) ≠ [] := by
  rw [dedup_keep_first, dedup_keep_first.go, if_neg (by simp)]
  simp

lemma stack_nodes_ok_congr {s s2 : SolverState}
    (hst : s2.assignment_stack = s.assignment_stack)
    (hn : s2.num_vars = s.num_vars) (h : stack_nodes_ok s) :
    stack_nodes_ok s2 := by
  unfold stack_nodes_ok at h ⊢
  rw [hst, hn]
  exact h

lemma map_consistent_congr {s s2 : SolverState}
    (hst : s2.assignment_stack = s.assignment_stack)
    (hm : s2.variable_to_assignment_nodes = s.variable_to_assignment_nodes)
    (h : map_consistent s) : map_consistent s2 := by
  unfold map_consistent at h ⊢
  rw [hst, hm]
  exact h

/-- Ingesting a well-formed clause line never raises: the unit path
either assigns, detects a root contradiction (code `0`, result UNSAT) or
skips, and the storage path stores the clause; every case stays
well-formed at level `0`. -/
lemma add_clause_ok {s : SolverState} {toks : List Int}
    (hwf : solver_wf s) (ht : trail_wf s) (hlev : s.level = 0)
    (hcl : wf_clause_tokens s.num_vars toks) :
    ∃ s1 r, add_clause s toks = some (s1, r) ∧ (r = 0 ∨ r = 1) ∧
      solver_wf s1 ∧ trail_wf s1 ∧ s1.num_vars = s.num_vars ∧
      s1.level = 0 ∧
      (r = 0 → s1.res = Verdict.vUnsat) ∧ (r = 1 → s1.res = s.res) := by
  obtain ⟨lits, htoks, hne, hrange⟩ := hcl
  have hdl : toks.dropLast = lits := by
    rw [htoks]
    exact List.dropLast_concat
  have hclrange : ∀ t ∈ dedup_keep_first lits,
      t ≠ 0 ∧ -s.num_vars ≤ t ∧ t ≤ s.num_vars :=
    fun t htm => hrange t (dedup_keep_first_subset lits t htm)
  by_cases hlen : (dedup_keep_first lits).length = 1
  · unfold add_clause
    rw [hdl]
    simp only
    rw [if_pos hlen]
    obtain ⟨lit, hlit⟩ := List.length_eq_one.mp hlen
    rw [hlit]
    simp only [List.get?]
    have hlitrange := hclrange lit (by rw [hlit]; simp)
    cases hlk : alookup s.variable_to_assignment_nodes
        (some (if lit < 0 then -lit else lit)) with
    | none =>
      simp only
      refine ⟨_, 1, rfl, Or.inr rfl, ⟨?_, ?_, ?_, hwf.2.2.2⟩, ?_, rfl,
        hlev, fun h0 => absurd h0 (by decide), fun _ => rfl⟩
      · exact watch_wf_congr rfl rfl rfl rfl hwf.1
      · intro n hn
        simp only at hn
        rcases List.mem_append.mp hn with h0 | h1b
        · exact hwf.2.1 n h0
        · simp only [List.mem_singleton] at h1b
          subst h1b
          refine ⟨⟨if lit < 0 then -lit else lit, rfl, ?_, ?_⟩,
            !(decide (lit < 0)), rfl⟩
          · rcases hlitrange with ⟨h1, h2, h3⟩
            split_ifs <;> omega
          · rcases hlitrange with ⟨h1, h2, h3⟩
            show (if lit < 0 then -lit else lit) ≤ s.num_vars
            split_ifs <;> omega
      · intro n hn
        simp only at hn ⊢
        rcases List.mem_append.mp hn with h0 | h1b
        · have hvne : n.var ≠ some (if lit < 0 then -lit else lit) := by
            intro he
            have hmem : n.var ∈ s.assignment_stack.map (fun n2 => n2.var) :=
              List.mem_map.mpr ⟨n, h0, rfl⟩
            rw [he] at hmem
            have h4 := (ht.dom _).mpr hmem
            rw [hlk] at h4
            simp at h4
          rw [alookup_ainsert_ne _ _ _ _ hvne]
          exact hwf.2.2.1 n h0
        · simp only [List.mem_singleton] at h1b
          subst h1b
          exact ⟨_, alookup_ainsert_self _ _ _, rfl⟩
      · refine trail_wf_push ht rfl rfl rfl (by omega) ?_ (le_refl _)
          (fun l hl1 hl2 => by omega) hlk
        exact hlev
    | some nodeX =>
      simp only
      by_cases hvv : nodeX.value ≠ some (!(decide (lit < 0)))
      · rw [if_pos hvv]
        obtain ⟨a2, b2, c2⟩ := solver_wf_rest_congr rfl rfl rfl rfl
          hwf.2.1 hwf.2.2.1 hwf.2.2.2
        exact ⟨_, 0, rfl, Or.inl rfl,
          ⟨watch_wf_congr rfl rfl rfl rfl hwf.1, a2, b2, c2⟩,
          trail_wf_congr (s := s) rfl rfl rfl rfl ht, rfl, hlev,
          fun _ => rfl, fun h1 => absurd h1 (by decide)⟩
      · rw [if_neg hvv]
        exact ⟨s, 1, rfl, Or.inr rfl, hwf, ht, rfl, hlev,
          fun h0 => absurd h0 (by decide), fun _ => rfl⟩
  · have hne2 : dedup_keep_first lits ≠ [] := by
      cases lits with
      | nil => exact absurd rfl hne
      | cons x r0 => exact dedup_keep_first_cons_ne_nil x r0
    have hlen2 : 2 ≤ (dedup_keep_first lits).length := by
      have h1 : (dedup_keep_first lits).length ≠ 0 := by
        intro h0
        exact hne2 (List.length_eq_zero.mp h0)
      omega
    obtain ⟨a, tl, hab0⟩ : ∃ a tl, dedup_keep_first lits = a :: tl := by
      cases hc : dedup_keep_first lits with
      | nil => exact absurd hc hne2
      | cons a tl => exact ⟨a, tl, rfl⟩
    obtain ⟨b, rest2, hab1⟩ : ∃ b rest2, tl = b :: rest2 := by
      cases hc : tl with
      | nil =>
        rw [hc] at hab0
        rw [hab0] at hlen2
        simp at hlen2
      | cons b r2 => exact ⟨b, r2, rfl⟩
    have hget : ∀ t, t ∈ (a :: b :: rest2) →
        t ≠ 0 ∧ -s.num_vars ≤ t ∧ t ≤ s.num_vars := by
      rw [← hab1, ← hab0]
      exact hclrange
    have haddwf : ∃ S1, add_clause s toks = some (S1, 1) ∧
        S1.assignment_stack = s.assignment_stack ∧
        S1.variable_to_assignment_nodes =
          s.variable_to_assignment_nodes ∧
        S1.level = s.level ∧ S1.num_vars = s.num_vars ∧
        S1.res = s.res ∧ clauses_ok S1 := by
      unfold add_clause
      rw [hdl]
      simp only
      rw [if_neg hlen, hab0, hab1]
      simp only [List.map_cons, List.get?]
      refine ⟨_, rfl, rfl, rfl, rfl, rfl, rfl, ?_⟩
      intro cl2 hcl2 l hl
      show 1 ≤ l ∧ l ≤ 2 * s.num_vars
      simp only at hcl2
      rcases List.mem_append.mp hcl2 with h0 | h1
      · exact hwf.2.2.2 cl2 h0 l hl
      · simp only [List.mem_singleton] at h1
        subst h1
        rcases List.mem_cons.mp hl with hla | hl2
        · obtain ⟨h1a, h2a, h3a⟩ := hget a (by simp)
          rw [hla]
          split_ifs <;> omega
        · rcases List.mem_cons.mp hl2 with hlb | hl3
          · obtain ⟨h1b, h2b, h3b⟩ := hget b (by simp)
            rw [hlb]
            split_ifs <;> omega
          · obtain ⟨t, htm, hte⟩ := List.mem_map.mp hl3
            obtain ⟨h1t, h2t, h3t⟩ := hget t (by simp [htm])
            rw [← hte]
            split_ifs <;> omega
    obtain ⟨S1, haddeq, hst1, hm1, hl1, hn1, hr1, hco1⟩ := haddwf
    have hrange2 : ∀ t ∈ dedup_keep_first toks.dropLast,
        t ≠ 0 ∧ -s.num_vars ≤ t ∧ t ≤ s.num_vars := by
      rw [hdl]
      exact hclrange
    exact ⟨S1, 1, haddeq, Or.inr rfl,
      ⟨watch_wf_add_clause hwf.1 hrange2 haddeq,
        stack_nodes_ok_congr hst1 hn1 hwf.2.1,
        map_consistent_congr hst1 hm1 hwf.2.2.1, hco1⟩,
      trail_wf_congr hst1 hm1 hl1 hn1 ht, hn1, hl1.trans hlev,
      fun h0 => absurd h0 (by decide), fun _ => hr1⟩

/-- Ingesting a stream of comment and well-formed clause lines never
raises; it ends well-formed at level `0`, or stops early having
concluded UNSAT on the unit-clause path. -/
lemma read_lines_ok :
    ∀ (lines : List DimacsLine) (s : SolverState), solver_wf s →
      trail_wf s → s.level = 0 →
      (∀ l ∈ lines, l = DimacsLine.commentLine ∨
        ∃ toks, l = DimacsLine.clauseLine toks ∧
          wf_clause_tokens s.num_vars toks) →
      ∃ s1, read_dimacs_cnf_file s lines = some s1 ∧
        ((solver_wf s1 ∧ trail_wf s1 ∧ s1.level = 0 ∧
          s1.res = s.res ∧ s1.num_vars = s.num_vars) ∨
          s1.res = Verdict.vUnsat) := by
  intro lines
  induction lines with
  | nil =>
    intro s hwf ht hlev _
    exact ⟨s, rfl, Or.inl ⟨hwf, ht, hlev, rfl, rfl⟩⟩
  | cons l rest ih =>
    intro s hwf ht hlev hwfl
    rcases hwfl l (by simp) with hc | ⟨toks, hcl, hwft⟩
    · subst hc
      rw [read_dimacs_cnf_file]
      exact ih s hwf ht hlev (fun l2 hl2 => hwfl l2 (by simp [hl2]))
    · subst hcl
      rw [read_dimacs_cnf_file]
      obtain ⟨s1, r, hadd, hr01, hwf1, ht1, hnv1, hlev1, hr0, hr1⟩ :=
        add_clause_ok hwf ht hlev hwft
      rw [hadd]
      rcases hr01 with hr0e | hr1e
      · subst hr0e
        simp only
        exact ⟨s1, rfl, Or.inr (hr0 rfl)⟩
      · subst hr1e
        simp only
        obtain ⟨s2, hrec, hres⟩ := ih s1 hwf1 ht1 hlev1
          (fun l2 hl2 => by
            rcases hwfl l2 (by simp [hl2]) with h | ⟨t2, he2, hw2⟩
            · exact Or.inl h
            · refine Or.inr ⟨t2, he2, ?_⟩
              rw [hnv1]
              exact hw2)
        refine ⟨s2, hrec, ?_⟩
        rcases hres with ⟨a1, a2, a3, a4, a5⟩ | hU
        · exact Or.inl ⟨a1, a2, a3, a4.trans (hr1 rfl), a5.trans hnv1⟩
        · exact Or.inr hU

lemma read_comments :
    ∀ (pre : List DimacsLine), (∀ l ∈ pre, l = DimacsLine.commentLine) →
      ∀ (s : SolverState) (rest : List DimacsLine),
        read_dimacs_cnf_file s (pre ++ rest) =
          read_dimacs_cnf_file s rest := by
  intro pre
  induction pre with
  | nil => intro _ s rest; rw [List.nil_append]
  | cons l p ih =>
    intro h s rest
    have hl : l = DimacsLine.commentLine := h l (by simp)
    subst hl
    rw [List.cons_append, read_dimacs_cnf_file]
    exact ih (fun x hx => h x (by simp [hx])) s rest

/-- Claim C9: for every well-formed DIMACS input (any number of leading
comment lines, then the header, then comment lines and well-formed
clause lines: nonempty before the `0` terminator, every literal nonzero
with variable within the declared count `N ≥ 0`), the whole solve loop
terminates with a definite answer — it neither raises nor loops: the
explicit fuel `(N + 2) ^ (N + 1)` bounds the number of
BCP / analyze / backtrack / decide rounds, because every trail push and
every backtrack strictly increases the measure `mu`, which is bounded by
`muBound N = (N + 2) ^ (N + 1)` on the reachable (well-formed) states. -/
theorem claim9_theorem (N nc : Int) (pre rest : List DimacsLine)
    (h0 : 0 ≤ N)
    (hpre : ∀ l ∈ pre, l = DimacsLine.commentLine)
    (hrest : ∀ l ∈ rest, l = DimacsLine.commentLine ∨
      ∃ toks, l = DimacsLine.clauseLine toks ∧ wf_clause_tokens N toks) :
    ∃ s1, solve (N.toNat + 2) ((N.toNat + 2) ^ (N.toNat + 1) + 1)
        ((N.toNat + 2) ^ (N.toNat + 1) + 1) init_state
        (pre ++ DimacsLine.headerLine N nc :: rest) = some s1 := by
  unfold solve
  rw [read_comments pre hpre init_state (DimacsLine.headerLine N nc :: rest)]
  rw [read_dimacs_cnf_file]
  have hwf0 : solver_wf { init_state with num_vars := N } := by
    refine ⟨watch_wf_empty _ rfl rfl rfl, ?_, ?_, ?_⟩
    · intro n hn
      exact absurd hn (by simp [init_state])
    · intro n hn
      exact absurd hn (by simp [init_state])
    · intro cl hcl
      exact absurd hcl (by simp [init_state])
  have ht0 : trail_wf { init_state with num_vars := N } := by
    refine ⟨?_, ?_, ?_, ?_, ?_, ?_, ?_, ?_, ?_⟩
    · simp [init_state]
    · simp [init_state]
    · intro k
      simp [init_state, alookup]
    · simp [init_state]
    · intro n hn
      exact absurd hn (by simp [init_state])
    · intro n hn
      exact absurd hn (by simp [init_state])
    · intro _
      rfl
    · intro l hl1 hl2
      simp only [init_state] at hl2
      omega
    · exact h0
  obtain ⟨sIn, hread, hres⟩ := read_lines_ok rest
    { init_state with num_vars := N } hwf0 ht0 rfl
    (by
      intro l hl
      rcases hrest l hl with h | ⟨toks, he, hw⟩
      · exact Or.inl h
      · exact Or.inr ⟨toks, he, hw⟩)
  rw [hread]
  simp only
  by_cases hU : sIn.res = Verdict.vUnsat
  · rw [if_pos hU]
    exact ⟨sIn, rfl⟩
  · rw [if_neg hU]
    rcases hres with ⟨hwfI, htI, hlevI, hresI, hnvI⟩ | hU2
    · have hnvI2 : sIn.num_vars = N := hnvI
      have hmb : muBound N = (N.toNat + 2) ^ (N.toNat + 1) := rfl
      obtain ⟨s1, houter⟩ := outer_loop_ok
        ((N.toNat + 2) ^ (N.toNat + 1) + 1) true sIn hwfI htI
        (fun h => absurd h (by decide))
        (by
          rw [hnvI2, hmb]
          omega)
      rw [hnvI2, hmb] at houter
      exact ⟨s1, houter⟩
    · exact absurd hU2 hU

/-- Witness for C9: the spec's three-variable example input, with the
concrete fuels `N + 2 = 5` and `(N + 2) ^ (N + 1) + 1 = 626`. -/
theorem claim9_witness :
    (0 ≤ (3 : Int)) ∧
    (∀ l ∈ ([] : List DimacsLine), l = DimacsLine.commentLine) ∧
    (∀ l ∈ [DimacsLine.clauseLine [1, 2, 0], DimacsLine.clauseLine [-1, 3, 0],
        DimacsLine.clauseLine [-2, -3, 0]],
      l = DimacsLine.commentLine ∨
        ∃ toks, l = DimacsLine.clauseLine toks ∧ wf_clause_tokens 3 toks) ∧
    (∃ s1, solve 5 (5 ^ 4 + 1) (5 ^ 4 + 1) init_state
        ([] ++ DimacsLine.headerLine 3 3 ::
          [DimacsLine.clauseLine [1, 2, 0], DimacsLine.clauseLine [-1, 3, 0],
            DimacsLine.clauseLine [-2, -3, 0]]) = some s1) := by
  have hpre : ∀ l ∈ ([] : List DimacsLine), l = DimacsLine.commentLine := by
    intro l hl
    exact absurd hl (by simp)
  have hrest : ∀ l ∈ [DimacsLine.clauseLine [1, 2, 0],
      DimacsLine.clauseLine [-1, 3, 0], DimacsLine.clauseLine [-2, -3, 0]],
      l = DimacsLine.commentLine ∨
        ∃ toks, l = DimacsLine.clauseLine toks ∧ wf_clause_tokens 3 toks := by
    intro l hl
    rcases List.mem_cons.mp hl with h1 | hl2
    · exact Or.inr ⟨[1, 2, 0], h1, [1, 2], rfl, by decide, by decide⟩
    rcases List.mem_cons.mp hl2 with h2 | hl3
    · exact Or.inr ⟨[-1, 3, 0], h2, [-1, 3], rfl, by decide, by decide⟩
    rcases List.mem_cons.mp hl3 with h3 | hl4
    · exact Or.inr ⟨[-2, -3, 0], h3, [-2, -3], rfl, by decide, by decide⟩
    · exact absurd hl4 (by simp)
  exact ⟨by decide, hpre, hrest,
    claim9_theorem 3 3 [] _ (by decide) hpre hrest⟩
